import Mathlib

/-!
# Shell: the line-processing engine of `shell.c`

A shallow embedding of `processLine` and `interactiveShell` from `src/shell.c`,
and the properties of the specification proved or refuted on it.

* A C string lives in a buffer `List Char`; a `char *` is an offset into that
  buffer (a `Nat`), a nullable pointer is an `Option Nat`.
* `strtok` is the C library function (ISO C 7.24.5.8): it keeps a hidden
  static pointer and overwrites the delimiter that ends a token with NUL.
  Both are explicit here (`Mem.save`, `Mem.buf`).
* `fork`, `execvp`, `wait` and `waitpid` are recorded as a trace of `Event`s;
  `fork` is assumed to succeed, and a child is described by the `execvp` it
  reaches.
* Undefined behaviour of the C code (a NULL passed to `strcmp`, a store past
  the end of `args`) ends the run with a dedicated `Outcome`.
* The loops run on fuel; the fuel handed out is proved sufficient for every
  line of at most `MAX_LINE` characters (`processLine_safe`).
-/

namespace Shell

/-! ## Memory and C strings -/

/-- The string terminator. -/
def NUL : Char := Char.ofNat 0

/-- The constant `MAX_LINE`, the maximum length of a command (80). -/
def MAX_LINE : Nat := 80

/-- Number of slots of `char *args[MAX_LINE / 2 + 1]`. -/
def ARGS_LEN : Nat := MAX_LINE / 2 + 1

/-- The line buffer together with the hidden static pointer of `strtok`. -/
structure Mem where
  buf : List Char
  save : Nat
deriving DecidableEq

/-- The byte at offset `p`. Every buffer used here ends in NUL and no read goes past that
NUL; an offset outside the list reads as NUL. -/
def peek (buf : List Char) (p : Nat) : Char := buf.getD p NUL

/-- The C string that starts at offset `p`. -/
def cstr (buf : List Char) (p : Nat) : List Char :=
  (buf.drop p).takeWhile (fun c => c != NUL)

/-- The libc function `strlen`. -/
def strlen (buf : List Char) (p : Nat) : Nat := (cstr buf p).length

/-- The libc function `strspn`: length of the initial run of delimiter bytes. -/
def strspn (buf : List Char) (p : Nat) (delim : List Char) : Nat :=
  ((buf.drop p).takeWhile (fun c => delim.contains c)).length

/-- The libc function `strcspn`: length of the initial run free of delimiter bytes. -/
def strcspn (buf : List Char) (p : Nat) (delim : List Char) : Nat :=
  ((buf.drop p).takeWhile (fun c => c != NUL && !delim.contains c)).length

/-- The libc function `strtok(s, delim)`; `s = none` is the call `strtok(NULL, delim)`.
Skip the leading delimiters; at the end of the string return NULL; otherwise the token runs up to
the next delimiter, which is overwritten with NUL and stepped over, or up to the end of the
string. The hidden pointer is left where the next search starts. -/
def strtok (s : Option Nat) (delim : List Char) (m : Mem) : Option Nat × Mem :=
  let s0 := match s with
    | some p => p
    | none => m.save
  if peek m.buf s0 = NUL then (none, { m with save := s0 })
  else
    let s1 := s0 + strspn m.buf s0 delim
    if peek m.buf s1 = NUL then (none, { m with save := s1 })
    else
      let e := s1 + strcspn m.buf s1 delim
      if peek m.buf e = NUL then (some s1, { m with save := e })
      else (some s1, { buf := m.buf.set e NUL, save := e + 1 })

/-- The libc function `strncpy(dst, src, n)`, for a source string given without its NUL. -/
def strncpy (dst src : List Char) (n : Nat) : List Char :=
  (src.take n ++ List.replicate (n - (src.take n).length) NUL) ++ dst.drop n

/-! ## Observable behaviour -/

/-- What a child's standard stream is bound to when it reaches `execvp`. -/
inductive Stream where
  | inherited
  | file (path : List Char)
  | pipeRead
  | pipeWrite
deriving DecidableEq

/-- A forked child: the `execvp` it reaches (an empty `argv` is `execvp(NULL, ...)`), with the
bindings of its standard streams, or a store past `args2` before that. -/
inductive Child where
  | exec (argv : List (List Char)) (stdin stdout : Stream)
  | fault
deriving DecidableEq

/-- The system calls and output of the controlling process, in order: `pipe(fd)`, a `fork()`
with what its child does, `waitpid(pid, &status, 0)` for the child just forked, `wait(NULL)`,
and `printAsciiArt()`. -/
inductive Event where
  | pipe
  | fork (c : Child)
  | waitpid
  | wait
  | printAsciiArt
deriving DecidableEq

/-- How a run of `processLine` ends: it returns, it passes a NULL `args[0]` to `strcmp`
(line 196), it accesses an array out of bounds, or the fuel of the model runs out. -/
inductive Outcome where
  | returned
  | nullDeref
  | outOfBounds
  | outOfFuel
deriving DecidableEq

/-- The result of `processLine`: its trace, the buffer it leaves, and how it ended. -/
structure Result where
  trace : List Event
  buf : List Char
  outcome : Outcome
deriving DecidableEq

/-- Put the events `evs` in front of the trace of `r`. -/
def Result.after (evs : List Event) (r : Result) : Result :=
  { r with trace := evs ++ r.trace }

/-! ## The tokenizer loop of `processLine` (lines 121-194) -/

/-- The locals of one iteration of the command loop (lines 110-122), with the memory. A slot
of `args` that was never written reads as NULL; the code reads no slot before writing it. -/
structure Frame where
  mem : Mem
  args : List (Option Nat)
  i : Nat
  input_file : Option Nat
  output_file : Option Nat
  should_wait : Bool
deriving DecidableEq

/-- How the loop `while (args[i] != NULL)` is left: through its condition or the `break` of
line 151, into the pipe branch of line 153, by a store past `args[MAX_LINE / 2]`, or because the
fuel of the model ran out. -/
inductive LoopExit where
  | fallthrough (f : Frame)
  | pipeline (f : Frame)
  | overflow
  | fuel
deriving DecidableEq

/-- The strings `execvp` reads from a NULL-terminated pointer array. -/
def argvOf (buf : List Char) : List (Option Nat) → List (List Char)
  | some p :: rest => cstr buf p :: argvOf buf rest
  | _ => []

/-- Lines 125-194: the loop `while (args[i] != NULL) { ... }`, entered with `args[i]` already
stored. Each turn calls `strtok` at least once or leaves the loop. -/
def tokLoop : Nat → Frame → LoopExit
  | 0, _ => .fuel
  | fuel + 1, f =>
    match f.args.getD f.i none with
    | none => .fallthrough f
    | some a =>
      -- lines 127-136: `>`, then the path if there is one, then `continue`
      if cstr f.mem.buf a = ['>'] then
        match strtok none [' '] f.mem with
        | (none, m1) => tokLoop fuel { f with mem := m1, args := f.args.set f.i none }
        | (some p, m1) =>
          match strtok none [' '] m1 with
          | (t, m2) =>
            tokLoop fuel { f with mem := m2, args := f.args.set f.i t, output_file := some p }
      -- lines 137-146: `<`, likewise
      else if cstr f.mem.buf a = ['<'] then
        match strtok none [' '] f.mem with
        | (none, m1) => tokLoop fuel { f with mem := m1, args := f.args.set f.i none }
        | (some p, m1) =>
          match strtok none [' '] m1 with
          | (t, m2) =>
            tokLoop fuel { f with mem := m2, args := f.args.set f.i t, input_file := some p }
      -- lines 147-152: a standalone `&`, then `break`
      else if cstr f.mem.buf a = ['&'] then
        .fallthrough { f with should_wait := false, args := f.args.set f.i none }
      -- lines 153-156: `|`; the rest of the branch is in `cmdLoop`
      else if cstr f.mem.buf a = ['|'] then
        .pipeline { f with args := f.args.set f.i none }
      -- lines 192-193: `i++; args[i] = strtok(NULL, " ")`
      else if ARGS_LEN ≤ f.i + 1 then .overflow
      else
        match strtok none [' '] f.mem with
        | (t, m1) => tokLoop fuel { f with mem := m1, i := f.i + 1, args := f.args.set (f.i + 1) t }

/-- Lines 121-194: `args[0] = strtok(command, " ")` followed by the loop. -/
def tokenize (m : Mem) (command : Nat) (should_wait : Bool) : LoopExit :=
  match strtok (some command) [' '] m with
  | (t, m1) =>
    tokLoop (m.buf.length + 2)
      { mem := m1, args := (List.replicate ARGS_LEN none).set 0 t, i := 0,
        input_file := none, output_file := none, should_wait := should_wait }

/-- Lines 176-182 in the second child: `args2[j++] = cmd2` for every remaining token, then
`args2[j] = NULL` and `execvp`. The child works on its own copy of the memory. -/
def stage2Loop : Nat → Mem → Option Nat → List (Option Nat) → Nat → Option Child
  | 0, _, _, _, _ => none
  | fuel + 1, m, cmd2, args2, j =>
    match cmd2 with
    | none =>
      if ARGS_LEN ≤ j then some .fault
      else some (.exec (argvOf m.buf (args2.set j none)) .pipeRead .inherited)
    | some p =>
      if ARGS_LEN ≤ j then some .fault
      else
        match strtok none [' '] m with
        | (t, m1) => stage2Loop fuel m1 t (args2.set j (some p)) (j + 1)

/-- Lines 168-185: the second child of the pipe branch, from `cmd2 = strtok(NULL, " ")` on;
`none` when the fuel of the model runs out. -/
def stage2 (m : Mem) : Option Child :=
  match strtok none [' '] m with
  | (t, m1) => stage2Loop (m.buf.length + 2) m1 t (List.replicate ARGS_LEN none) 0

/-- The stream a redirection pointer stands for. -/
def redirect (buf : List Char) : Option Nat → Stream
  | none => .inherited
  | some p => .file (cstr buf p)

/-! ## `processLine` (lines 104-254) -/

/-- Lines 108-253: the loop `while (command != NULL)` of `processLine`. An empty `command`
(which `strtok` never returns) would make line 115 read `command[-1]`. -/
def cmdLoop : Nat → Option Nat → Mem → Result
  | 0, _, m => ⟨[], m.buf, .outOfFuel⟩
  | _ + 1, none, m => ⟨[], m.buf, .returned⟩
  | fuel + 1, some command, m =>
    let n := strlen m.buf command
    if n = 0 then ⟨[], m.buf, .outOfBounds⟩
    else
      -- lines 115-119: a `&` as last character is removed and clears `should_wait`
      let bg := decide (peek m.buf (command + n - 1) = '&')
      let m0 : Mem := if bg then { m with buf := m.buf.set (command + n - 1) NUL } else m
      match tokenize m0 command (!bg) with
      | .fuel => ⟨[], m0.buf, .outOfFuel⟩
      | .overflow => ⟨[], m0.buf, .outOfBounds⟩
      -- lines 157-190: two children, two `wait(NULL)`, `return`
      | .pipeline f =>
        match stage2 f.mem with
        | none => ⟨[], f.mem.buf, .outOfFuel⟩
        | some c2 =>
          ⟨[.pipe, .fork (.exec (argvOf f.mem.buf f.args) .inherited .pipeWrite), .fork c2,
            .wait, .wait], f.mem.buf, .returned⟩
      | .fallthrough f =>
        -- line 196: `strcmp(args[0], "ascii")`
        match f.args.getD 0 none with
        | none => ⟨[], f.mem.buf, .nullDeref⟩
        | some a0 =>
          if cstr f.mem.buf a0 = "ascii".toList then
            match strtok none [';'] f.mem with
            | (c, m2) => (cmdLoop fuel c m2).after [.printAsciiArt]
          -- lines 203-252: fork, the child's redirections and `execvp`, the parent's wait
          else
            let child := Child.exec (argvOf f.mem.buf f.args)
              (redirect f.mem.buf f.input_file) (redirect f.mem.buf f.output_file)
            let evs := if f.should_wait then [Event.fork child, Event.waitpid]
              else [Event.fork child]
            match strtok none [';'] f.mem with
            | (c, m2) => (cmdLoop fuel c m2).after evs

/-- The function `processLine(char *line)` on the buffer whose offset 0 is `line`: line 106,
`command = strtok(line, ";")`, then the command loop. -/
def processBuf (buf : List Char) : Result :=
  match strtok (some 0) [';'] ⟨buf, 0⟩ with
  | (c, m) => cmdLoop (buf.length + 1) c m

/-- The function `processLine` on a line given as text: the buffer is the text plus its NUL. -/
def processLine (line : List Char) : Result := processBuf (line ++ [NUL])

/-! ## `interactiveShell` (lines 41-102) -/

/-- What the interactive loop does, in order: the message of line 73, the message of line 76
with the string it shows, a call of `processLine` with its argument and result, and the message
of line 57 at the end of the input. -/
inductive ShellEvent where
  | noHistory
  | recall (shown : List Char)
  | run (arg : List Char) (r : Result)
  | exiting
deriving DecidableEq

/-- The global `char hist[MAX_LINE + 2]`, zero-initialised. -/
def hist0 : List Char := List.replicate (MAX_LINE + 2) NUL

/-- Lines 47-98: the loop of `interactiveShell` on the lines `getline` returns (C strings,
newline stripped), then EOF, with the global `hist`. A call of `processLine` that does not
return ends the shell. -/
def interactiveShell : List (List Char) → List Char → List ShellEvent
  | [], _ => [.exiting]
  | text :: rest, hist =>
    if text = "!!".toList then
      if strlen hist 0 = 0 then .noHistory :: interactiveShell rest hist
      else
        .recall (cstr hist 0) :: .run (cstr hist 0) (processBuf hist) ::
          (if (processBuf hist).outcome = .returned
            then interactiveShell rest (processBuf hist).buf else [])
    else if text = "exit".toList then []
    else if text = [] then interactiveShell rest (strncpy hist text MAX_LINE)
    else
      .run text (processLine text) ::
        (if (processLine text).outcome = .returned
          then interactiveShell rest (strncpy hist text MAX_LINE) else [])

/-- The strings handed to `processLine`, in order. -/
def processLineArgs : List ShellEvent → List (List Char)
  | [] => []
  | .run arg _ :: rest => arg :: processLineArgs rest
  | _ :: rest => processLineArgs rest

/-! ## The vocabulary of the claims -/

/-- The operator characters of the shell. -/
def OPS : List Char := [';', '&', '|', '<', '>']

/-- The first non-empty `;`-delimited segment of a line (empty when there is none): the
command unit that line 106 hands to the loop. -/
def firstSegment (line : List Char) : List Char :=
  (line.dropWhile (fun c => c == ';')).takeWhile (fun c => c != ';')

/-- The non-empty pieces of `s` between spaces. -/
def spaceSplit (s : List Char) : List (List Char) :=
  (s.splitOn ' ').filter (fun w => !w.isEmpty)

/-- The claim's whitespace split: the non-empty pieces between blanks, tabs and newlines. -/
def whitespaceSplit (s : List Char) : List (List Char) :=
  (s.splitOnP Char.isWhitespace).filter (fun w => !w.isEmpty)

/-- Tokens written on one line, one space between neighbours. -/
def unwords : List (List Char) → List Char
  | [] => []
  | [w] => w
  | w :: v :: ws => w ++ ' ' :: unwords (v :: ws)

/-- A plain word: not empty, and free of NUL, space and operator characters. -/
def IsWord (w : List Char) : Prop :=
  w ≠ [] ∧ ∀ c ∈ w, c ≠ NUL ∧ c ≠ ' ' ∧ c ∉ OPS

/-- A token: not empty, and free of NUL, space and `;`. -/
def IsToken (w : List Char) : Prop :=
  w ≠ [] ∧ ∀ c ∈ w, c ≠ NUL ∧ c ≠ ' ' ∧ c ≠ ';'

instance (w : List Char) : Decidable (IsWord w) := by
  unfold IsWord; infer_instance

instance (w : List Char) : Decidable (IsToken w) := by
  unfold IsToken; infer_instance

/-- One element of a command: a plain word or a redirection pair. -/
inductive Item where
  | word (w : List Char)
  | gt (path : List Char)
  | lt (path : List Char)

/-- The tokens an item is written with. -/
def Item.toks : Item → List (List Char)
  | .word w => [w]
  | .gt p => [['>'], p]
  | .lt p => [['<'], p]

/-- The tokens of a list of items. -/
def itemToks : List Item → List (List Char)
  | [] => []
  | it :: is => it.toks ++ itemToks is

/-- The plain words among the items. -/
def itemWords : List Item → List (List Char)
  | [] => []
  | .word w :: is => w :: itemWords is
  | _ :: is => itemWords is

/-- The output path after the items: the last `>` target, or the one before. -/
def itemOut : List Item → Option (List Char) → Option (List Char)
  | [], o => o
  | .gt p :: is, _ => itemOut is (some p)
  | _ :: is, o => itemOut is o

/-- The input path after the items: the last `<` target, or the one before. -/
def itemIn : List Item → Option (List Char) → Option (List Char)
  | [], o => o
  | .lt p :: is, _ => itemIn is (some p)
  | _ :: is, o => itemIn is o

/-- The words and paths of an item are plain words. -/
def Item.ok : Item → Prop
  | .word w => IsWord w
  | .gt p => IsWord p
  | .lt p => IsWord p

instance (it : Item) : Decidable it.ok :=
  match it with
  | .word w => inferInstanceAs (Decidable (IsWord w))
  | .gt p => inferInstanceAs (Decidable (IsWord p))
  | .lt p => inferInstanceAs (Decidable (IsWord p))

/-- The stream an optional path stands for. -/
def streamOf : Option (List Char) → Stream
  | none => .inherited
  | some w => .file w

/-- The events of one launched command. -/
def launch (argv : List (List Char)) (inp out : Option (List Char)) (sw : Bool) : List Event :=
  if sw then [.fork (.exec argv (streamOf inp) (streamOf out)), .waitpid]
  else [.fork (.exec argv (streamOf inp) (streamOf out))]

/-- What the tokenizer hands to the launcher, when the loop is left normally. -/
def LoopExit.handed : LoopExit → Option (List (List Char) × Stream × Stream × Bool)
  | .fallthrough f => some (argvOf f.mem.buf f.args, redirect f.mem.buf f.input_file,
      redirect f.mem.buf f.output_file, f.should_wait)
  | _ => none

/-- The value of `i` (the slot that receives the closing NULL) when the loop is left. -/
def LoopExit.index : LoopExit → Option Nat
  | .fallthrough f => some f.i
  | .pipeline f => some f.i
  | _ => none

/-! ## Invariants used in the proofs -/

/-- The token at `p` reads `w` and lies before the hidden pointer of `strtok`. -/
def Pin (m : Mem) (p : Nat) (w : List Char) : Prop :=
  cstr m.buf p = w ∧ p + w.length ≤ m.save

/-- An optional redirection pointer reads the optional path `w`. -/
def PinO (m : Mem) : Option Nat → Option (List Char) → Prop
  | none, none => True
  | some p, some w => Pin m p w
  | _, _ => False

/-- From offset `p` on, the buffer holds the string `r`, its NUL, and then `X`. -/
def Lay (buf : List Char) (p : Nat) (r X : List Char) : Prop :=
  ∃ P, buf = P ++ (r ++ NUL :: X) ∧ p = P.length

/-- What `strtok` has still to read: the NUL-free string `r`, then NUL and `X`. -/
structure Rem (m : Mem) (r X : List Char) : Prop where
  lay : Lay m.buf m.save r X
  nonul : ∀ c ∈ r, c ≠ NUL

/-- A token that is none of the four operator tokens. -/
def PlainTok (w : List Char) : Prop :=
  w ≠ ['>'] ∧ w ≠ ['<'] ∧ w ≠ ['&'] ∧ w ≠ ['|']

/-- The step `args[i] = strtok(NULL, " ")` followed by the loop. -/
def fetchLoop (fuel : Nat) (f : Frame) : LoopExit :=
  match strtok none [' '] f.mem with
  | (t, m1) => tokLoop fuel { f with mem := m1, args := f.args.set f.i t }

/-- The frame `tokenize` starts from. -/
def frame0 (m : Mem) (command : Nat) (sw : Bool) : Frame :=
  { mem := ⟨m.buf, command⟩, args := List.replicate ARGS_LEN none, i := 0,
    input_file := none, output_file := none, should_wait := sw }

/-- The loop invariant: `args[0..i)` point at the words `ws`, the redirections at `inp`, `out`. -/
structure FInv (f : Frame) (ptrs : List Nat) (ws : List (List Char))
    (inp out : Option (List Char)) : Prop where
  len : f.args.length = ARGS_LEN
  idx : f.i = ptrs.length
  pre : f.args.take f.i = ptrs.map some
  pins : List.Forall₂ (Pin f.mem) ptrs ws
  pin_in : PinO f.mem f.input_file inp
  pin_out : PinO f.mem f.output_file out

/-- What a frame that left the loop hands to the launcher. -/
structure Final (f : Frame) (ws : List (List Char)) (inp out : Option (List Char))
    (sw : Bool) : Prop where
  argv : argvOf f.mem.buf f.args = ws
  rin : redirect f.mem.buf f.input_file = streamOf inp
  rout : redirect f.mem.buf f.output_file = streamOf out
  wait : f.should_wait = sw

/-- The buffer of a line of `L` characters: `L + 1` bytes, the last one NUL. -/
def Good (L : Nat) (buf : List Char) : Prop :=
  buf.length = L + 1 ∧ peek buf L = NUL

/-- What holds at the head of the tokenizer loop, for the command that starts at `p`. -/
def HeadOK (L p : Nat) (f : Frame) : Prop :=
  f.args.length = ARGS_LEN ∧ Good L f.mem.buf ∧ p ≤ f.mem.save ∧
    (f.i ≠ 0 → p < f.mem.save) ∧ f.i < ARGS_LEN ∧
    match f.args.getD f.i none with
    | none => True
    | some t => p ≤ t ∧ 2 * f.i ≤ t ∧ t < L ∧ t < f.mem.save ∧
        (t + 2 ≤ f.mem.save ∨ peek f.mem.buf f.mem.save = NUL)

/-- Enough fuel at the head of the tokenizer loop. -/
def FuelOK (L : Nat) (save : Nat) (cur : Option Nat) (fuel : Nat) : Prop :=
  match cur with
  | none => 1 ≤ fuel
  | some _ => (L + 1 - save) + 2 ≤ fuel

/-- The tokenizer loop was left without a fault. -/
def ExitOK (L p : Nat) : LoopExit → Prop
  | .fallthrough f => Good L f.mem.buf ∧ p ≤ f.mem.save ∧ (f.i ≠ 0 → p < f.mem.save) ∧
      f.args.getD f.i none = none ∧ f.i < ARGS_LEN
  | .pipeline f => Good L f.mem.buf ∧ f.i < ARGS_LEN
  | _ => False

/-- What holds of the current token of the second child's loop. -/
def Head2 (L : Nat) (m : Mem) (j : Nat) : Option Nat → Prop
  | none => j < ARGS_LEN
  | some t => 2 * j ≤ t ∧ t < L ∧ (t + 2 ≤ m.save ∨ peek m.buf m.save = NUL)

/-- A run that neither stored out of bounds nor ran out of fuel, in the parent or a child. -/
def Safe (r : Result) : Prop :=
  (r.outcome = .returned ∨ r.outcome = .nullDeref) ∧ Event.fork .fault ∉ r.trace

/-- The command pointer is inside the line and there is fuel for the commands that remain. -/
def CmdOK (L : Nat) (m : Mem) (fuel : Nat) : Option Nat → Prop
  | none => 1 ≤ fuel
  | some p => p < L ∧ peek m.buf p ≠ NUL ∧ (L - p) + 1 ≤ fuel

/-! ## Buffers -/

theorem peek_append (A Y : List Char) (k : Nat) : peek (A ++ Y) (A.length + k) = peek Y k := by
  induction A with
  | nil => simp
  | cons a A ih =>
    have h : (a :: A).length + k = (A.length + k) + 1 := by simp; omega
    rw [List.cons_append, h]
    simpa [peek] using ih

theorem peek_append_zero (A Y : List Char) : peek (A ++ Y) A.length = peek Y 0 := by
  simpa using peek_append A Y 0

theorem drop_append_add (A Y : List Char) (k : Nat) : (A ++ Y).drop (A.length + k) = Y.drop k := by
  induction A with
  | nil => simp
  | cons a A ih =>
    have h : (a :: A).length + k = (A.length + k) + 1 := by simp; omega
    rw [List.cons_append, h, List.drop_succ_cons]; exact ih

theorem set_append_add (A Y : List Char) (k : Nat) (c : Char) :
    (A ++ Y).set (A.length + k) c = A ++ Y.set k c := by
  induction A with
  | nil => simp
  | cons a A ih =>
    have h : (a :: A).length + k = (A.length + k) + 1 := by simp; omega
    rw [List.cons_append, h, List.set_cons_succ, ih]; rfl

theorem takeWhile_stop (p : Char → Bool) (a : List Char) (c : Char) (X : List Char)
    (ha : ∀ x ∈ a, p x = true) (hc : p c = false) : (a ++ c :: X).takeWhile p = a := by
  induction a with
  | nil => simp [List.takeWhile, hc]
  | cons x a ih =>
    have hx : p x = true := ha x (List.mem_cons_self _ _)
    simp [List.takeWhile, hx]
    exact ih (fun y hy => ha y (List.mem_cons_of_mem _ hy))

/-! ## `strtok` -/

/-- A token that ends at a delimiter: the delimiter is overwritten. -/
theorem strtok_delim (d : Char) (hd : d ≠ NUL) (P sp w X : List Char)
    (hsp : ∀ x ∈ sp, x = d) (hw : w ≠ []) (hwc : ∀ x ∈ w, x ≠ NUL ∧ x ≠ d) :
    strtok none [d] ⟨P ++ (sp ++ (w ++ d :: X)), P.length⟩ =
      (some (P.length + sp.length),
        ⟨P ++ (sp ++ (w ++ NUL :: X)), P.length + sp.length + w.length + 1⟩) := by
  obtain ⟨c, w', rfl⟩ := List.exists_cons_of_ne_nil hw
  have hc := hwc c (List.mem_cons_self _ _)
  have hspn : strspn (P ++ (sp ++ (c :: w' ++ d :: X))) P.length [d] = sp.length := by
    unfold strspn
    rw [List.drop_left]
    have := takeWhile_stop (fun x => [d].contains x) sp c (w' ++ d :: X)
      (by intro x hx; simp [hsp x hx]) (by simp [hc.2])
    simpa using congrArg List.length this
  have hcsp : strcspn (P ++ (sp ++ (c :: w' ++ d :: X))) (P.length + sp.length) [d]
      = (c :: w').length := by
    unfold strcspn
    have e : P ++ (sp ++ (c :: w' ++ d :: X)) = (P ++ sp) ++ (c :: w' ++ d :: X) := by simp
    rw [e, ← List.length_append, List.drop_left]
    have := takeWhile_stop (fun x => x != NUL && !(List.contains [d] x)) (c :: w') d X
      (by intro x hx; have := hwc x hx; simp [this.1, this.2]) (by simp)
    simpa using congrArg List.length this
  have p0 : peek (P ++ (sp ++ (c :: w' ++ d :: X))) P.length ≠ NUL := by
    rw [peek_append_zero]
    cases sp with
    | nil => simpa [peek] using hc.1
    | cons y sp => simpa [peek, hsp y (List.mem_cons_self _ _)] using hd
  have p1 : peek (P ++ (sp ++ (c :: w' ++ d :: X))) (P.length + sp.length) = c := by
    have e : P ++ (sp ++ (c :: w' ++ d :: X)) = (P ++ sp) ++ (c :: w' ++ d :: X) := by simp
    rw [e, ← List.length_append, peek_append_zero]; rfl
  have p2 : peek (P ++ (sp ++ (c :: w' ++ d :: X))) (P.length + sp.length + (c :: w').length) = d := by
    have e : P ++ (sp ++ (c :: w' ++ d :: X)) = (P ++ sp ++ (c :: w')) ++ (d :: X) := by simp
    rw [e, ← List.length_append, ← List.length_append, peek_append_zero]; rfl
  have hset : (P ++ (sp ++ (c :: w' ++ d :: X))).set (P.length + sp.length + (c :: w').length) NUL
      = P ++ (sp ++ (c :: w' ++ NUL :: X)) := by
    have e : P ++ (sp ++ (c :: w' ++ d :: X)) = (P ++ sp ++ (c :: w')) ++ (d :: X) := by simp
    rw [e, ← List.length_append, ← List.length_append]
    have := set_append_add (P ++ sp ++ (c :: w')) (d :: X) 0 NUL
    simp only [Nat.add_zero] at this
    rw [this]; simp
  simp only [strtok, hspn, hcsp, p0, p1, p2, hset, if_neg hc.1, if_neg hd, if_false]

/-- A token that runs up to the terminating NUL: nothing is written. -/
theorem strtok_end (d : Char) (hd : d ≠ NUL) (P sp w X : List Char)
    (hsp : ∀ x ∈ sp, x = d) (hw : w ≠ []) (hwc : ∀ x ∈ w, x ≠ NUL ∧ x ≠ d) :
    strtok none [d] ⟨P ++ (sp ++ (w ++ NUL :: X)), P.length⟩ =
      (some (P.length + sp.length),
        ⟨P ++ (sp ++ (w ++ NUL :: X)), P.length + sp.length + w.length⟩) := by
  obtain ⟨c, w', rfl⟩ := List.exists_cons_of_ne_nil hw
  have hc := hwc c (List.mem_cons_self _ _)
  have hspn : strspn (P ++ (sp ++ (c :: w' ++ NUL :: X))) P.length [d] = sp.length := by
    unfold strspn
    rw [List.drop_left]
    have := takeWhile_stop (fun x => [d].contains x) sp c (w' ++ NUL :: X)
      (by intro x hx; simp [hsp x hx]) (by simp [hc.2])
    simpa using congrArg List.length this
  have hcsp : strcspn (P ++ (sp ++ (c :: w' ++ NUL :: X))) (P.length + sp.length) [d]
      = (c :: w').length := by
    unfold strcspn
    have e : P ++ (sp ++ (c :: w' ++ NUL :: X)) = (P ++ sp) ++ (c :: w' ++ NUL :: X) := by simp
    rw [e, ← List.length_append, List.drop_left]
    have := takeWhile_stop (fun x => x != NUL && !(List.contains [d] x)) (c :: w') NUL X
      (by intro x hx; have := hwc x hx; simp [this.1, this.2]) (by simp)
    simpa using congrArg List.length this
  have p0 : peek (P ++ (sp ++ (c :: w' ++ NUL :: X))) P.length ≠ NUL := by
    rw [peek_append_zero]
    cases sp with
    | nil => simpa [peek] using hc.1
    | cons y sp => simpa [peek, hsp y (List.mem_cons_self _ _)] using hd
  have p1 : peek (P ++ (sp ++ (c :: w' ++ NUL :: X))) (P.length + sp.length) = c := by
    have e : P ++ (sp ++ (c :: w' ++ NUL :: X)) = (P ++ sp) ++ (c :: w' ++ NUL :: X) := by simp
    rw [e, ← List.length_append, peek_append_zero]; rfl
  have p2 : peek (P ++ (sp ++ (c :: w' ++ NUL :: X)))
      (P.length + sp.length + (c :: w').length) = NUL := by
    have e : P ++ (sp ++ (c :: w' ++ NUL :: X)) = (P ++ sp ++ (c :: w')) ++ (NUL :: X) := by simp
    rw [e, ← List.length_append, ← List.length_append, peek_append_zero]; rfl
  simp only [strtok, hspn, hcsp, p0, p1, p2, if_neg hc.1, if_false, if_true]

/-- No token left: only delimiters before the terminating NUL. -/
theorem strtok_none (d : Char) (hd : d ≠ NUL) (P sp X : List Char)
    (hsp : ∀ x ∈ sp, x = d) :
    strtok none [d] ⟨P ++ (sp ++ NUL :: X), P.length⟩ =
      (none, ⟨P ++ (sp ++ NUL :: X), P.length + sp.length⟩) := by
  cases sp with
  | nil =>
    have p0 : peek (P ++ ([] ++ NUL :: X)) P.length = NUL := by
      rw [peek_append_zero]; rfl
    simp only [strtok, p0, if_true, List.length_nil, Nat.add_zero]
  | cons y sp =>
    have hy : y = d := hsp y (List.mem_cons_self _ _)
    have hspn : strspn (P ++ (y :: sp ++ NUL :: X)) P.length [d] = (y :: sp).length := by
      unfold strspn
      rw [List.drop_left]
      have := takeWhile_stop (fun x => [d].contains x) (y :: sp) NUL X
        (by intro x hx; simp [hsp x hx]) (by simpa using hd.symm)
      simpa using congrArg List.length this
    have p0 : peek (P ++ (y :: sp ++ NUL :: X)) P.length ≠ NUL := by
      rw [peek_append_zero]; simpa [peek, hy] using hd
    have p1 : peek (P ++ (y :: sp ++ NUL :: X)) (P.length + (y :: sp).length) = NUL := by
      have e : P ++ (y :: sp ++ NUL :: X) = (P ++ (y :: sp)) ++ (NUL :: X) := by simp
      rw [e, ← List.length_append, peek_append_zero]; rfl
    simp only [strtok, hspn, p0, p1, if_false, if_true]

theorem strtok_some_eq (p : Nat) (d : List Char) (m : Mem) :
    strtok (some p) d m = strtok none d ⟨m.buf, p⟩ := rfl

theorem cstr_cons_of_ne (c : Char) (cs : List Char) (hc : c ≠ NUL) :
    cstr (c :: cs) 0 = c :: cstr cs 0 := by
  have hb : (c != NUL) = true := by simpa using hc
  simp [cstr, List.takeWhile_cons, hb]

theorem cstr_cons_NUL (cs : List Char) : cstr (NUL :: cs) 0 = [] := by
  simp [cstr, List.takeWhile_cons]

theorem cstr_cons_succ (c : Char) (cs : List Char) (p : Nat) :
    cstr (c :: cs) (p + 1) = cstr cs p := by
  simp [cstr]

theorem cstr_set (buf : List Char) : ∀ (p e : Nat), p + strlen buf p ≤ e →
    cstr (buf.set e NUL) p = cstr buf p := by
  induction buf with
  | nil => intro p e _; simp
  | cons c cs ih =>
    intro p e h
    cases p with
    | zero =>
      by_cases hc : c = NUL
      · subst hc
        cases e with
        | zero => simp [cstr_cons_NUL]
        | succ e => simp [cstr_cons_NUL]
      · cases e with
        | zero =>
          exfalso
          simp [strlen, cstr_cons_of_ne c cs hc] at h
        | succ e =>
          have h' : 0 + strlen cs 0 ≤ e := by
            simp [strlen, cstr_cons_of_ne c cs hc] at h ⊢
            omega
          rw [List.set_cons_succ, cstr_cons_of_ne _ _ hc, cstr_cons_of_ne _ _ hc, ih 0 e h']
    | succ p =>
      cases e with
      | zero => simp [cstr]
      | succ e =>
        have h' : p + strlen cs p ≤ e := by
          simp [strlen, cstr_cons_succ] at h ⊢
          omega
        rw [List.set_cons_succ, cstr_cons_succ, cstr_cons_succ, ih p e h']

/-- The four ways through `strtok(NULL, delim)`. -/
theorem strtok_cases (d : List Char) (m : Mem) :
    (peek m.buf m.save = NUL ∧ strtok none d m = (none, m)) ∨
    (peek m.buf m.save ≠ NUL ∧ peek m.buf (m.save + strspn m.buf m.save d) = NUL ∧
      strtok none d m = (none, ⟨m.buf, m.save + strspn m.buf m.save d⟩)) ∨
    (peek m.buf (m.save + strspn m.buf m.save d) ≠ NUL ∧
      peek m.buf (m.save + strspn m.buf m.save d
        + strcspn m.buf (m.save + strspn m.buf m.save d) d) = NUL ∧
      strtok none d m = (some (m.save + strspn m.buf m.save d),
        ⟨m.buf, m.save + strspn m.buf m.save d
          + strcspn m.buf (m.save + strspn m.buf m.save d) d⟩)) ∨
    (peek m.buf (m.save + strspn m.buf m.save d) ≠ NUL ∧
      peek m.buf (m.save + strspn m.buf m.save d
        + strcspn m.buf (m.save + strspn m.buf m.save d) d) ≠ NUL ∧
      strtok none d m = (some (m.save + strspn m.buf m.save d),
        ⟨m.buf.set (m.save + strspn m.buf m.save d
          + strcspn m.buf (m.save + strspn m.buf m.save d) d) NUL,
         m.save + strspn m.buf m.save d
          + strcspn m.buf (m.save + strspn m.buf m.save d) d + 1⟩)) := by
  by_cases h0 : peek m.buf m.save = NUL
  · left; exact ⟨h0, by simp [strtok, h0]⟩
  · by_cases h1 : peek m.buf (m.save + strspn m.buf m.save d) = NUL
    · right; left; exact ⟨h0, h1, by simp [strtok, h0, h1]⟩
    · by_cases h2 : peek m.buf (m.save + strspn m.buf m.save d
          + strcspn m.buf (m.save + strspn m.buf m.save d) d) = NUL
      · right; right; left; exact ⟨h1, h2, by simp [strtok, h0, h1, h2]⟩
      · right; right; right; exact ⟨h1, h2, by simp [strtok, h0, h1, h2]⟩

theorem peek_lt_of_ne (buf : List Char) (p : Nat) (h : peek buf p ≠ NUL) : p < buf.length := by
  by_contra hc
  apply h
  simp [peek, List.getD, List.getElem?_eq_none (Nat.le_of_not_lt hc)]

theorem takeWhile_max (p : Char → Bool) : ∀ (l : List Char) (x : Char),
    l.get? (l.takeWhile p).length = some x → p x = false := by
  intro l
  induction l with
  | nil => intro x h; simp at h
  | cons c cs ih =>
    intro x h
    by_cases hc : p c = true
    · simp [List.takeWhile_cons, hc] at h
      exact ih x (by simpa using h)
    · simp [List.takeWhile_cons, hc] at h
      subst h; simpa using hc

theorem get?_peek (buf : List Char) (k : Nat) (h : k < buf.length) :
    buf.get? k = some (peek buf k) := by
  simp only [peek, List.getD_eq_getElem?_getD, List.get?_eq_getElem?,
    List.getElem?_eq_getElem h, Option.getD_some]

theorem strspn_stop (buf : List Char) (p : Nat) (d : List Char)
    (h : peek buf (p + strspn buf p d) ≠ NUL) :
    d.contains (peek buf (p + strspn buf p d)) = false := by
  have hlt := peek_lt_of_ne _ _ h
  have hget : (buf.drop p).get? ((buf.drop p).takeWhile (fun c => d.contains c)).length
      = some (peek buf (p + strspn buf p d)) := by
    rw [List.get?_eq_getElem?, List.getElem?_drop, ← List.get?_eq_getElem?]
    exact get?_peek _ _ hlt
  exact takeWhile_max _ _ _ hget

theorem strcspn_pos (buf : List Char) (s : Nat) (d : List Char)
    (h : peek buf s ≠ NUL) (hd : d.contains (peek buf s) = false) : 1 ≤ strcspn buf s d := by
  have hlt := peek_lt_of_ne _ _ h
  have hdrop : buf.drop s = peek buf s :: buf.drop (s + 1) := by
    rw [List.drop_eq_getElem_cons hlt]
    simp [peek, List.getD, List.getElem?_eq_getElem hlt]
  have hb : (peek buf s != NUL) = true := by simpa using h
  have hd' : peek buf s ∉ d := by simpa using hd
  simp [strcspn, hdrop, List.takeWhile_cons, hb, hd']

theorem strtok_mono (d : List Char) (m m' : Mem) (t : Option Nat)
    (h : strtok none d m = (t, m')) : m.save ≤ m'.save := by
  rcases strtok_cases d m with ⟨_, e⟩ | ⟨_, _, e⟩ | ⟨_, _, e⟩ | ⟨_, _, e⟩ <;>
    (rw [e] at h; cases h) <;> first | exact Nat.le_refl _ | (dsimp only; omega)

theorem strtok_pin (d : List Char) (m m' : Mem) (t : Option Nat)
    (h : strtok none d m = (t, m')) (p : Nat) (w : List Char) (hp : Pin m p w) : Pin m' p w := by
  obtain ⟨hw, hle⟩ := hp
  rcases strtok_cases d m with ⟨_, e⟩ | ⟨_, _, e⟩ | ⟨_, _, e⟩ | ⟨_, _, e⟩ <;>
    (rw [e] at h; cases h)
  · exact ⟨hw, hle⟩
  · exact ⟨hw, by dsimp only; omega⟩
  · exact ⟨hw, by dsimp only; omega⟩
  · refine ⟨?_, by dsimp only; omega⟩
    show cstr (m.buf.set _ NUL) p = w
    rw [cstr_set _ _ _ (by rw [strlen, hw]; omega), hw]

theorem strtok_at_nul (d : List Char) (m : Mem) (h : peek m.buf m.save = NUL) :
    strtok none d m = (none, m) := by
  simp [strtok, h]

theorem peek_set_self (buf : List Char) (e : Nat) : peek (buf.set e NUL) e = NUL := by
  by_cases h : e < buf.length
  · simp [peek, List.getD, List.getElem?_set, h]
  · have h' : (buf.set e NUL).length ≤ e := by simpa using Nat.le_of_not_lt h
    simp only [peek, List.getD_eq_getElem?_getD, List.getElem?_eq_none h', Option.getD_none]

theorem strtok_tok_bounds (d : List Char) (m m' : Mem) (t : Nat)
    (h : strtok none d m = (some t, m')) :
    m.save ≤ t ∧ t < m'.save ∧ peek m.buf t ≠ NUL ∧
      (t + 2 ≤ m'.save ∨ peek m'.buf m'.save = NUL) := by
  rcases strtok_cases d m with ⟨_, e⟩ | ⟨_, _, e⟩ | ⟨h1, h2, e⟩ | ⟨h1, h2, e⟩ <;>
    (rw [e] at h; cases h)
  · have hpos := strcspn_pos _ _ d h1 (strspn_stop _ _ _ h1)
    exact ⟨by omega, by dsimp only; omega, h1, Or.inr h2⟩
  · have hpos := strcspn_pos _ _ d h1 (strspn_stop _ _ _ h1)
    exact ⟨by omega, by dsimp only; omega, h1, Or.inl (by dsimp only; omega)⟩

/-! ## Splitting at spaces -/

theorem spaceSplit_nil : spaceSplit [] = [] := by
  simp [spaceSplit]

theorem spaceSplit_space (r : List Char) : spaceSplit (' ' :: r) = spaceSplit r := by
  simp [spaceSplit, List.splitOn, List.splitOnP_cons]

theorem spaceSplit_spaces (sp r : List Char) (hsp : ∀ x ∈ sp, x = ' ') :
    spaceSplit (sp ++ r) = spaceSplit r := by
  induction sp with
  | nil => rfl
  | cons c sp ih =>
    have hc : c = ' ' := hsp c (List.mem_cons_self _ _)
    subst hc
    rw [List.cons_append, spaceSplit_space]
    exact ih (fun x hx => hsp x (List.mem_cons_of_mem _ hx))

theorem spaceSplit_word (w r : List Char) (hw : w ≠ []) (hwc : ∀ x ∈ w, x ≠ ' ') :
    spaceSplit (w ++ ' ' :: r) = w :: spaceSplit r := by
  have h := List.splitOnP_first (fun x => x == ' ') w (by simpa using hwc) ' ' (by simp) r
  simp only [spaceSplit, List.splitOn, h, List.filter_cons]
  have : (!w.isEmpty) = true := by
    cases w with
    | nil => exact absurd rfl hw
    | cons _ _ => rfl
  simp [this]

theorem spaceSplit_single (w : List Char) (hw : w ≠ []) (hwc : ∀ x ∈ w, x ≠ ' ') :
    spaceSplit w = [w] := by
  have h := List.splitOnP_eq_single (fun x => x == ' ') w (by simpa using hwc)
  simp only [spaceSplit, List.splitOn, h, List.filter_cons]
  have : (!w.isEmpty) = true := by
    cases w with
    | nil => exact absurd rfl hw
    | cons _ _ => rfl
  simp [this]

theorem dropWhile_head (p : Char → Bool) (l : List Char) :
    l.dropWhile p = [] ∨ ∃ x xs, l.dropWhile p = x :: xs ∧ p x = false := by
  induction l with
  | nil => left; rfl
  | cons c cs ih =>
    by_cases hc : p c = true
    · simpa [List.dropWhile_cons, hc] using ih
    · right
      exact ⟨c, cs, by simp [List.dropWhile_cons, hc], by simpa using hc⟩

/-- Every string is a run of spaces, then nothing or a word, then nothing or a space and a rest. -/
theorem split_decomp (r : List Char) :
    ∃ sp rest, r = sp ++ rest ∧ (∀ x ∈ sp, x = ' ') ∧
      (rest = [] ∨ ∃ w r0, rest = w ++ r0 ∧ w ≠ [] ∧ (∀ x ∈ w, x ≠ ' ') ∧
        (r0 = [] ∨ ∃ r', r0 = ' ' :: r')) := by
  refine ⟨r.takeWhile (fun x => x == ' '), r.dropWhile (fun x => x == ' '),
    (List.takeWhile_append_dropWhile _ _).symm, ?_, ?_⟩
  · intro x hx
    simpa using List.mem_takeWhile_imp hx
  · rcases dropWhile_head (fun x => x == ' ') r with h | ⟨c, cs, h, hc⟩
    · left; exact h
    · right
      rw [h]
      refine ⟨c :: cs.takeWhile (fun x => x != ' '), cs.dropWhile (fun x => x != ' '),
        ?_, by simp, ?_, ?_⟩
      · simp [List.takeWhile_append_dropWhile]
      · intro x hx
        rcases List.mem_cons.1 hx with rfl | hx
        · simpa using hc
        · simpa using List.mem_takeWhile_imp hx
      · rcases dropWhile_head (fun x => x != ' ') cs with h2 | ⟨y, ys, h2, hy⟩
        · left; exact h2
        · right
          have : y = ' ' := by simpa using hy
          exact ⟨ys, by rw [h2, this]⟩

theorem cstr_at (A w X : List Char) (hw : ∀ x ∈ w, x ≠ NUL) :
    cstr (A ++ (w ++ NUL :: X)) A.length = w := by
  unfold cstr
  rw [List.drop_left]
  exact takeWhile_stop _ w NUL X (by intro x hx; simpa using hw x hx) (by simp)

theorem strtok_step_none (m : Mem) (r X : List Char) (hl : Lay m.buf m.save r X)
    (hs : spaceSplit r = []) :
    ∃ m', strtok none [' '] m = (none, m') ∧ m'.buf = m.buf ∧ Lay m'.buf m'.save [] X := by
  obtain ⟨P, hb, hp⟩ := hl
  obtain ⟨sp, rest, hr, hsp, hrest⟩ := split_decomp r
  rcases hrest with h0 | ⟨w, r0, hw, hne, hwc, h0 | ⟨r', h0⟩⟩
  · subst h0
    simp only [List.append_nil] at hr
    subst hr
    have := strtok_none ' ' (by decide) P r X hsp
    refine ⟨⟨P ++ (r ++ NUL :: X), P.length + r.length⟩, ?_, ?_, ?_⟩
    · cases m; simp only at hb hp; subst hb hp; exact this
    · exact hb.symm
    · exact ⟨P ++ r, by simp, by simp⟩
  · exfalso
    subst h0 hw hr
    rw [spaceSplit_spaces _ _ hsp, List.append_nil, spaceSplit_single _ hne hwc] at hs
    cases hs
  · exfalso
    subst h0 hw hr
    rw [spaceSplit_spaces _ _ hsp, spaceSplit_word _ _ hne hwc] at hs
    cases hs

theorem strtok_step_some (m : Mem) (r X w : List Char) (ws : List (List Char))
    (hl : Lay m.buf m.save r X) (hn : ∀ c ∈ r, c ≠ NUL) (hs : spaceSplit r = w :: ws) :
    ∃ t m' r', strtok none [' '] m = (some t, m') ∧ Lay m'.buf m'.save r' X ∧
      (∀ c ∈ r', c ≠ NUL) ∧ spaceSplit r' = ws ∧ r' <:+ r ∧ Pin m' t w := by
  obtain ⟨P, hb, hp⟩ := hl
  obtain ⟨sp, rest, hr, hsp, hrest⟩ := split_decomp r
  rcases hrest with h0 | ⟨w', r0, hw, hne, hwc, h0 | ⟨r', h0⟩⟩
  · exfalso
    subst h0
    simp only [List.append_nil] at hr
    subst hr
    have := spaceSplit_spaces r [] hsp
    rw [List.append_nil, spaceSplit_nil] at this
    rw [this] at hs; cases hs
  · subst h0 hw hr
    rw [spaceSplit_spaces _ _ hsp, List.append_nil, spaceSplit_single _ hne hwc] at hs
    obtain ⟨rfl, rfl⟩ := List.cons.inj hs
    have hwn : ∀ x ∈ w', x ≠ NUL ∧ x ≠ ' ' := fun x hx =>
      ⟨hn x (by simp [hx]), hwc x hx⟩
    have := strtok_end ' ' (by decide) P sp w' X hsp hne hwn
    refine ⟨P.length + sp.length,
      ⟨P ++ (sp ++ (w' ++ NUL :: X)), P.length + sp.length + w'.length⟩,
      [], ?_, ?_, by simp, spaceSplit_nil, List.nil_suffix, ?_, ?_⟩
    · cases m; simp only at hb hp; subst hb hp
      simpa using this
    · exact ⟨P ++ sp ++ w', by simp, by simp [Nat.add_assoc]⟩
    · have := cstr_at (P ++ sp) w' X (fun x hx => (hwn x hx).1)
      simpa using this
    · show P.length + sp.length + w'.length ≤ P.length + sp.length + w'.length
      exact Nat.le_refl _
  · subst h0 hw hr
    rw [spaceSplit_spaces _ _ hsp, spaceSplit_word _ _ hne hwc] at hs
    obtain ⟨rfl, rfl⟩ := List.cons.inj hs
    have hwn : ∀ x ∈ w', x ≠ NUL ∧ x ≠ ' ' := fun x hx =>
      ⟨hn x (by simp [hx]), hwc x hx⟩
    have := strtok_delim ' ' (by decide) P sp w' (r' ++ NUL :: X) hsp hne hwn
    refine ⟨P.length + sp.length,
      ⟨P ++ (sp ++ (w' ++ NUL :: (r' ++ NUL :: X))), P.length + sp.length + w'.length + 1⟩,
      r', ?_, ?_, ?_, rfl, ?_, ?_, ?_⟩
    · cases m; simp only at hb hp; subst hb hp
      simpa using this
    · exact ⟨P ++ sp ++ w' ++ [NUL], by simp, by simp [Nat.add_assoc]⟩
    · intro c hc; exact hn c (by simp [hc])
    · exact ⟨sp ++ (w' ++ [' ']), by simp⟩
    · have := cstr_at (P ++ sp) w' (r' ++ NUL :: X) (fun x hx => (hwn x hx).1)
      simpa using this
    · show P.length + sp.length + w'.length ≤ P.length + sp.length + w'.length + 1
      omega

/-! ## The tokenizer loop -/

theorem take_set_self (l : List (Option Nat)) : ∀ (n : Nat) (a : Option Nat),
    (l.set n a).take n = l.take n := by
  induction l with
  | nil => intro n a; simp
  | cons x xs ih =>
    intro n a
    cases n with
    | zero => simp
    | succ n => simp [ih]

theorem take_succ_set (l : List (Option Nat)) : ∀ (n : Nat) (a : Option Nat), n < l.length →
    (l.set n a).take (n + 1) = l.take n ++ [a] := by
  induction l with
  | nil => intro n a h; simp at h
  | cons x xs ih =>
    intro n a h
    cases n with
    | zero => simp
    | succ n =>
      have : n < xs.length := by simpa using h
      simp [ih n a this]

theorem getD_set_self (l : List (Option Nat)) (n : Nat) (a : Option Nat) (h : n < l.length) :
    (l.set n a).getD n none = a := by
  simp [List.getD, List.getElem?_set, h]

theorem tokLoop_null (fuel : Nat) (f : Frame) (h : f.args.getD f.i none = none) :
    tokLoop (fuel + 1) f = .fallthrough f := by
  simp only [tokLoop, h]

theorem tokLoop_plain (fuel : Nat) (f : Frame) (a : Nat) (h : f.args.getD f.i none = some a)
    (h1 : cstr f.mem.buf a ≠ ['>']) (h2 : cstr f.mem.buf a ≠ ['<'])
    (h3 : cstr f.mem.buf a ≠ ['&']) (h4 : cstr f.mem.buf a ≠ ['|'])
    (hb : ¬ ARGS_LEN ≤ f.i + 1) :
    tokLoop (fuel + 1) f = fetchLoop fuel { f with i := f.i + 1 } := by
  simp only [tokLoop, h, if_neg h1, if_neg h2, if_neg h3, if_neg h4, if_neg hb, fetchLoop]

theorem tokLoop_amp (fuel : Nat) (f : Frame) (a : Nat) (h : f.args.getD f.i none = some a)
    (h3 : cstr f.mem.buf a = ['&']) :
    tokLoop (fuel + 1) f =
      .fallthrough { f with should_wait := false, args := f.args.set f.i none } := by
  have h1 : cstr f.mem.buf a ≠ ['>'] := by rw [h3]; decide
  have h2 : cstr f.mem.buf a ≠ ['<'] := by rw [h3]; decide
  simp only [tokLoop, h, if_neg h1, if_neg h2, if_pos h3]

theorem tokLoop_pipe (fuel : Nat) (f : Frame) (a : Nat) (h : f.args.getD f.i none = some a)
    (h4 : cstr f.mem.buf a = ['|']) :
    tokLoop (fuel + 1) f = .pipeline { f with args := f.args.set f.i none } := by
  have h1 : cstr f.mem.buf a ≠ ['>'] := by rw [h4]; decide
  have h2 : cstr f.mem.buf a ≠ ['<'] := by rw [h4]; decide
  have h3 : cstr f.mem.buf a ≠ ['&'] := by rw [h4]; decide
  simp only [tokLoop, h, if_neg h1, if_neg h2, if_neg h3, if_pos h4]

theorem tokLoop_gt_some (fuel : Nat) (f : Frame) (a p : Nat) (m1 : Mem)
    (h : f.args.getD f.i none = some a) (h1 : cstr f.mem.buf a = ['>'])
    (hs : strtok none [' '] f.mem = (some p, m1)) :
    tokLoop (fuel + 1) f = fetchLoop fuel { f with mem := m1, output_file := some p } := by
  simp only [tokLoop, h, if_pos h1, hs, fetchLoop]

theorem tokLoop_gt_none (fuel : Nat) (f : Frame) (a : Nat) (m1 : Mem)
    (h : f.args.getD f.i none = some a) (h1 : cstr f.mem.buf a = ['>'])
    (hs : strtok none [' '] f.mem = (none, m1)) :
    tokLoop (fuel + 1) f = tokLoop fuel { f with mem := m1, args := f.args.set f.i none } := by
  simp only [tokLoop, h, if_pos h1, hs]

theorem tokLoop_lt_some (fuel : Nat) (f : Frame) (a p : Nat) (m1 : Mem)
    (h : f.args.getD f.i none = some a) (h2 : cstr f.mem.buf a = ['<'])
    (hs : strtok none [' '] f.mem = (some p, m1)) :
    tokLoop (fuel + 1) f = fetchLoop fuel { f with mem := m1, input_file := some p } := by
  have h1 : cstr f.mem.buf a ≠ ['>'] := by rw [h2]; decide
  simp only [tokLoop, h, if_neg h1, if_pos h2, hs, fetchLoop]

theorem tokLoop_lt_none (fuel : Nat) (f : Frame) (a : Nat) (m1 : Mem)
    (h : f.args.getD f.i none = some a) (h2 : cstr f.mem.buf a = ['<'])
    (hs : strtok none [' '] f.mem = (none, m1)) :
    tokLoop (fuel + 1) f = tokLoop fuel { f with mem := m1, args := f.args.set f.i none } := by
  have h1 : cstr f.mem.buf a ≠ ['>'] := by rw [h2]; decide
  simp only [tokLoop, h, if_neg h1, if_pos h2, hs]

theorem PinO.step_pin {m m' : Mem} (hpin : ∀ p w, Pin m p w → Pin m' p w)
    {o : Option Nat} {w : Option (List Char)} (h : PinO m o w) : PinO m' o w := by
  cases o <;> cases w <;> simp only [PinO] at h ⊢
  exact hpin _ _ h

theorem FInv.step {f : Frame} {ptrs : List Nat} {ws : List (List Char)}
    {inp out : Option (List Char)} (h : FInv f ptrs ws inp out) (m' : Mem)
    (hpin : ∀ p w, Pin f.mem p w → Pin m' p w) :
    FInv { f with mem := m' } ptrs ws inp out :=
  ⟨h.len, h.idx, h.pre, h.pins.imp (fun {a b} hab => hpin a b hab), h.pin_in.step_pin hpin,
    h.pin_out.step_pin hpin⟩

theorem argvOf_map (buf : List Char) (ptrs : List Nat) (tl : List (Option Nat)) :
    argvOf buf (ptrs.map some ++ none :: tl) = ptrs.map (cstr buf) := by
  induction ptrs with
  | nil => rfl
  | cons p ps ih => simp [argvOf, ih]

theorem pins_map {m : Mem} {ptrs : List Nat} {ws : List (List Char)}
    (h : List.Forall₂ (Pin m) ptrs ws) : ptrs.map (cstr m.buf) = ws := by
  induction h with
  | nil => rfl
  | cons hab _ ih => simp [hab.1, ih]

theorem redirect_pin {m : Mem} {o : Option Nat} {w : Option (List Char)} (h : PinO m o w) :
    redirect m.buf o = streamOf w := by
  cases o <;> cases w <;> simp only [PinO] at h
  · rfl
  · simp [redirect, streamOf, h.1]

/-- What the frame hands to `execvp` once `args[i]` is NULL. -/
theorem FInv.final {f : Frame} {ptrs : List Nat} {ws : List (List Char)}
    {inp out : Option (List Char)} (h : FInv f ptrs ws inp out) (hb : f.i < ARGS_LEN) :
    argvOf f.mem.buf (f.args.set f.i none) = ws ∧
      redirect f.mem.buf f.input_file = streamOf inp ∧
      redirect f.mem.buf f.output_file = streamOf out := by
  refine ⟨?_, redirect_pin h.pin_in, redirect_pin h.pin_out⟩
  rw [List.set_eq_take_cons_drop _ (by rw [h.len]; exact hb), h.pre, argvOf_map]
  exact pins_map h.pins

theorem argvOf_head_cons (buf : List Char) (args : List (Option Nat)) (w : List Char)
    (ws : List (List Char)) (h : argvOf buf args = w :: ws) :
    ∃ a0, args.getD 0 none = some a0 ∧ cstr buf a0 = w := by
  cases args with
  | nil => simp [argvOf] at h
  | cons a rest =>
    cases a with
    | none => simp [argvOf] at h
    | some p =>
      simp only [argvOf, List.cons.injEq] at h
      exact ⟨p, rfl, h.1⟩

theorem tok_plain (fuel : Nat) (f : Frame) (ptrs : List Nat) (ws : List (List Char))
    (inp out : Option (List Char)) (r X w : List Char) (rest : List (List Char))
    (hinv : FInv f ptrs ws inp out) (hrem : Rem f.mem r X) (hs : spaceSplit r = w :: rest)
    (hw : PlainTok w) (hb : f.i + 1 < ARGS_LEN) :
    ∃ f' r' t, fetchLoop (fuel + 1) f = fetchLoop fuel f' ∧
      FInv f' (ptrs ++ [t]) (ws ++ [w]) inp out ∧ Rem f'.mem r' X ∧ spaceSplit r' = rest ∧
      r' <:+ r ∧ f'.should_wait = f.should_wait := by
  obtain ⟨t, m', r', hst, hlay, hnn, hsp, hsuf, hpin⟩ :=
    strtok_step_some f.mem r X w rest hrem.lay hrem.nonul hs
  have hlt : f.i < f.args.length := by rw [hinv.len]; omega
  have e1 : fetchLoop (fuel + 1) f
      = tokLoop (fuel + 1) { f with mem := m', args := f.args.set f.i (some t) } := by
    simp only [fetchLoop, hst]
  have hget : (f.args.set f.i (some t)).getD f.i none = some t := getD_set_self _ _ _ hlt
  have hc : cstr m'.buf t = w := hpin.1
  rw [e1, tokLoop_plain fuel _ t hget (by rw [hc]; exact hw.1) (by rw [hc]; exact hw.2.1)
    (by rw [hc]; exact hw.2.2.1) (by rw [hc]; exact hw.2.2.2) (by dsimp only; omega)]
  refine ⟨_, r', t, rfl, ?_, ⟨hlay, hnn⟩, hsp, hsuf, rfl⟩
  have hstep := hinv.step m' (fun p w hp => strtok_pin _ _ _ _ hst p w hp)
  refine ⟨by simp [hinv.len], by simp [hinv.idx], ?_, ?_, hstep.pin_in, hstep.pin_out⟩
  · show (f.args.set f.i (some t)).take (f.i + 1) = (ptrs ++ [t]).map some
    rw [take_succ_set _ _ _ hlt, hinv.pre]; simp
  · exact List.rel_append hstep.pins (List.Forall₂.cons hpin List.Forall₂.nil)

theorem set_set_self (l : List (Option Nat)) (n : Nat) (a b : Option Nat) :
    (l.set n a).set n b = l.set n b := by
  simp

theorem tok_end (fuel : Nat) (f : Frame) (ptrs : List Nat) (ws : List (List Char))
    (inp out : Option (List Char)) (r X : List Char)
    (hinv : FInv f ptrs ws inp out) (hrem : Rem f.mem r X) (hs : spaceSplit r = [])
    (hb : f.i < ARGS_LEN) :
    ∃ f', fetchLoop (fuel + 1) f = .fallthrough f' ∧ Final f' ws inp out f.should_wait ∧
      Rem f'.mem [] X ∧ f'.mem.buf = f.mem.buf := by
  obtain ⟨m', hst, hbuf, hlay⟩ := strtok_step_none f.mem r X hrem.lay hs
  have hlt : f.i < f.args.length := by rw [hinv.len]; omega
  have e1 : fetchLoop (fuel + 1) f
      = tokLoop (fuel + 1) { f with mem := m', args := f.args.set f.i none } := by
    simp only [fetchLoop, hst]
  have hget : (f.args.set f.i none).getD f.i none = none := getD_set_self _ _ _ hlt
  rw [e1, tokLoop_null fuel _ hget]
  have hstep := hinv.step m' (fun p w hp => strtok_pin _ _ _ _ hst p w hp)
  have hfin := hstep.final hb
  exact ⟨_, rfl, ⟨hfin.1, hfin.2.1, hfin.2.2, rfl⟩, ⟨hlay, by simp⟩, hbuf⟩

theorem tok_amp (fuel : Nat) (f : Frame) (ptrs : List Nat) (ws : List (List Char))
    (inp out : Option (List Char)) (r X : List Char) (rest : List (List Char))
    (hinv : FInv f ptrs ws inp out) (hrem : Rem f.mem r X)
    (hs : spaceSplit r = ['&'] :: rest) (hb : f.i < ARGS_LEN) :
    ∃ f' r', fetchLoop (fuel + 1) f = .fallthrough f' ∧ Final f' ws inp out false ∧
      Rem f'.mem r' X ∧ spaceSplit r' = rest ∧ r' <:+ r := by
  obtain ⟨t, m', r', hst, hlay, hnn, hsp, hsuf, hpin⟩ :=
    strtok_step_some f.mem r X _ rest hrem.lay hrem.nonul hs
  have hlt : f.i < f.args.length := by rw [hinv.len]; omega
  have e1 : fetchLoop (fuel + 1) f
      = tokLoop (fuel + 1) { f with mem := m', args := f.args.set f.i (some t) } := by
    simp only [fetchLoop, hst]
  have hget : (f.args.set f.i (some t)).getD f.i none = some t := getD_set_self _ _ _ hlt
  rw [e1, tokLoop_amp fuel _ t hget hpin.1]
  have hstep := hinv.step m' (fun p w hp => strtok_pin _ _ _ _ hst p w hp)
  have hfin := hstep.final hb
  refine ⟨_, r', rfl, ⟨?_, hfin.2.1, hfin.2.2, rfl⟩, ⟨hlay, hnn⟩, hsp, hsuf⟩
  show argvOf m'.buf ((f.args.set f.i (some t)).set f.i none) = ws
  rw [set_set_self]; exact hfin.1

theorem tok_pipe (fuel : Nat) (f : Frame) (ptrs : List Nat) (ws : List (List Char))
    (inp out : Option (List Char)) (r X : List Char) (rest : List (List Char))
    (hinv : FInv f ptrs ws inp out) (hrem : Rem f.mem r X)
    (hs : spaceSplit r = ['|'] :: rest) (hb : f.i < ARGS_LEN) :
    ∃ f' r', fetchLoop (fuel + 1) f = .pipeline f' ∧ Final f' ws inp out f.should_wait ∧
      Rem f'.mem r' X ∧ spaceSplit r' = rest ∧ r' <:+ r := by
  obtain ⟨t, m', r', hst, hlay, hnn, hsp, hsuf, hpin⟩ :=
    strtok_step_some f.mem r X _ rest hrem.lay hrem.nonul hs
  have hlt : f.i < f.args.length := by rw [hinv.len]; omega
  have e1 : fetchLoop (fuel + 1) f
      = tokLoop (fuel + 1) { f with mem := m', args := f.args.set f.i (some t) } := by
    simp only [fetchLoop, hst]
  have hget : (f.args.set f.i (some t)).getD f.i none = some t := getD_set_self _ _ _ hlt
  rw [e1, tokLoop_pipe fuel _ t hget hpin.1]
  have hstep := hinv.step m' (fun p w hp => strtok_pin _ _ _ _ hst p w hp)
  have hfin := hstep.final hb
  refine ⟨_, r', rfl, ⟨?_, hfin.2.1, hfin.2.2, rfl⟩, ⟨hlay, hnn⟩, hsp, hsuf⟩
  show argvOf m'.buf ((f.args.set f.i (some t)).set f.i none) = ws
  rw [set_set_self]; exact hfin.1

theorem tok_gt (fuel : Nat) (f : Frame) (ptrs : List Nat) (ws : List (List Char))
    (inp out : Option (List Char)) (r X path : List Char) (rest : List (List Char))
    (hinv : FInv f ptrs ws inp out) (hrem : Rem f.mem r X)
    (hs : spaceSplit r = ['>'] :: path :: rest) (hb : f.i < ARGS_LEN) :
    ∃ f' r', fetchLoop (fuel + 1) f = fetchLoop fuel f' ∧
      FInv f' ptrs ws inp (some path) ∧ Rem f'.mem r' X ∧ spaceSplit r' = rest ∧
      r' <:+ r ∧ f'.should_wait = f.should_wait := by
  obtain ⟨t, m1, r1, hst, hlay1, hnn1, hsp1, hsuf1, hpin1⟩ :=
    strtok_step_some f.mem r X _ _ hrem.lay hrem.nonul hs
  obtain ⟨tp, m2, r2, hst2, hlay2, hnn2, hsp2, hsuf2, hpin2⟩ :=
    strtok_step_some m1 r1 X _ _ hlay1 hnn1 hsp1
  have hlt : f.i < f.args.length := by rw [hinv.len]; omega
  have e1 : fetchLoop (fuel + 1) f
      = tokLoop (fuel + 1) { f with mem := m1, args := f.args.set f.i (some t) } := by
    simp only [fetchLoop, hst]
  have hget : (f.args.set f.i (some t)).getD f.i none = some t := getD_set_self _ _ _ hlt
  rw [e1, tokLoop_gt_some fuel _ t tp m2 hget hpin1.1 hst2]
  refine ⟨_, r2, rfl, ?_, ⟨hlay2, hnn2⟩, hsp2, hsuf2.trans hsuf1, rfl⟩
  have hstep := (hinv.step m1 (fun p w hp => strtok_pin _ _ _ _ hst p w hp)).step m2
    (fun p w hp => strtok_pin _ _ _ _ hst2 p w hp)
  refine ⟨by simp [hinv.len], hinv.idx, ?_, hstep.pins, hstep.pin_in, hpin2⟩
  show (f.args.set f.i (some t)).take f.i = ptrs.map some
  rw [take_set_self, hinv.pre]

theorem tok_lt (fuel : Nat) (f : Frame) (ptrs : List Nat) (ws : List (List Char))
    (inp out : Option (List Char)) (r X path : List Char) (rest : List (List Char))
    (hinv : FInv f ptrs ws inp out) (hrem : Rem f.mem r X)
    (hs : spaceSplit r = ['<'] :: path :: rest) (hb : f.i < ARGS_LEN) :
    ∃ f' r', fetchLoop (fuel + 1) f = fetchLoop fuel f' ∧
      FInv f' ptrs ws (some path) out ∧ Rem f'.mem r' X ∧ spaceSplit r' = rest ∧
      r' <:+ r ∧ f'.should_wait = f.should_wait := by
  obtain ⟨t, m1, r1, hst, hlay1, hnn1, hsp1, hsuf1, hpin1⟩ :=
    strtok_step_some f.mem r X _ _ hrem.lay hrem.nonul hs
  obtain ⟨tp, m2, r2, hst2, hlay2, hnn2, hsp2, hsuf2, hpin2⟩ :=
    strtok_step_some m1 r1 X _ _ hlay1 hnn1 hsp1
  have hlt : f.i < f.args.length := by rw [hinv.len]; omega
  have e1 : fetchLoop (fuel + 1) f
      = tokLoop (fuel + 1) { f with mem := m1, args := f.args.set f.i (some t) } := by
    simp only [fetchLoop, hst]
  have hget : (f.args.set f.i (some t)).getD f.i none = some t := getD_set_self _ _ _ hlt
  rw [e1, tokLoop_lt_some fuel _ t tp m2 hget hpin1.1 hst2]
  refine ⟨_, r2, rfl, ?_, ⟨hlay2, hnn2⟩, hsp2, hsuf2.trans hsuf1, rfl⟩
  have hstep := (hinv.step m1 (fun p w hp => strtok_pin _ _ _ _ hst p w hp)).step m2
    (fun p w hp => strtok_pin _ _ _ _ hst2 p w hp)
  refine ⟨by simp [hinv.len], hinv.idx, ?_, hstep.pins, hpin2, hstep.pin_out⟩
  show (f.args.set f.i (some t)).take f.i = ptrs.map some
  rw [take_set_self, hinv.pre]

/-- A run of plain words: each takes one turn of the loop and one slot of `args`. -/
theorem tok_run (us : List (List Char)) : ∀ (fuel : Nat) (f : Frame) (ptrs : List Nat)
    (ws : List (List Char)) (inp out : Option (List Char)) (r X : List Char)
    (rest : List (List Char)), FInv f ptrs ws inp out → Rem f.mem r X →
    spaceSplit r = us ++ rest → (∀ u ∈ us, PlainTok u) → f.i + us.length < ARGS_LEN →
    ∃ f' r' ptrs', fetchLoop (fuel + us.length) f = fetchLoop fuel f' ∧
      FInv f' ptrs' (ws ++ us) inp out ∧ Rem f'.mem r' X ∧ spaceSplit r' = rest ∧
      r' <:+ r ∧ f'.should_wait = f.should_wait ∧ f'.i = f.i + us.length := by
  induction us with
  | nil =>
    intro fuel f ptrs ws inp out r X rest hinv hrem hs _ _
    exact ⟨f, r, ptrs, rfl, by simpa using hinv, hrem, by simpa using hs,
      List.suffix_refl _, rfl, rfl⟩
  | cons u us ih =>
    intro fuel f ptrs ws inp out r X rest hinv hrem hs hpl hb
    have hb' : f.i + 1 < ARGS_LEN := by simp at hb; omega
    obtain ⟨f1, r1, t, e1, hinv1, hrem1, hs1, hsuf1, hw1⟩ :=
      tok_plain (fuel + us.length) f ptrs ws inp out r X u (us ++ rest) hinv hrem
        (by simpa using hs) (hpl u (List.mem_cons_self _ _)) hb'
    have hi1 : f1.i = f.i + 1 := by rw [hinv1.idx, hinv.idx]; simp
    obtain ⟨f2, r2, ptrs2, e2, hinv2, hrem2, hs2, hsuf2, hw2, hi2⟩ :=
      ih fuel f1 (ptrs ++ [t]) (ws ++ [u]) inp out r1 X rest hinv1 hrem1 hs1
        (fun v hv => hpl v (List.mem_cons_of_mem _ hv)) (by rw [hi1]; simp at hb; omega)
    refine ⟨f2, r2, ptrs2, ?_, by simpa using hinv2, hrem2, hs2, hsuf2.trans hsuf1,
      hw2.trans hw1, by rw [hi2, hi1]; simp; omega⟩
    rw [← e2, ← e1]
    simp [Nat.add_assoc]

/-! ## The command loop -/

theorem cmdLoop_step (fuel c : Nat) (m : Mem) (bg : Bool) (f : Frame) (w : List Char)
    (ws : List (List Char)) (inp out : Option (List Char)) (sw : Bool) (c' : Option Nat)
    (m' : Mem)
    (hn : strlen m.buf c ≠ 0)
    (hbg : decide (peek m.buf (c + strlen m.buf c - 1) = '&') = bg)
    (ht : tokenize (if bg then { m with buf := m.buf.set (c + strlen m.buf c - 1) NUL } else m)
      c (!bg) = .fallthrough f)
    (hfin : Final f (w :: ws) inp out sw) (hs : strtok none [';'] f.mem = (c', m')) :
    cmdLoop (fuel + 1) (some c) m =
      if w = "ascii".toList then (cmdLoop fuel c' m').after [.printAsciiArt]
      else (cmdLoop fuel c' m').after (launch (w :: ws) inp out sw) := by
  obtain ⟨a0, ha, hc⟩ := argvOf_head_cons _ _ _ _ hfin.argv
  simp only [cmdLoop, if_neg hn, hbg, ht, ha, hc, hs, hfin.argv, hfin.rin, hfin.rout, hfin.wait,
    launch]

theorem cmdLoop_null (fuel : Nat) (m : Mem) : cmdLoop (fuel + 1) none m = ⟨[], m.buf, .returned⟩ := by
  simp only [cmdLoop]

/-- Induction along the words of a string. -/
theorem split_induction (motive : List Char → Prop)
    (h0 : ∀ sp, (∀ x ∈ sp, x = ' ') → motive sp)
    (h1 : ∀ sp w, (∀ x ∈ sp, x = ' ') → w ≠ [] → (∀ x ∈ w, x ≠ ' ') → motive (sp ++ w))
    (h2 : ∀ sp w r, (∀ x ∈ sp, x = ' ') → w ≠ [] → (∀ x ∈ w, x ≠ ' ') → motive r →
      motive (sp ++ (w ++ ' ' :: r))) :
    ∀ r, motive r := by
  have key : ∀ n, ∀ r : List Char, r.length ≤ n → motive r := by
    intro n
    induction n with
    | zero =>
      intro r hr
      have : r = [] := List.length_eq_zero.1 (Nat.le_zero.1 hr)
      subst this
      exact h0 [] (by simp)
    | succ n ih =>
      intro r hlen
      obtain ⟨sp, rest, hr, hsp, hrest⟩ := split_decomp r
      rcases hrest with h | ⟨w, r0, hw, hne, hwc, h | ⟨r', h⟩⟩
      · subst h; simp only [List.append_nil] at hr; subst hr; exact h0 _ hsp
      · subst h hw hr; simp only [List.append_nil]; exact h1 _ _ hsp hne hwc
      · subst h hw hr
        refine h2 _ _ _ hsp hne hwc (ih r' ?_)
        simp at hlen; omega
  intro r
  exact key r.length r (Nat.le_refl _)

theorem spaceSplit_of_spaces (sp : List Char) (hsp : ∀ x ∈ sp, x = ' ') : spaceSplit sp = [] := by
  have := spaceSplit_spaces sp [] hsp
  rwa [List.append_nil, spaceSplit_nil] at this

theorem spaceSplit_length (r : List Char) : 2 * (spaceSplit r).length ≤ r.length + 1 := by
  refine split_induction (fun r => 2 * (spaceSplit r).length ≤ r.length + 1) ?_ ?_ ?_ r
  · intro sp hsp; simp [spaceSplit_of_spaces sp hsp]
  · intro sp w hsp hne hwc
    have : 1 ≤ w.length := List.length_pos.2 hne
    rw [spaceSplit_spaces _ _ hsp, spaceSplit_single _ hne hwc]; simp; omega
  · intro sp w r hsp hne hwc ih
    have : 1 ≤ w.length := List.length_pos.2 hne
    rw [spaceSplit_spaces _ _ hsp, spaceSplit_word _ _ hne hwc]; simp; omega

theorem spaceSplit_mem (r : List Char) :
    ∀ u ∈ spaceSplit r, u ≠ [] ∧ ∀ c ∈ u, c ∈ r ∧ c ≠ ' ' := by
  refine split_induction (fun r => ∀ u ∈ spaceSplit r, u ≠ [] ∧ ∀ c ∈ u, c ∈ r ∧ c ≠ ' ')
    ?_ ?_ ?_ r
  · intro sp hsp u hu; simp [spaceSplit_of_spaces sp hsp] at hu
  · intro sp w hsp hne hwc u hu
    rw [spaceSplit_spaces _ _ hsp, spaceSplit_single _ hne hwc] at hu
    simp only [List.mem_singleton] at hu; subst hu
    exact ⟨hne, fun c hc => ⟨by simp [hc], hwc c hc⟩⟩
  · intro sp w r hsp hne hwc ih u hu
    rw [spaceSplit_spaces _ _ hsp, spaceSplit_word _ _ hne hwc] at hu
    rcases List.mem_cons.1 hu with rfl | hu
    · exact ⟨hne, fun c hc => ⟨by simp [hc], hwc c hc⟩⟩
    · obtain ⟨h1, h2⟩ := ih u hu
      exact ⟨h1, fun c hc => ⟨by simp [(h2 c hc).1], (h2 c hc).2⟩⟩

theorem tokenize_frame0 (m : Mem) (command : Nat) (sw : Bool) :
    tokenize m command sw = fetchLoop (m.buf.length + 2) (frame0 m command sw) := rfl

theorem frame0_inv (m : Mem) (command : Nat) (sw : Bool) :
    FInv (frame0 m command sw) [] [] none none :=
  ⟨by simp [frame0], rfl, by simp [frame0], List.Forall₂.nil, trivial, trivial⟩

theorem Lay.cstr_eq {buf : List Char} {c : Nat} {seg X : List Char} (h : Lay buf c seg X)
    (hn : ∀ x ∈ seg, x ≠ NUL) : cstr buf c = seg := by
  obtain ⟨P, rfl, rfl⟩ := h
  exact cstr_at P seg X hn

theorem Lay.peek_nil {buf : List Char} {c : Nat} {X : List Char} (h : Lay buf c [] X) :
    peek buf c = NUL := by
  obtain ⟨P, rfl, rfl⟩ := h
  rw [peek_append_zero]; rfl

theorem Lay.peek_last {buf : List Char} {c : Nat} {l X : List Char} {ch : Char}
    (h : Lay buf c (l ++ [ch]) X) : peek buf (c + (l ++ [ch]).length - 1) = ch := by
  obtain ⟨P, rfl, rfl⟩ := h
  have e : P ++ (l ++ [ch] ++ NUL :: X) = (P ++ l) ++ (ch :: NUL :: X) := by simp
  have e2 : P.length + (l ++ [ch]).length - 1 = (P ++ l).length := by simp
  rw [e, e2, peek_append_zero]; rfl

theorem Lay.set_last {buf : List Char} {c : Nat} {l X : List Char} {ch : Char}
    (h : Lay buf c (l ++ [ch]) X) :
    Lay (buf.set (c + (l ++ [ch]).length - 1) NUL) c l (NUL :: X) := by
  obtain ⟨P, rfl, rfl⟩ := h
  refine ⟨P, ?_, rfl⟩
  have e : P ++ (l ++ [ch] ++ NUL :: X) = (P ++ l) ++ (ch :: NUL :: X) := by simp
  have e2 : P.length + (l ++ [ch]).length - 1 = (P ++ l).length + 0 := by simp
  rw [e, e2, set_append_add]; simp

/-- The next command is the whole rest when it holds no `;`. -/
theorem next_command (m : Mem) (r X : List Char) (h : Rem m r X) (hne : r ≠ [])
    (hsc : ∀ c ∈ r, c ≠ ';') :
    strtok none [';'] m = (some m.save, ⟨m.buf, m.save + r.length⟩) := by
  obtain ⟨⟨P, hb, hp⟩, hn⟩ := h
  have := strtok_end ';' (by decide) P [] r X (by simp) hne (fun x hx => ⟨hn x hx, hsc x hx⟩)
  cases m; simp only at hb hp; subst hb hp
  simpa using this

theorem next_none (m : Mem) (X : List Char) (h : Rem m [] X) :
    strtok none [';'] m = (none, m) :=
  strtok_at_nul _ _ h.lay.peek_nil

theorem first_command (line : List Char) (hne : line ≠ []) (hc : ∀ c ∈ line, c ≠ NUL ∧ c ≠ ';') :
    processLine line = cmdLoop (line.length + 2) (some 0) ⟨line ++ [NUL], line.length⟩ := by
  have := strtok_end ';' (by decide) [] [] line [] (by simp) hne hc
  simp only [processLine, processBuf, strtok_some_eq]
  simp only [List.nil_append, List.length_nil, Nat.zero_add] at this
  rw [this]; simp

theorem Lay.length_le {buf : List Char} {c : Nat} {seg X : List Char} (h : Lay buf c seg X) :
    seg.length + 1 ≤ buf.length := by
  obtain ⟨P, rfl, rfl⟩ := h
  simp; omega

theorem plainTok_of_chars (r : List Char) (hc : ∀ c ∈ r, c ∉ OPS) :
    ∀ u ∈ spaceSplit r, PlainTok u := by
  intro u hu
  have h := (spaceSplit_mem r u hu).2
  refine ⟨?_, ?_, ?_, ?_⟩ <;> intro e <;> subst e
  · exact hc '>' (h '>' (by simp)).1 (by simp [OPS])
  · exact hc '<' (h '<' (by simp)).1 (by simp [OPS])
  · exact hc '&' (h '&' (by simp)).1 (by simp [OPS])
  · exact hc '|' (h '|' (by simp)).1 (by simp [OPS])

/-- Tokenizing a command made of plain tokens only. -/
theorem tokenize_plain (m : Mem) (c : Nat) (sw : Bool) (seg X : List Char)
    (hlay : Lay m.buf c seg X) (hn : ∀ x ∈ seg, x ≠ NUL)
    (hpl : ∀ u ∈ spaceSplit seg, PlainTok u) (hlen : (spaceSplit seg).length < ARGS_LEN) :
    ∃ f, tokenize m c sw = .fallthrough f ∧ Final f (spaceSplit seg) none none sw ∧
      Rem f.mem [] X := by
  have h1 := spaceSplit_length seg
  have h2 := hlay.length_le
  have hfuel : m.buf.length + 2 = (m.buf.length + 1 - (spaceSplit seg).length) + 1
      + (spaceSplit seg).length := by omega
  obtain ⟨f1, r1, ptrs1, e1, hinv1, hrem1, hs1, -, hw1, hi1⟩ :=
    tok_run (spaceSplit seg) ((m.buf.length + 1 - (spaceSplit seg).length) + 1)
      (frame0 m c sw) [] [] none none seg X [] (frame0_inv m c sw) ⟨hlay, hn⟩ (by simp) hpl
      (by simpa [frame0] using hlen)
  obtain ⟨f2, e2, hfin, hrem2, -⟩ :=
    tok_end (m.buf.length + 1 - (spaceSplit seg).length) f1 ptrs1 _ none none r1 X hinv1 hrem1 hs1
      (by rw [hi1]; simpa [frame0] using hlen)
  refine ⟨f2, ?_, ?_, hrem2⟩
  · rw [tokenize_frame0, hfuel, e1, e2]
  · have : f1.should_wait = sw := hw1
    rw [this] at hfin
    simpa using hfin

theorem ne_nil_of_spaceSplit {r : List Char} (h : spaceSplit r ≠ []) : r ≠ [] := by
  intro e; subst e; exact h spaceSplit_nil

/-- A line that is one command: what `processLine` does once the tokenizer result is known. -/
theorem single_line (line : List Char) (f : Frame) (w : List Char) (ws : List (List Char))
    (inp out : Option (List Char)) (sw : Bool) (X : List Char) (hne : line ≠ [])
    (hchars : ∀ c ∈ line, c ≠ NUL ∧ c ≠ ';' ∧ c ≠ '&')
    (ht : tokenize ⟨line ++ [NUL], line.length⟩ 0 true = .fallthrough f)
    (hfin : Final f (w :: ws) inp out sw) (hrem : Rem f.mem [] X) :
    processLine line = if w = "ascii".toList then ⟨[.printAsciiArt], f.mem.buf, .returned⟩
      else ⟨launch (w :: ws) inp out sw, f.mem.buf, .returned⟩ := by
  obtain ⟨l, ch, hl⟩ : ∃ l ch, line = l ++ [ch] := by
    rcases List.eq_nil_or_concat line with h | ⟨l, ch, h⟩
    · exact absurd h hne
    · exact ⟨l, ch, by simpa using h⟩
  have hlay : Lay (line ++ [NUL]) 0 line [] := ⟨[], rfl, rfl⟩
  have hn : ∀ x ∈ line, x ≠ NUL := fun x hx => (hchars x hx).1
  have hstrlen : strlen (line ++ [NUL]) 0 = line.length := by rw [strlen, hlay.cstr_eq hn]
  have hch : ch ≠ '&' := (hchars ch (by rw [hl]; simp)).2.2
  have hpeek : peek (line ++ [NUL]) (0 + strlen (line ++ [NUL]) 0 - 1) = ch := by
    rw [hstrlen]
    have := (hl ▸ hlay : Lay (line ++ [NUL]) 0 (l ++ [ch]) []).peek_last
    simpa [hl] using this
  have hstep := cmdLoop_step (line.length + 1) 0 ⟨line ++ [NUL], line.length⟩ false f w ws
    inp out sw none f.mem (by rw [hstrlen]; exact fun e => hne (List.length_eq_zero.1 e))
    (by rw [hpeek]; simpa using hch) (by simpa using ht) hfin (next_none _ _ hrem)
  rw [first_command line hne (fun c hc => ⟨(hchars c hc).1, (hchars c hc).2.1⟩), hstep,
    cmdLoop_null]
  split <;> simp [Result.after]

/-! ## Words, tokens and items -/

theorem IsWord.token {w : List Char} (h : IsWord w) : IsToken w :=
  ⟨h.1, fun c hc => ⟨(h.2 c hc).1, (h.2 c hc).2.1, fun e => (h.2 c hc).2.2 (by rw [e]; simp [OPS])⟩⟩

theorem IsWord.plain {w : List Char} (h : IsWord w) : PlainTok w := by
  refine ⟨?_, ?_, ?_, ?_⟩ <;> intro e <;> subst e
  · exact (h.2 '>' (by simp)).2.2 (by simp [OPS])
  · exact (h.2 '<' (by simp)).2.2 (by simp [OPS])
  · exact (h.2 '&' (by simp)).2.2 (by simp [OPS])
  · exact (h.2 '|' (by simp)).2.2 (by simp [OPS])

theorem spaceSplit_unwords (ts : List (List Char)) (sp : List Char)
    (hts : ∀ t ∈ ts, IsToken t) (hsp : ∀ x ∈ sp, x = ' ') :
    spaceSplit (unwords ts ++ sp) = ts := by
  induction ts with
  | nil => simpa [unwords] using spaceSplit_of_spaces sp hsp
  | cons t ts ih =>
    have ht := hts t (List.mem_cons_self _ _)
    have htc : ∀ x ∈ t, x ≠ ' ' := fun x hx => (ht.2 x hx).2.1
    cases ts with
    | nil =>
      cases sp with
      | nil => simpa [unwords] using spaceSplit_single t ht.1 htc
      | cons y sp =>
        have hy : y = ' ' := hsp y (List.mem_cons_self _ _)
        subst hy
        simp only [unwords]
        rw [spaceSplit_word t sp ht.1 htc,
          spaceSplit_of_spaces sp (fun x hx => hsp x (List.mem_cons_of_mem _ hx))]
    | cons v ts =>
      have := ih (fun u hu => hts u (List.mem_cons_of_mem _ hu))
      simp only [unwords, List.append_assoc, List.cons_append]
      rw [spaceSplit_word t _ ht.1 htc, this]

theorem unwords_chars (ts : List (List Char)) :
    ∀ c ∈ unwords ts, c = ' ' ∨ ∃ t ∈ ts, c ∈ t := by
  induction ts with
  | nil => intro c hc; simp [unwords] at hc
  | cons t ts ih =>
    cases ts with
    | nil => intro c hc; right; exact ⟨t, by simp, by simpa [unwords] using hc⟩
    | cons v ts =>
      intro c hc
      simp only [unwords, List.mem_append, List.mem_cons] at hc
      rcases hc with h | h | h
      · right; exact ⟨t, by simp, h⟩
      · left; exact h
      · rcases ih c h with h' | ⟨u, hu, hcu⟩
        · left; exact h'
        · right; exact ⟨u, List.mem_cons_of_mem _ hu, hcu⟩

theorem unwords_length (ts : List (List Char)) (hts : ∀ t ∈ ts, t ≠ []) :
    2 * ts.length ≤ (unwords ts).length + 1 := by
  induction ts with
  | nil => simp
  | cons t ts ih =>
    have h1 : 1 ≤ t.length := List.length_pos.2 (hts t (List.mem_cons_self _ _))
    cases ts with
    | nil => simp [unwords]; omega
    | cons v ts =>
      have := ih (fun u hu => hts u (List.mem_cons_of_mem _ hu))
      simp only [unwords, List.length_append, List.length_cons] at this ⊢
      omega

/-- A run of plain words and redirection pairs: each item takes one turn of the loop. -/
theorem tok_items (is : List Item) : ∀ (fuel : Nat) (f : Frame) (ptrs : List Nat)
    (ws : List (List Char)) (inp out : Option (List Char)) (r X : List Char)
    (rest : List (List Char)), FInv f ptrs ws inp out → Rem f.mem r X →
    spaceSplit r = itemToks is ++ rest → (∀ u ∈ itemWords is, PlainTok u) →
    f.i + (itemWords is).length < ARGS_LEN →
    ∃ f' r' ptrs', fetchLoop (fuel + is.length) f = fetchLoop fuel f' ∧
      FInv f' ptrs' (ws ++ itemWords is) (itemIn is inp) (itemOut is out) ∧ Rem f'.mem r' X ∧
      spaceSplit r' = rest ∧ r' <:+ r ∧ f'.should_wait = f.should_wait ∧
      f'.i = f.i + (itemWords is).length := by
  induction is with
  | nil =>
    intro fuel f ptrs ws inp out r X rest hinv hrem hs _ _
    exact ⟨f, r, ptrs, rfl, by simpa [itemWords, itemIn, itemOut] using hinv, hrem,
      by simpa [itemToks] using hs, List.suffix_refl _, rfl, rfl⟩
  | cons it is ih =>
    intro fuel f ptrs ws inp out r X rest hinv hrem hs hpl hb
    have hfuel : fuel + (it :: is).length = (fuel + is.length) + 1 := by simp; omega
    cases it with
    | word u =>
      simp only [itemWords, List.length_cons] at hb
      obtain ⟨f1, r1, t, e1, hinv1, hrem1, hs1, hsuf1, hw1⟩ :=
        tok_plain (fuel + is.length) f ptrs ws inp out r X u (itemToks is ++ rest) hinv hrem
          (by simpa [itemToks, Item.toks] using hs) (hpl u (by simp [itemWords])) (by omega)
      have hi1 : f1.i = f.i + 1 := by rw [hinv1.idx, hinv.idx]; simp
      obtain ⟨f2, r2, ptrs2, e2, hinv2, hrem2, hs2, hsuf2, hw2, hi2⟩ :=
        ih fuel f1 _ _ inp out r1 X rest hinv1 hrem1 hs1
          (fun v hv => hpl v (by simp [itemWords, hv])) (by rw [hi1]; omega)
      refine ⟨f2, r2, ptrs2, by rw [hfuel, e1, e2],
        by simpa [itemWords, itemIn, itemOut] using hinv2, hrem2, hs2, hsuf2.trans hsuf1,
        hw2.trans hw1, by rw [hi2, hi1]; simp [itemWords]; omega⟩
    | gt p =>
      simp only [itemWords] at hb hpl
      obtain ⟨f1, r1, e1, hinv1, hrem1, hs1, hsuf1, hw1⟩ :=
        tok_gt (fuel + is.length) f ptrs ws inp out r X p (itemToks is ++ rest) hinv hrem
          (by simpa [itemToks, Item.toks] using hs) (by omega)
      have hi1 : f1.i = f.i := by rw [hinv1.idx, hinv.idx]
      obtain ⟨f2, r2, ptrs2, e2, hinv2, hrem2, hs2, hsuf2, hw2, hi2⟩ :=
        ih fuel f1 _ _ inp (some p) r1 X rest hinv1 hrem1 hs1 hpl (by rw [hi1]; omega)
      exact ⟨f2, r2, ptrs2, by rw [hfuel, e1, e2],
        by simpa [itemWords, itemIn, itemOut] using hinv2, hrem2, hs2, hsuf2.trans hsuf1,
        hw2.trans hw1, by rw [hi2, hi1]; simp [itemWords]⟩
    | lt p =>
      simp only [itemWords] at hb hpl
      obtain ⟨f1, r1, e1, hinv1, hrem1, hs1, hsuf1, hw1⟩ :=
        tok_lt (fuel + is.length) f ptrs ws inp out r X p (itemToks is ++ rest) hinv hrem
          (by simpa [itemToks, Item.toks] using hs) (by omega)
      have hi1 : f1.i = f.i := by rw [hinv1.idx, hinv.idx]
      obtain ⟨f2, r2, ptrs2, e2, hinv2, hrem2, hs2, hsuf2, hw2, hi2⟩ :=
        ih fuel f1 _ _ (some p) out r1 X rest hinv1 hrem1 hs1 hpl (by rw [hi1]; omega)
      exact ⟨f2, r2, ptrs2, by rw [hfuel, e1, e2],
        by simpa [itemWords, itemIn, itemOut] using hinv2, hrem2, hs2, hsuf2.trans hsuf1,
        hw2.trans hw1, by rw [hi2, hi1]; simp [itemWords]⟩

theorem itemToks_append (a b : List Item) : itemToks (a ++ b) = itemToks a ++ itemToks b := by
  induction a with
  | nil => rfl
  | cons it a ih => simp [itemToks, ih]

theorem itemWords_append (a b : List Item) :
    itemWords (a ++ b) = itemWords a ++ itemWords b := by
  induction a with
  | nil => rfl
  | cons it a ih => cases it <;> simp [itemWords, ih]

theorem itemIn_append (a b : List Item) : ∀ o, itemIn (a ++ b) o = itemIn b (itemIn a o) := by
  induction a with
  | nil => intro o; rfl
  | cons it a ih => intro o; cases it <;> simp [itemIn, ih]

theorem itemOut_append (a b : List Item) : ∀ o, itemOut (a ++ b) o = itemOut b (itemOut a o) := by
  induction a with
  | nil => intro o; rfl
  | cons it a ih => intro o; cases it <;> simp [itemOut, ih]

theorem itemToks_words (ws : List (List Char)) : itemToks (ws.map Item.word) = ws := by
  induction ws with
  | nil => rfl
  | cons w ws ih => simp [itemToks, Item.toks, ih]

theorem itemWords_words (ws : List (List Char)) : itemWords (ws.map Item.word) = ws := by
  induction ws with
  | nil => rfl
  | cons w ws ih => simp [itemWords, ih]

theorem itemIn_words (ws : List (List Char)) (o : Option (List Char)) :
    itemIn (ws.map Item.word) o = o := by
  induction ws with
  | nil => rfl
  | cons w ws ih => simp [itemIn, ih]

theorem itemOut_words (ws : List (List Char)) (o : Option (List Char)) :
    itemOut (ws.map Item.word) o = o := by
  induction ws with
  | nil => rfl
  | cons w ws ih => simp [itemOut, ih]

theorem itemToks_length (is : List Item) : is.length ≤ (itemToks is).length := by
  induction is with
  | nil => simp
  | cons it is ih => cases it <;> simp [itemToks, Item.toks] <;> omega

theorem itemWords_length (is : List Item) : (itemWords is).length ≤ (itemToks is).length := by
  induction is with
  | nil => simp [itemWords]
  | cons it is ih => cases it <;> simp [itemToks, itemWords, Item.toks] <;> omega

theorem itemToks_ok (is : List Item) (h : ∀ it ∈ is, it.ok) :
    ∀ t ∈ itemToks is, IsWord t ∨ t = ['>'] ∨ t = ['<'] := by
  induction is with
  | nil => intro t ht; simp [itemToks] at ht
  | cons it is ih =>
    intro t ht
    have hit := h it (List.mem_cons_self _ _)
    simp only [itemToks, List.mem_append] at ht
    rcases ht with ht | ht
    · cases it <;> simp only [Item.toks, List.mem_cons, List.mem_singleton, List.not_mem_nil,
        or_false] at ht
      · subst ht; exact Or.inl hit
      · rcases ht with rfl | rfl
        · exact Or.inr (Or.inl rfl)
        · exact Or.inl hit
      · rcases ht with rfl | rfl
        · exact Or.inr (Or.inr rfl)
        · exact Or.inl hit
    · exact ih (fun j hj => h j (List.mem_cons_of_mem _ hj)) t ht

theorem itemWords_ok (is : List Item) (h : ∀ it ∈ is, it.ok) :
    ∀ u ∈ itemWords is, IsWord u := by
  induction is with
  | nil => intro u hu; simp [itemWords] at hu
  | cons it is ih =>
    intro u hu
    have hit := h it (List.mem_cons_self _ _)
    have ih' := ih (fun j hj => h j (List.mem_cons_of_mem _ hj))
    cases it <;> simp only [itemWords, List.mem_cons] at hu
    · rcases hu with rfl | hu
      · exact hit
      · exact ih' u hu
    · exact ih' u hu
    · exact ih' u hu

/-- Tokenizing a command made of plain words and redirection pairs. -/
theorem tokenize_items (m : Mem) (c : Nat) (sw : Bool) (seg X : List Char) (is : List Item)
    (hlay : Lay m.buf c seg X) (hn : ∀ x ∈ seg, x ≠ NUL) (hs : spaceSplit seg = itemToks is)
    (hpl : ∀ u ∈ itemWords is, PlainTok u) (hlen : (itemWords is).length < ARGS_LEN) :
    ∃ f, tokenize m c sw = .fallthrough f ∧
      Final f (itemWords is) (itemIn is none) (itemOut is none) sw ∧ Rem f.mem [] X := by
  have h1 := spaceSplit_length seg
  have h2 := hlay.length_le
  have h3 := itemToks_length is
  rw [hs] at h1
  have hfuel : m.buf.length + 2 = (m.buf.length + 1 - is.length) + 1 + is.length := by omega
  obtain ⟨f1, r1, ptrs1, e1, hinv1, hrem1, hs1, -, hw1, hi1⟩ :=
    tok_items is ((m.buf.length + 1 - is.length) + 1)
      (frame0 m c sw) [] [] none none seg X [] (frame0_inv m c sw) ⟨hlay, hn⟩ (by simpa using hs)
      hpl (by simpa [frame0] using hlen)
  obtain ⟨f2, e2, hfin, hrem2, -⟩ :=
    tok_end (m.buf.length + 1 - is.length) f1 ptrs1 _ _ _ r1 X hinv1 hrem1 hs1
      (by rw [hi1]; simpa [frame0] using hlen)
  refine ⟨f2, ?_, ?_, hrem2⟩
  · rw [tokenize_frame0, hfuel, e1, e2]
  · have : f1.should_wait = sw := hw1
    rw [this] at hfin
    simpa using hfin

/-- Tokenizing a command whose plain words are followed by a standalone `&`. -/
theorem tokenize_amp (m : Mem) (c : Nat) (sw : Bool) (seg X : List Char)
    (W : List (List Char)) (rest : List (List Char))
    (hlay : Lay m.buf c seg X) (hn : ∀ x ∈ seg, x ≠ NUL)
    (hs : spaceSplit seg = W ++ ['&'] :: rest)
    (hpl : ∀ u ∈ W, PlainTok u) (hlen : W.length < ARGS_LEN) :
    ∃ f r', tokenize m c sw = .fallthrough f ∧ Final f W none none false ∧
      Rem f.mem r' X ∧ spaceSplit r' = rest ∧ r' <:+ seg := by
  have h1 := spaceSplit_length seg
  have h2 := hlay.length_le
  rw [hs] at h1
  simp only [List.length_append, List.length_cons] at h1
  have hfuel : m.buf.length + 2 = (m.buf.length + 1 - W.length) + 1 + W.length := by omega
  obtain ⟨f1, r1, ptrs1, e1, hinv1, hrem1, hs1, hsuf1, -, hi1⟩ :=
    tok_run W ((m.buf.length + 1 - W.length) + 1)
      (frame0 m c sw) [] [] none none seg X _ (frame0_inv m c sw) ⟨hlay, hn⟩ hs hpl
      (by simpa [frame0] using hlen)
  obtain ⟨f2, r2, e2, hfin, hrem2, hs2, hsuf2⟩ :=
    tok_amp (m.buf.length + 1 - W.length) f1 ptrs1 _ none none r1 X rest hinv1 hrem1 hs1
      (by rw [hi1]; simpa [frame0] using hlen)
  exact ⟨f2, r2, by rw [tokenize_frame0, hfuel, e1, e2], by simpa using hfin, hrem2, hs2,
    hsuf2.trans hsuf1⟩

/-- Tokenizing a command whose plain words are followed by a `|`. -/
theorem tokenize_pipe (m : Mem) (c : Nat) (sw : Bool) (seg X : List Char)
    (W : List (List Char)) (rest : List (List Char))
    (hlay : Lay m.buf c seg X) (hn : ∀ x ∈ seg, x ≠ NUL)
    (hs : spaceSplit seg = W ++ ['|'] :: rest)
    (hpl : ∀ u ∈ W, PlainTok u) (hlen : W.length < ARGS_LEN) :
    ∃ f r', tokenize m c sw = .pipeline f ∧ argvOf f.mem.buf f.args = W ∧
      Rem f.mem r' X ∧ spaceSplit r' = rest ∧ r' <:+ seg := by
  have h1 := spaceSplit_length seg
  have h2 := hlay.length_le
  rw [hs] at h1
  simp only [List.length_append, List.length_cons] at h1
  have hfuel : m.buf.length + 2 = (m.buf.length + 1 - W.length) + 1 + W.length := by omega
  obtain ⟨f1, r1, ptrs1, e1, hinv1, hrem1, hs1, hsuf1, -, hi1⟩ :=
    tok_run W ((m.buf.length + 1 - W.length) + 1)
      (frame0 m c sw) [] [] none none seg X _ (frame0_inv m c sw) ⟨hlay, hn⟩ hs hpl
      (by simpa [frame0] using hlen)
  obtain ⟨f2, r2, e2, hfin, hrem2, hs2, hsuf2⟩ :=
    tok_pipe (m.buf.length + 1 - W.length) f1 ptrs1 _ none none r1 X rest hinv1 hrem1 hs1
      (by rw [hi1]; simpa [frame0] using hlen)
  exact ⟨f2, r2, by rw [tokenize_frame0, hfuel, e1, e2], by simpa using hfin.argv, hrem2, hs2,
    hsuf2.trans hsuf1⟩

theorem suffix_last {r l : List Char} {ch : Char} (h : r <:+ l ++ [ch]) (hne : r ≠ []) :
    ∃ l', r = l' ++ [ch] := by
  obtain ⟨pre, hpre⟩ := h
  rcases List.eq_nil_or_concat r with h0 | ⟨l', c', h1⟩
  · exact absurd h0 hne
  · have h1' : r = l' ++ [c'] := by simpa using h1
    subst h1'
    rw [← List.append_assoc] at hpre
    have := List.append_inj' hpre rfl
    have hc : c' = ch := by simpa using this.2
    exact ⟨l', by rw [hc]⟩

theorem suffix_mem {r s : List Char} (h : r <:+ s) : ∀ c ∈ r, c ∈ s := by
  intro c hc
  obtain ⟨pre, rfl⟩ := h
  simp [hc]

/-- One turn of the command loop on a command that ends in a space or a word character. -/
theorem cmd_turn (fuel c : Nat) (m : Mem) (seg l X : List Char) (ch : Char) (f : Frame)
    (w : List Char) (ws : List (List Char)) (inp out : Option (List Char)) (sw : Bool)
    (c' : Option Nat) (m' : Mem)
    (hlay : Lay m.buf c seg X) (hn : ∀ x ∈ seg, x ≠ NUL) (hseg : seg = l ++ [ch])
    (hch : ch ≠ '&') (ht : tokenize m c true = .fallthrough f)
    (hfin : Final f (w :: ws) inp out sw) (hs : strtok none [';'] f.mem = (c', m')) :
    cmdLoop (fuel + 1) (some c) m =
      if w = "ascii".toList then (cmdLoop fuel c' m').after [.printAsciiArt]
      else (cmdLoop fuel c' m').after (launch (w :: ws) inp out sw) := by
  have hstrlen : strlen m.buf c = seg.length := by rw [strlen, hlay.cstr_eq hn]
  have hpeek : peek m.buf (c + strlen m.buf c - 1) = ch := by
    rw [hstrlen]
    have := (hseg ▸ hlay : Lay m.buf c (l ++ [ch]) X).peek_last
    simpa [hseg] using this
  exact cmdLoop_step fuel c m false f w ws inp out sw c' m'
    (by rw [hstrlen, hseg]; simp) (by rw [hpeek]; simpa using hch) (by simpa using ht) hfin hs

/-- The first command of a line whose first `;` comes after the non-empty `seg`. -/
theorem first_command_semi (seg rest : List Char) (hne : seg ≠ [])
    (hc : ∀ c ∈ seg, c ≠ NUL ∧ c ≠ ';') :
    processLine (seg ++ ';' :: rest) = cmdLoop (seg.length + rest.length + 3) (some 0)
      ⟨seg ++ NUL :: (rest ++ [NUL]), seg.length + 1⟩ := by
  have := strtok_delim ';' (by decide) [] [] seg (rest ++ [NUL]) (by simp) hne hc
  simp only [processLine, processBuf, strtok_some_eq]
  simp only [List.nil_append, List.length_nil, Nat.zero_add] at this
  simp only [List.append_assoc, List.cons_append]
  rw [this]
  simp [Nat.add_assoc]

theorem amp_token : IsToken ['&'] := by decide

/-- A line `seg ;` whose tokens are plain words, a standalone `&`, and plain words again. -/
theorem amp_line (seg l : List Char) (u v : List Char) (us vs : List (List Char))
    (hseg : seg = l ++ [' ']) (hchars : ∀ c ∈ seg, c ≠ NUL ∧ c ≠ ';')
    (hsplit : spaceSplit seg = (u :: us) ++ ['&'] :: (v :: vs))
    (hW1 : ∀ w ∈ u :: us, PlainTok w) (hW2 : ∀ w ∈ v :: vs, PlainTok w)
    (hau : u ≠ "ascii".toList) (hav : v ≠ "ascii".toList)
    (hc1 : (u :: us).length < ARGS_LEN) (hc2 : (v :: vs).length < ARGS_LEN) :
    (processLine (seg ++ [';'])).trace
        = [.fork (.exec (u :: us) .inherited .inherited),
           .fork (.exec (v :: vs) .inherited .inherited), .waitpid] ∧
      (processLine (seg ++ [';'])).outcome = .returned := by
  have hne : seg ≠ [] := by rw [hseg]; simp
  have hn : ∀ x ∈ seg, x ≠ NUL := fun x hx => (hchars x hx).1
  have hlay1 : Lay (seg ++ NUL :: ([] ++ [NUL])) 0 seg ([] ++ [NUL]) := ⟨[], rfl, rfl⟩
  -- the first command
  obtain ⟨f1, r1, ht1, hfin1, hrem1, hs1, hsuf1⟩ := tokenize_amp
    ⟨seg ++ NUL :: ([] ++ [NUL]), seg.length + 1⟩ 0 true seg ([] ++ [NUL]) (u :: us) (v :: vs)
    hlay1 hn hsplit hW1 hc1
  have hr1 : r1 ≠ [] := by
    intro e; rw [e, spaceSplit_nil] at hs1; cases hs1
  have hnext := next_command f1.mem r1 _ hrem1 hr1
    (fun c hc => (hchars c (suffix_mem hsuf1 c hc)).2)
  have hturn1 := cmd_turn (seg.length + 2) 0 ⟨seg ++ NUL :: ([] ++ [NUL]), seg.length + 1⟩
    seg l ([] ++ [NUL]) ' ' f1 u us none none false _ _ hlay1 hn hseg (by decide) ht1 hfin1 hnext
  -- the second command
  obtain ⟨l2, hl2⟩ := suffix_last (hseg ▸ hsuf1) hr1
  have hlay2 : Lay f1.mem.buf f1.mem.save r1 ([] ++ [NUL]) := hrem1.lay
  obtain ⟨f2, ht2, hfin2, hrem2⟩ := tokenize_plain
    ⟨f1.mem.buf, f1.mem.save + r1.length⟩ f1.mem.save true r1 _ hlay2 hrem1.nonul
    (by rw [hs1]; exact hW2) (by rw [hs1]; exact hc2)
  rw [hs1] at hfin2
  have hturn2 := cmd_turn (seg.length + 1) f1.mem.save ⟨f1.mem.buf, f1.mem.save + r1.length⟩ r1 l2
    ([] ++ [NUL]) ' ' f2 v vs none none true _ _ hlay2 hrem1.nonul hl2 (by decide) ht2 hfin2
    (next_none _ _ hrem2)
  rw [first_command_semi seg [] hne hchars]
  have hfuel : seg.length + ([] : List Char).length + 3 = (seg.length + 2) + 1 := by simp
  rw [hfuel, hturn1, if_neg hau, hturn2, if_neg hav, cmdLoop_null]
  exact ⟨rfl, rfl⟩

/-! ## The pipeline -/

theorem stage2Loop_null (fuel : Nat) (m : Mem) (args2 : List (Option Nat)) (j : Nat)
    (hj : ¬ ARGS_LEN ≤ j) :
    stage2Loop (fuel + 1) m none args2 j
      = some (.exec (argvOf m.buf (args2.set j none)) .pipeRead .inherited) := by
  simp only [stage2Loop, if_neg hj]

theorem stage2Loop_some (fuel : Nat) (m : Mem) (p : Nat) (args2 : List (Option Nat)) (j : Nat)
    (hj : ¬ ARGS_LEN ≤ j) :
    stage2Loop (fuel + 1) m (some p) args2 j
      = match strtok none [' '] m with
        | (t, m1) => stage2Loop fuel m1 t (args2.set j (some p)) (j + 1) := by
  simp only [stage2Loop, if_neg hj]

/-- The second child collects every remaining token, operators included. -/
theorem stage2Loop_spec (B : List (List Char)) : ∀ (fuel : Nat) (f : Frame) (ptrs : List Nat)
    (ws : List (List Char)) (r X : List Char), FInv f ptrs ws none none → Rem f.mem r X →
    spaceSplit r = B → f.i + B.length < ARGS_LEN →
    (match strtok none [' '] f.mem with
      | (t, m1) => stage2Loop (fuel + B.length + 1) m1 t f.args f.i)
      = some (.exec (ws ++ B) .pipeRead .inherited) := by
  induction B with
  | nil =>
    intro fuel f ptrs ws r X hinv hrem hs hb
    obtain ⟨m', hst, -, -⟩ := strtok_step_none f.mem r X hrem.lay hs
    have hstep := hinv.step m' (fun p w hp => strtok_pin _ _ _ _ hst p w hp)
    have hfin := (hstep.final (by simpa using hb)).1
    simp only [hst, List.length_nil, Nat.add_zero]
    rw [stage2Loop_null _ _ _ _ (by simp at hb; omega)]
    simp only [List.append_nil]
    exact congrArg (fun a => some (Child.exec a Stream.pipeRead Stream.inherited)) hfin
  | cons b B ih =>
    intro fuel f ptrs ws r X hinv hrem hs hb
    obtain ⟨t, m', r', hst, hlay, hnn, hsp, -, hpin⟩ :=
      strtok_step_some f.mem r X b B hrem.lay hrem.nonul hs
    simp only [List.length_cons] at hb
    have hlt : f.i < f.args.length := by rw [hinv.len]; omega
    have hstep := hinv.step m' (fun p w hp => strtok_pin _ _ _ _ hst p w hp)
    have hinv' : FInv { f with mem := m', args := f.args.set f.i (some t), i := f.i + 1 }
        (ptrs ++ [t]) (ws ++ [b]) none none := by
      refine ⟨by simp [hinv.len], by simp [hinv.idx], ?_, ?_, hstep.pin_in, hstep.pin_out⟩
      · show (f.args.set f.i (some t)).take (f.i + 1) = (ptrs ++ [t]).map some
        rw [take_succ_set _ _ _ hlt, hinv.pre]; simp
      · exact List.rel_append hstep.pins (List.Forall₂.cons hpin List.Forall₂.nil)
    have := ih fuel _ (ptrs ++ [t]) (ws ++ [b]) r' X hinv' ⟨hlay, hnn⟩ hsp
      (by show f.i + 1 + B.length < ARGS_LEN; omega)
    simp only [hst]
    have hfuel : fuel + (B.length + 1) + 1 = (fuel + B.length + 1) + 1 := by omega
    rw [List.length_cons, hfuel, stage2Loop_some _ _ _ _ _ (by omega)]
    simpa using this

theorem stage2_spec (m : Mem) (r X : List Char) (hrem : Rem m r X)
    (hlen : (spaceSplit r).length < ARGS_LEN) :
    stage2 m = some (.exec (spaceSplit r) .pipeRead .inherited) := by
  have h1 := spaceSplit_length r
  have h2 := hrem.lay.length_le
  have hfuel : m.buf.length + 2
      = (m.buf.length + 1 - (spaceSplit r).length) + (spaceSplit r).length + 1 := by omega
  have := stage2Loop_spec (spaceSplit r) (m.buf.length + 1 - (spaceSplit r).length)
    { mem := m, args := List.replicate ARGS_LEN none, i := 0, input_file := none,
      output_file := none, should_wait := true } [] [] r X
    ⟨by simp, rfl, by simp, List.Forall₂.nil, trivial, trivial⟩ hrem rfl (by simpa using hlen)
  simp only [stage2, hfuel]
  simpa using this

theorem cmdLoop_pipe (fuel c : Nat) (m : Mem) (f : Frame) (c2 : Child)
    (hn : strlen m.buf c ≠ 0)
    (hbg : decide (peek m.buf (c + strlen m.buf c - 1) = '&') = false)
    (ht : tokenize m c true = .pipeline f) (h2 : stage2 f.mem = some c2) :
    cmdLoop (fuel + 1) (some c) m =
      ⟨[.pipe, .fork (.exec (argvOf f.mem.buf f.args) .inherited .pipeWrite), .fork c2,
        .wait, .wait], f.mem.buf, .returned⟩ := by
  simp only [cmdLoop, if_neg hn, hbg, Bool.not_false, Bool.false_eq_true, if_false, ht, h2]

/-! ## Segments and units with any spacing -/

theorem spaceSplit_cover (r : List Char) : ∀ c ∈ r, c = ' ' ∨ ∃ u ∈ spaceSplit r, c ∈ u := by
  refine split_induction (fun r => ∀ c ∈ r, c = ' ' ∨ ∃ u ∈ spaceSplit r, c ∈ u) ?_ ?_ ?_ r
  · intro sp hsp c hc; exact Or.inl (hsp c hc)
  · intro sp w hsp hne hwc c hc
    rw [spaceSplit_spaces _ _ hsp, spaceSplit_single _ hne hwc]
    rcases List.mem_append.1 hc with h | h
    · exact Or.inl (hsp c h)
    · exact Or.inr ⟨w, by simp, h⟩
  · intro sp w r hsp hne hwc ih c hc
    rw [spaceSplit_spaces _ _ hsp, spaceSplit_word _ _ hne hwc]
    rcases List.mem_append.1 hc with h | h
    · exact Or.inl (hsp c h)
    · rcases List.mem_append.1 h with h | h
      · exact Or.inr ⟨w, by simp, h⟩
      · rcases List.mem_cons.1 h with h | h
        · exact Or.inl h
        · rcases ih c h with h' | ⟨u, hu, hcu⟩
          · exact Or.inl h'
          · exact Or.inr ⟨u, List.mem_cons_of_mem _ hu, hcu⟩

theorem spaceSplit_eq_nil {r : List Char} (h : spaceSplit r = []) : ∀ c ∈ r, c = ' ' := by
  intro c hc
  rcases spaceSplit_cover r c hc with h' | ⟨u, hu, -⟩
  · exact h'
  · rw [h] at hu; cases hu

theorem spaceSplit_append_space (a b : List Char) :
    spaceSplit (a ++ ' ' :: b) = spaceSplit a ++ spaceSplit b := by
  refine split_induction (fun a => spaceSplit (a ++ ' ' :: b) = spaceSplit a ++ spaceSplit b)
    ?_ ?_ ?_ a
  · intro sp hsp
    have e : sp ++ ' ' :: b = (sp ++ [' ']) ++ b := by simp
    rw [e, spaceSplit_spaces (sp ++ [' ']) b (by
      intro x hx
      rcases List.mem_append.1 hx with h | h
      · exact hsp x h
      · simpa using h), spaceSplit_of_spaces sp hsp]
    rfl
  · intro sp w hsp hne hwc
    rw [List.append_assoc, spaceSplit_spaces _ _ hsp, spaceSplit_word _ _ hne hwc,
      spaceSplit_spaces _ _ hsp, spaceSplit_single _ hne hwc]
    rfl
  · intro sp w r hsp hne hwc ih
    have e : sp ++ (w ++ ' ' :: r) ++ ' ' :: b = sp ++ (w ++ ' ' :: (r ++ ' ' :: b)) := by simp
    rw [e, spaceSplit_spaces _ _ hsp, spaceSplit_word _ _ hne hwc, ih,
      spaceSplit_spaces _ _ hsp, spaceSplit_word _ _ hne hwc]
    rfl

theorem last_split (c : Char) (A B A' B' : List Char) (h : A ++ c :: B = A' ++ c :: B')
    (hB : c ∉ B) (hB' : c ∉ B') : A = A' ∧ B = B' := by
  have hr := congrArg List.reverse h
  simp only [List.reverse_append, List.reverse_cons, List.append_assoc, List.singleton_append]
    at hr
  have h1 := takeWhile_stop (fun x => x != c) B.reverse c A.reverse
    (by
      intro x hx
      have hx' : x ∈ B := List.mem_reverse.1 hx
      have : x ≠ c := fun e => hB (by rw [← e]; exact hx')
      simpa using this)
    (by simp)
  have h2 := takeWhile_stop (fun x => x != c) B'.reverse c A'.reverse
    (by
      intro x hx
      have hx' : x ∈ B' := List.mem_reverse.1 hx
      have : x ≠ c := fun e => hB' (by rw [← e]; exact hx')
      simpa using this)
    (by simp)
  rw [hr, h2] at h1
  have hBB : B = B' := (List.reverse_injective h1).symm
  subst hBB
  exact ⟨List.append_cancel_right h, rfl⟩

theorem firstSegment_split (line : List Char) :
    ∃ semis, (∀ c ∈ semis, c = ';') ∧ (∀ c ∈ firstSegment line, c ≠ ';') ∧
      (line = semis ++ firstSegment line ∨
        ∃ rest, line = semis ++ (firstSegment line ++ ';' :: rest)) := by
  refine ⟨line.takeWhile (fun c => c == ';'), ?_, ?_, ?_⟩
  · intro c hc; simpa using List.mem_takeWhile_imp hc
  · intro c hc; simpa using List.mem_takeWhile_imp hc
  · have h1 : line = line.takeWhile (fun c => c == ';') ++ line.dropWhile (fun c => c == ';') :=
      (List.takeWhile_append_dropWhile _ _).symm
    have h2 : line.dropWhile (fun c => c == ';') = firstSegment line ++
        (line.dropWhile (fun c => c == ';')).dropWhile (fun c => c != ';') :=
      (List.takeWhile_append_dropWhile _ _).symm
    rcases dropWhile_head (fun c => c != ';') (line.dropWhile (fun c => c == ';')) with h | ⟨x, xs, h, hx⟩
    · left
      rw [h, List.append_nil] at h2
      rw [← h2]; exact h1
    · right
      have hx' : x = ';' := by simpa using hx
      refine ⟨xs, ?_⟩
      rw [h, hx'] at h2
      rw [← h2]; exact h1

/-- The first command of a line is its first non-empty segment. -/
theorem first_segment (line seg : List Char) (hseg : firstSegment line = seg) (hne : seg ≠ [])
    (hn : ∀ c ∈ seg, c ≠ NUL) :
    ∃ c m X, processLine line = cmdLoop (line.length + 2) (some c) m ∧ Lay m.buf c seg X := by
  obtain ⟨semis, hsemis, hsc, hline⟩ := firstSegment_split line
  rw [hseg] at hsc hline
  have hc : ∀ x ∈ seg, x ≠ NUL ∧ x ≠ ';' := fun x hx => ⟨hn x hx, hsc x hx⟩
  rcases hline with h | ⟨rest, h⟩
  · have := strtok_end ';' (by decide) [] semis seg [] hsemis hne hc
    simp only [List.nil_append, List.length_nil, Nat.zero_add] at this
    refine ⟨semis.length, ⟨semis ++ (seg ++ [NUL]), semis.length + seg.length⟩, [], ?_,
      ⟨semis, rfl, rfl⟩⟩
    simp only [processLine, processBuf, strtok_some_eq]
    have e : line ++ [NUL] = semis ++ (seg ++ [NUL]) := by rw [h]; simp
    rw [e, this]
    simp only [List.length_append, List.length_cons, List.length_nil, h]
    congr 1
  · have := strtok_delim ';' (by decide) [] semis seg (rest ++ [NUL]) hsemis hne hc
    simp only [List.nil_append, List.length_nil, Nat.zero_add] at this
    refine ⟨semis.length, ⟨semis ++ (seg ++ NUL :: (rest ++ [NUL])),
      semis.length + seg.length + 1⟩, rest ++ [NUL], ?_, ⟨semis, rfl, rfl⟩⟩
    simp only [processLine, processBuf, strtok_some_eq]
    have e : line ++ [NUL] = semis ++ (seg ++ ';' :: (rest ++ [NUL])) := by rw [h]; simp
    rw [e, this]
    simp only [List.length_append, List.length_cons, List.length_nil, h]
    congr 1

theorem argvOf_nil_head (buf : List Char) (args : List (Option Nat)) (h : argvOf buf args = []) :
    args.getD 0 none = none := by
  cases args with
  | nil => rfl
  | cons a rest =>
    cases a with
    | none => rfl
    | some p => simp [argvOf] at h

/-- A command of spaces only: `args[0]` is NULL at line 196. -/
theorem cmdLoop_blank (fuel c : Nat) (m : Mem) (r X : List Char) (hlay : Lay m.buf c r X)
    (hne : r ≠ []) (hsp : ∀ x ∈ r, x = ' ') :
    (cmdLoop (fuel + 1) (some c) m).trace = [] ∧
      (cmdLoop (fuel + 1) (some c) m).outcome = .nullDeref := by
  have hn : ∀ x ∈ r, x ≠ NUL := fun x hx => by rw [hsp x hx]; decide
  obtain ⟨l, ch, hl⟩ : ∃ l ch, r = l ++ [ch] := by
    rcases List.eq_nil_or_concat r with h | ⟨l, ch, h⟩
    · exact absurd h hne
    · exact ⟨l, ch, by simpa using h⟩
  have hch : ch = ' ' := hsp ch (by rw [hl]; simp)
  have hstrlen : strlen m.buf c = r.length := by rw [strlen, hlay.cstr_eq hn]
  have hpeek : peek m.buf (c + strlen m.buf c - 1) = ch := by
    rw [hstrlen]
    have := (hl ▸ hlay : Lay m.buf c (l ++ [ch]) X).peek_last
    simpa [hl] using this
  obtain ⟨f, ht, hfin, -, -⟩ := tok_end (m.buf.length + 1) (frame0 m c true) [] [] none none r X
    (frame0_inv m c true) ⟨hlay, hn⟩ (spaceSplit_of_spaces r hsp) (by simp [frame0, ARGS_LEN])
  rw [← tokenize_frame0] at ht
  have h0 := argvOf_nil_head _ _ hfin.argv
  have hnz : strlen m.buf c ≠ 0 := by rw [hstrlen, hl]; simp
  have hbg : decide (peek m.buf (c + strlen m.buf c - 1) = '&') = false := by
    rw [hpeek, hch]; rfl
  simp only [cmdLoop, if_neg hnz, hbg, Bool.not_false, Bool.false_eq_true, if_false, ht, h0]
  exact ⟨trivial, trivial⟩

/-- The step `strtok(NULL, " ")` on a string with a first word, with the exact rest. -/
theorem strtok_step_shape (m : Mem) (r X w : List Char) (ws : List (List Char))
    (hl : Lay m.buf m.save r X) (hn : ∀ c ∈ r, c ≠ NUL) (hs : spaceSplit r = w :: ws) :
    ∃ t m' r' sp, strtok none [' '] m = (some t, m') ∧ Lay m'.buf m'.save r' X ∧
      (∀ c ∈ r', c ≠ NUL) ∧ spaceSplit r' = ws ∧ Pin m' t w ∧ (∀ x ∈ sp, x = ' ') ∧
      ((r = sp ++ w ∧ r' = []) ∨ r = sp ++ (w ++ ' ' :: r')) := by
  obtain ⟨P, hb, hp⟩ := hl
  obtain ⟨sp, rest, hr, hsp, hrest⟩ := split_decomp r
  rcases hrest with h0 | ⟨w', r0, hw, hne, hwc, h0 | ⟨r', h0⟩⟩
  · exfalso
    subst h0
    simp only [List.append_nil] at hr
    subst hr
    rw [spaceSplit_of_spaces r hsp] at hs; cases hs
  · subst h0 hw hr
    rw [spaceSplit_spaces _ _ hsp, List.append_nil, spaceSplit_single _ hne hwc] at hs
    obtain ⟨rfl, rfl⟩ := List.cons.inj hs
    have hwn : ∀ x ∈ w', x ≠ NUL ∧ x ≠ ' ' := fun x hx =>
      ⟨hn x (by simp [hx]), hwc x hx⟩
    have := strtok_end ' ' (by decide) P sp w' X hsp hne hwn
    refine ⟨P.length + sp.length,
      ⟨P ++ (sp ++ (w' ++ NUL :: X)), P.length + sp.length + w'.length⟩,
      [], sp, ?_, ?_, by simp, spaceSplit_nil, ?_, hsp, Or.inl ⟨by simp, rfl⟩⟩
    · cases m; simp only at hb hp; subst hb hp
      simpa using this
    · exact ⟨P ++ sp ++ w', by simp, by simp [Nat.add_assoc]⟩
    · refine ⟨?_, Nat.le_refl _⟩
      have := cstr_at (P ++ sp) w' X (fun x hx => (hwn x hx).1)
      simpa using this
  · subst h0 hw hr
    rw [spaceSplit_spaces _ _ hsp, spaceSplit_word _ _ hne hwc] at hs
    obtain ⟨rfl, rfl⟩ := List.cons.inj hs
    have hwn : ∀ x ∈ w', x ≠ NUL ∧ x ≠ ' ' := fun x hx =>
      ⟨hn x (by simp [hx]), hwc x hx⟩
    have := strtok_delim ' ' (by decide) P sp w' (r' ++ NUL :: X) hsp hne hwn
    refine ⟨P.length + sp.length,
      ⟨P ++ (sp ++ (w' ++ NUL :: (r' ++ NUL :: X))), P.length + sp.length + w'.length + 1⟩,
      r', sp, ?_, ?_, ?_, rfl, ?_, hsp, Or.inr rfl⟩
    · cases m; simp only at hb hp; subst hb hp
      simpa using this
    · exact ⟨P ++ sp ++ w' ++ [NUL], by simp, by simp [Nat.add_assoc]⟩
    · intro c hc; exact hn c (by simp [hc])
    · refine ⟨?_, Nat.le_succ _⟩
      have := cstr_at (P ++ sp) w' (r' ++ NUL :: X) (fun x hx => (hwn x hx).1)
      simpa using this

/-- The standalone `&` as last token: the loop is left, and what follows the `&` is known. -/
theorem tok_amp_last (fuel : Nat) (f : Frame) (ptrs : List Nat) (ws : List (List Char))
    (inp out : Option (List Char)) (r X : List Char)
    (hinv : FInv f ptrs ws inp out) (hrem : Rem f.mem r X)
    (hs : spaceSplit r = [['&']]) (hb : f.i < ARGS_LEN) :
    ∃ f' r' sp, fetchLoop (fuel + 1) f = .fallthrough f' ∧ Final f' ws inp out false ∧
      Rem f'.mem r' X ∧ (∀ x ∈ r', x = ' ') ∧ (∀ x ∈ sp, x = ' ') ∧
      ((r = sp ++ ['&'] ∧ r' = []) ∨ r = sp ++ '&' :: ' ' :: r') := by
  obtain ⟨t, m', r', sp, hst, hlay, hnn, hsp', hpin, hsp, hshape⟩ :=
    strtok_step_shape f.mem r X _ [] hrem.lay hrem.nonul hs
  have hlt : f.i < f.args.length := by rw [hinv.len]; omega
  have e1 : fetchLoop (fuel + 1) f
      = tokLoop (fuel + 1) { f with mem := m', args := f.args.set f.i (some t) } := by
    simp only [fetchLoop, hst]
  have hget : (f.args.set f.i (some t)).getD f.i none = some t := getD_set_self _ _ _ hlt
  rw [e1, tokLoop_amp fuel _ t hget hpin.1]
  have hstep := hinv.step m' (fun p w hp => strtok_pin _ _ _ _ hst p w hp)
  have hfin := hstep.final hb
  refine ⟨_, r', sp, rfl, ⟨?_, hfin.2.1, hfin.2.2, rfl⟩, ⟨hlay, hnn⟩, spaceSplit_eq_nil hsp', hsp,
    by simpa using hshape⟩
  show argvOf m'.buf ((f.args.set f.i (some t)).set f.i none) = ws
  rw [set_set_self]; exact hfin.1

/-- Tokenizing a command made of plain words and redirection pairs, then a standalone `&`. -/
theorem tokenize_items_amp (m : Mem) (c : Nat) (sw : Bool) (seg X : List Char) (is : List Item)
    (hlay : Lay m.buf c seg X) (hn : ∀ x ∈ seg, x ≠ NUL)
    (hs : spaceSplit seg = itemToks is ++ [['&']])
    (hpl : ∀ u ∈ itemWords is, PlainTok u) (hlen : (itemWords is).length < ARGS_LEN) :
    ∃ f r' r1 sp, tokenize m c sw = .fallthrough f ∧
      Final f (itemWords is) (itemIn is none) (itemOut is none) false ∧ Rem f.mem r' X ∧
      (∀ x ∈ r', x = ' ') ∧ r1 <:+ seg ∧ (∀ x ∈ sp, x = ' ') ∧
      ((r1 = sp ++ ['&'] ∧ r' = []) ∨ r1 = sp ++ '&' :: ' ' :: r') := by
  have h1 := spaceSplit_length seg
  have h2 := hlay.length_le
  have h3 := itemToks_length is
  rw [hs] at h1
  simp only [List.length_append, List.length_cons, List.length_nil] at h1
  have hfuel : m.buf.length + 2 = (m.buf.length + 1 - is.length) + 1 + is.length := by omega
  obtain ⟨f1, r1, ptrs1, e1, hinv1, hrem1, hs1, hsuf1, -, hi1⟩ :=
    tok_items is ((m.buf.length + 1 - is.length) + 1)
      (frame0 m c sw) [] [] none none seg X _ (frame0_inv m c sw) ⟨hlay, hn⟩ hs
      hpl (by simpa [frame0] using hlen)
  obtain ⟨f2, r2, sp, e2, hfin, hrem2, hsp2, hsp, hshape⟩ :=
    tok_amp_last (m.buf.length + 1 - is.length) f1 ptrs1 _ _ _ r1 X hinv1 hrem1 hs1
      (by rw [hi1]; simpa [frame0] using hlen)
  exact ⟨f2, r2, r1, sp, by rw [tokenize_frame0, hfuel, e1, e2], by simpa using hfin, hrem2,
    hsp2, hsuf1, hsp, hshape⟩

theorem items_token (w0 : List Char) (is : List Item) (hw0 : IsWord w0)
    (his : ∀ it ∈ is, it.ok) : ∀ t ∈ w0 :: itemToks is, IsWord t ∨ t = ['>'] ∨ t = ['<'] := by
  intro t ht
  rcases List.mem_cons.1 ht with rfl | ht
  · exact Or.inl hw0
  · exact itemToks_ok is his t ht

/-- A string whose tokens are plain words, `>` and `<` holds no NUL, no `;` and no `&`. -/
theorem items_chars (w0 : List Char) (is : List Item) (seg : List Char) (hw0 : IsWord w0)
    (his : ∀ it ∈ is, it.ok) (hsplit : spaceSplit seg = w0 :: itemToks is) :
    ∀ c ∈ seg, c ≠ NUL ∧ c ≠ ';' ∧ c ≠ '&' := by
  intro c hc
  rcases spaceSplit_cover seg c hc with rfl | ⟨t, ht, hct⟩
  · decide
  · rw [hsplit] at ht
    rcases items_token w0 is hw0 his t ht with h | rfl | rfl
    · exact ⟨(h.2 c hct).1, fun e => (h.2 c hct).2.2 (by rw [e]; simp [OPS]),
        fun e => (h.2 c hct).2.2 (by rw [e]; simp [OPS])⟩
    · simp at hct; subst hct; decide
    · simp at hct; subst hct; decide

theorem items_ok (w0 : List Char) (is : List Item) (hw0 : IsWord w0)
    (his : ∀ it ∈ is, it.ok) : ∀ it ∈ Item.word w0 :: is, it.ok := by
  intro it hit
  rcases List.mem_cons.1 hit with rfl | hit
  · exact hw0
  · exact his it hit

/-- One turn of the command loop on a unit of plain words and redirection pairs. -/
theorem items_unit (fuel c : Nat) (m : Mem) (seg X : List Char) (w0 : List Char)
    (is : List Item) (hw0 : IsWord w0) (his : ∀ it ∈ is, it.ok) (hasc : w0 ≠ "ascii".toList)
    (hsplit : spaceSplit seg = w0 :: itemToks is)
    (hcount : (w0 :: itemWords is).length < ARGS_LEN) (hlay : Lay m.buf c seg X) :
    (cmdLoop (fuel + 2) (some c) m).trace
        = launch (w0 :: itemWords is) (itemIn is none) (itemOut is none) true ∧
      (cmdLoop (fuel + 2) (some c) m).outcome = .returned := by
  have hchars := items_chars w0 is seg hw0 his hsplit
  have hn : ∀ x ∈ seg, x ≠ NUL := fun x hx => (hchars x hx).1
  have hne : seg ≠ [] := by
    intro e; rw [e, spaceSplit_nil] at hsplit; cases hsplit
  obtain ⟨l, ch, hl⟩ : ∃ l ch, seg = l ++ [ch] := by
    rcases List.eq_nil_or_concat seg with h | ⟨l, ch, h⟩
    · exact absurd h hne
    · exact ⟨l, ch, by simpa using h⟩
  have hch : ch ≠ '&' := (hchars ch (by rw [hl]; simp)).2.2
  obtain ⟨f, ht, hfin, hrem⟩ := tokenize_items m c true seg X (.word w0 :: is) hlay hn
    (by simpa [itemToks, Item.toks] using hsplit)
    (fun u hu => (itemWords_ok _ (items_ok w0 is hw0 his) u hu).plain) hcount
  have hfin' : Final f (w0 :: itemWords is) (itemIn is none) (itemOut is none) true := by
    simpa [itemWords, itemIn, itemOut] using hfin
  rw [cmd_turn (fuel + 1) c m seg l X ch f w0 (itemWords is) _ _ true none f.mem hlay hn hl hch ht
    hfin' (next_none _ _ hrem), if_neg hasc, cmdLoop_null]
  exact ⟨by simp [Result.after], rfl⟩

theorem getLast_concat {l : List Char} {ch : Char} (h : l.getLast? = some ch) :
    ∃ l', l = l' ++ [ch] := by
  rcases List.eq_nil_or_concat l with h0 | ⟨l', c', h1⟩
  · rw [h0] at h; cases h
  · have h1' : l = l' ++ [c'] := by simpa using h1
    rw [h1', List.getLast?_append] at h
    simp at h
    exact ⟨l', by rw [h1', h]⟩

/-- One turn of the command loop on a unit of plain words and redirection pairs that ends in
`&`: as last character (lines 115-119) or as a standalone token before spaces (lines 147-152). -/
theorem amp_unit (fuel c : Nat) (m : Mem) (X : List Char) (w0 : List Char) (is : List Item)
    (body tail seg : List Char) (hw0 : IsWord w0) (his : ∀ it ∈ is, it.ok)
    (hasc : w0 ≠ "ascii".toList) (hbody : spaceSplit body = w0 :: itemToks is)
    (htail : ∀ x ∈ tail, x = ' ') (hstand : tail ≠ [] → body.getLast? = some ' ')
    (hseg : seg = body ++ '&' :: tail) (hcount : (w0 :: itemWords is).length < ARGS_LEN)
    (hlay : Lay m.buf c seg X) :
    (cmdLoop (fuel + 2) (some c) m).trace
        = launch (w0 :: itemWords is) (itemIn is none) (itemOut is none) false ∧
      (cmdLoop (fuel + 2) (some c) m).outcome
        = if tail.length ≤ 1 then .returned else .nullDeref := by
  have hcb := items_chars w0 is body hw0 his hbody
  have hchars : ∀ x ∈ seg, x ≠ NUL ∧ x ≠ ';' := by
    intro x hx
    rw [hseg] at hx
    rcases List.mem_append.1 hx with h | h
    · exact ⟨(hcb x h).1, (hcb x h).2.1⟩
    · rcases List.mem_cons.1 h with rfl | h
      · decide
      · rw [htail x h]; decide
  have hn : ∀ x ∈ seg, x ≠ NUL := fun x hx => (hchars x hx).1
  have hpl : ∀ u ∈ itemWords (Item.word w0 :: is), PlainTok u :=
    fun u hu => (itemWords_ok _ (items_ok w0 is hw0 his) u hu).plain
  have hstrlen : strlen m.buf c = seg.length := by rw [strlen, hlay.cstr_eq hn]
  cases tail with
  | nil =>
    have hseg' : seg = body ++ ['&'] := hseg
    have hlay' : Lay m.buf c (body ++ ['&']) X := hseg' ▸ hlay
    have hlenseg : seg.length = (body ++ ['&']).length := by rw [hseg']
    have hpeek : peek m.buf (c + strlen m.buf c - 1) = '&' := by
      rw [hstrlen, hlenseg]; exact hlay'.peek_last
    have hlay0 : Lay (m.buf.set (c + strlen m.buf c - 1) NUL) c body (NUL :: X) := by
      rw [hstrlen, hlenseg]; exact hlay'.set_last
    obtain ⟨f, ht, hfin, hrem⟩ := tokenize_items
      { m with buf := m.buf.set (c + strlen m.buf c - 1) NUL } c false body (NUL :: X)
      (.word w0 :: is) hlay0 (fun x hx => (hcb x hx).1)
      (by simpa [itemToks, Item.toks] using hbody) hpl hcount
    have hfin' : Final f (w0 :: itemWords is) (itemIn is none) (itemOut is none) false := by
      simpa [itemWords, itemIn, itemOut] using hfin
    have hstep := cmdLoop_step (fuel + 1) c m true f w0 (itemWords is) _ _ false none f.mem
      (by rw [hstrlen, hseg']; simp) (by rw [hpeek]; rfl) (by simpa using ht) hfin'
      (next_none _ _ hrem)
    rw [hstep, if_neg hasc, cmdLoop_null]
    exact ⟨by simp [Result.after], rfl⟩
  | cons t tail' =>
    have ht0 : t = ' ' := htail t (List.mem_cons_self _ _)
    subst ht0
    have htail' : ∀ x ∈ tail', x = ' ' := fun x hx => htail x (List.mem_cons_of_mem _ hx)
    obtain ⟨body', hb'⟩ := getLast_concat (hstand (by simp))
    have hsplit : spaceSplit seg = itemToks (Item.word w0 :: is) ++ [['&']] := by
      have e : seg = body' ++ ' ' :: (['&'] ++ ' ' :: tail') := by rw [hseg, hb']; simp
      have e2 : body = body' ++ ' ' :: [] := by rw [hb']
      rw [e2, spaceSplit_append_space, spaceSplit_nil, List.append_nil] at hbody
      rw [e, spaceSplit_append_space, hbody, spaceSplit_word _ _ (by simp) (by decide),
        spaceSplit_of_spaces _ htail']
      simp [itemToks, Item.toks]
    obtain ⟨f, r', r1, sp, ht, hfin, hrem, hr', hsuf, hsp, hshape⟩ := tokenize_items_amp m c true
      seg X (.word w0 :: is) hlay hn hsplit hpl hcount
    have hfin' : Final f (w0 :: itemWords is) (itemIn is none) (itemOut is none) false := by
      simpa [itemWords, itemIn, itemOut] using hfin
    have hamp_body : '&' ∉ body := fun h => (hcb _ h).2.2 rfl
    have hamp_r' : '&' ∉ r' := fun h => by have := hr' _ h; exact absurd this (by decide)
    have hamp_tail : '&' ∉ ' ' :: tail' := fun h => by
      have := htail _ h; exact absurd this (by decide)
    obtain ⟨pre, hpre⟩ := hsuf
    have hr'eq : r' = tail' := by
      rcases hshape with ⟨h1, h2⟩ | h1
      · exfalso
        have e : (pre ++ sp) ++ '&' :: [] = body ++ '&' :: (' ' :: tail') := by
          rw [← hseg, ← hpre, h1]; simp
        have := (last_split '&' _ _ _ _ e (by simp) hamp_tail).2
        cases this
      · have e : (pre ++ sp) ++ '&' :: (' ' :: r') = body ++ '&' :: (' ' :: tail') := by
          rw [← hseg, ← hpre, h1]; simp
        have := (last_split '&' _ _ _ _ e (by
          intro h
          rcases List.mem_cons.1 h with h | h
          · exact absurd h (by decide)
          · exact hamp_r' h) hamp_tail).2
        simpa using this
    subst hr'eq
    obtain ⟨l, hl⟩ : ∃ l, seg = l ++ [' '] := by
      rcases List.eq_nil_or_concat (' ' :: r') with h | ⟨l3, c3, h⟩
      · cases h
      · have h3 : ' ' :: r' = l3 ++ [c3] := by simpa using h
        have hc3 : c3 = ' ' := htail c3 (by rw [h3]; simp)
        refine ⟨body ++ '&' :: l3, ?_⟩
        rw [hseg, h3, hc3]; simp
    by_cases h0 : r' = []
    · subst h0
      rw [cmd_turn (fuel + 1) c m seg _ X ' ' f w0 (itemWords is) _ _ false none f.mem hlay hn hl
        (by decide) ht hfin' (next_none _ _ hrem), if_neg hasc, cmdLoop_null]
      exact ⟨by simp [Result.after], rfl⟩
    · have hnext := next_command f.mem r' X hrem h0
        (fun x hx => by rw [hr' x hx]; decide)
      have hblank := cmdLoop_blank fuel f.mem.save ⟨f.mem.buf, f.mem.save + r'.length⟩ r' X
        hrem.lay h0 hr'
      rw [cmd_turn (fuel + 1) c m seg _ X ' ' f w0 (itemWords is) _ _ false _ _ hlay hn hl
        (by decide) ht hfin' hnext, if_neg hasc]
      have hlen2 : ¬ (' ' :: r').length ≤ 1 := by
        have : 1 ≤ r'.length := List.length_pos.2 h0
        simp only [List.length_cons]; omega
      rw [if_neg hlen2]
      exact ⟨by simp [Result.after, hblank.1], by simpa [Result.after] using hblank.2⟩

theorem items_count (w0 : List Char) (is : List Item) (seg : List Char)
    (hsplit : spaceSplit seg = w0 :: itemToks is)
    (hbound : seg.length ≤ MAX_LINE ∨ (w0 :: itemWords is).length ≤ MAX_LINE / 2) :
    (w0 :: itemWords is).length < ARGS_LEN := by
  rcases hbound with h | h
  · have h1 := spaceSplit_length seg
    have h2 := itemWords_length is
    rw [hsplit] at h1
    simp only [List.length_cons, ARGS_LEN, MAX_LINE] at h h1 ⊢
    omega
  · simp only [List.length_cons, ARGS_LEN, MAX_LINE] at h ⊢
    omega

/-- A unit `w0 items...`, with any spacing and anywhere in the buffer: what the tokenizer hands
over, and what `processLine` launches when the unit is the first segment of the line. -/
theorem unit_items (w0 : List Char) (is : List Item) (unit : List Char) (hw0 : IsWord w0)
    (his : ∀ it ∈ is, it.ok) (hsplit : spaceSplit unit = w0 :: itemToks is)
    (hbound : unit.length ≤ MAX_LINE ∨ (w0 :: itemWords is).length ≤ MAX_LINE / 2) :
    (∀ (pre post : List Char) (save : Nat) (sw : Bool),
        (tokenize ⟨pre ++ unit ++ NUL :: post, save⟩ pre.length sw).handed
          = some (w0 :: itemWords is, streamOf (itemIn is none), streamOf (itemOut is none),
              sw)) ∧
      (∀ line : List Char, firstSegment line = unit → w0 ≠ "ascii".toList →
        (processLine line).trace
            = [.fork (.exec (w0 :: itemWords is) (streamOf (itemIn is none))
                (streamOf (itemOut is none))), .waitpid] ∧
          (processLine line).outcome = .returned) := by
  have hcount := items_count w0 is unit hsplit hbound
  have hchars := items_chars w0 is unit hw0 his hsplit
  have hn : ∀ x ∈ unit, x ≠ NUL := fun x hx => (hchars x hx).1
  refine ⟨?_, ?_⟩
  · intro pre post save sw
    obtain ⟨f, ht, hfin, -⟩ := tokenize_items ⟨pre ++ unit ++ NUL :: post, save⟩ pre.length sw
      unit post (.word w0 :: is) ⟨pre, by simp, rfl⟩ hn
      (by simpa [itemToks, Item.toks] using hsplit)
      (fun u hu => (itemWords_ok _ (items_ok w0 is hw0 his) u hu).plain) hcount
    have hfin' : Final f (w0 :: itemWords is) (itemIn is none) (itemOut is none) sw := by
      simpa [itemWords, itemIn, itemOut] using hfin
    rw [ht]
    simp only [LoopExit.handed, hfin'.argv, hfin'.rin, hfin'.rout, hfin'.wait]
  · intro line hline hasc
    have hne : unit ≠ [] := by
      intro e; rw [e, spaceSplit_nil] at hsplit; cases hsplit
    obtain ⟨c, m, X, hp, hlay⟩ := first_segment line unit hline hne hn
    have := items_unit line.length c m unit X w0 is hw0 his hasc hsplit hcount hlay
    rw [hp]
    exact ⟨by rw [this.1]; rfl, this.2⟩

/-! ## Bounds -/

theorem peek_set_ne (buf : List Char) (e p : Nat) (h : e ≠ p) :
    peek (buf.set e NUL) p = peek buf p := by
  simp [peek, List.getD, List.getElem?_set_ne h]

theorem Good.set_nul {L : Nat} {buf : List Char} (h : Good L buf) (e : Nat) :
    Good L (buf.set e NUL) := by
  refine ⟨by simpa using h.1, ?_⟩
  by_cases he : e = L
  · subst he; exact peek_set_self _ _
  · rw [peek_set_ne _ _ _ he]; exact h.2

theorem Good.lt {L : Nat} {buf : List Char} (h : Good L buf) {t : Nat}
    (ht : peek buf t ≠ NUL) : t < L := by
  have h1 := peek_lt_of_ne _ _ ht
  rw [h.1] at h1
  rcases Nat.lt_or_ge t L with h2 | h2
  · exact h2
  · have : t = L := by omega
    subst this
    exact absurd h.2 ht

theorem Good.after_strtok {L : Nat} {m m' : Mem} {d : List Char} {t : Option Nat}
    (h : Good L m.buf) (hs : strtok none d m = (t, m')) : Good L m'.buf := by
  rcases strtok_cases d m with ⟨_, e⟩ | ⟨_, _, e⟩ | ⟨_, _, e⟩ | ⟨_, _, e⟩ <;>
    (rw [e] at hs; cases hs)
  · exact h
  · exact h
  · exact h
  · exact h.set_nul _

/-- The token `strtok` returns starts inside the line and is not empty. -/
theorem strtok_tok_good {L : Nat} {m m' : Mem} {d : List Char} {t : Nat}
    (h : Good L m.buf) (hs : strtok none d m = (some t, m')) :
    t < L ∧ peek m'.buf t ≠ NUL := by
  have hb := strtok_tok_bounds d m m' t hs
  refine ⟨h.lt hb.2.2.1, ?_⟩
  rcases strtok_cases d m with ⟨_, e⟩ | ⟨_, _, e⟩ | ⟨h1, _, e⟩ | ⟨h1, _, e⟩ <;>
    (rw [e] at hs; cases hs)
  · exact h1
  · have hpos := strcspn_pos _ _ d h1 (strspn_stop _ _ _ h1)
    show peek (m.buf.set _ NUL) _ ≠ NUL
    rw [peek_set_ne _ _ _ (by omega)]
    exact h1

/-- After `args[i] = strtok(NULL, " ")` the head invariant holds again. -/
theorem head_fetch (L p : Nat) (f : Frame) (m1 : Mem) (t : Option Nat) (k : Nat)
    (hlen : f.args.length = ARGS_LEN) (hi : f.i < ARGS_LEN) (hgood : Good L f.mem.buf)
    (hp : p ≤ f.mem.save) (hq : f.i ≠ 0 → p < f.mem.save)
    (hidx : 2 * f.i ≤ f.mem.save ∨ peek f.mem.buf f.mem.save = NUL)
    (hs : strtok none [' '] f.mem = (t, m1))
    (hfuel : (L + 1 - f.mem.save) + 1 ≤ k) :
    HeadOK L p { f with mem := m1, args := f.args.set f.i t } ∧
      FuelOK L m1.save t k := by
  have hmono := strtok_mono _ _ _ _ hs
  have hget : (f.args.set f.i t).getD f.i none = t :=
    getD_set_self _ _ _ (by rw [hlen]; exact hi)
  refine ⟨⟨by simp [hlen], hgood.after_strtok hs, by dsimp only; omega,
    fun h => by have := hq h; dsimp only; omega, hi, ?_⟩, ?_⟩
  · show match (f.args.set f.i t).getD f.i none with
      | none => True
      | some t' => p ≤ t' ∧ 2 * f.i ≤ t' ∧ t' < L ∧ t' < m1.save ∧
          (t' + 2 ≤ m1.save ∨ peek m1.buf m1.save = NUL)
    rw [hget]
    cases t with
    | none => trivial
    | some t' =>
      have hb := strtok_tok_bounds _ _ _ _ hs
      have hg := strtok_tok_good hgood hs
      have h2 : 2 * f.i ≤ f.mem.save := by
        rcases hidx with h | h
        · exact h
        · rw [strtok_at_nul _ _ h] at hs; cases hs
      exact ⟨by omega, by omega, hg.1, hb.2.1, hb.2.2.2⟩
  · cases t with
    | none => show 1 ≤ k; omega
    | some t' =>
      have hb := strtok_tok_bounds _ _ _ _ hs
      have hg := strtok_tok_good hgood hs
      show (L + 1 - m1.save) + 2 ≤ k
      omega

theorem fetchLoop_eq (fuel : Nat) (f : Frame) (t : Option Nat) (m1 : Mem)
    (hs : strtok none [' '] f.mem = (t, m1)) :
    fetchLoop fuel f = tokLoop fuel { f with mem := m1, args := f.args.set f.i t } := by
  simp only [fetchLoop, hs]

/-- For a line of at most `MAX_LINE` characters the tokenizer loop never stores past `args`. -/
theorem tokLoop_safe (L p : Nat) (hL : L ≤ MAX_LINE) : ∀ (fuel : Nat) (f : Frame),
    HeadOK L p f → FuelOK L f.mem.save (f.args.getD f.i none) fuel →
    ExitOK L p (tokLoop fuel f) := by
  intro fuel
  induction fuel with
  | zero =>
    intro f _ hfuel
    cases h : f.args.getD f.i none <;> rw [h] at hfuel <;> simp only [FuelOK] at hfuel <;> omega
  | succ k ih =>
    intro f hhead hfuel
    obtain ⟨hlen, hgood, hp, hq, hi, hcur⟩ := hhead
    cases hget : f.args.getD f.i none with
    | none =>
      rw [tokLoop_null k f hget]
      exact ⟨hgood, hp, hq, hget, hi⟩
    | some a =>
      rw [hget] at hcur hfuel
      simp only [FuelOK] at hfuel
      simp only at hcur
      obtain ⟨hpa, h2i, haL, hasave, hnext⟩ := hcur
      have hi1 : f.i + 1 < ARGS_LEN := by simp only [ARGS_LEN, MAX_LINE] at hL ⊢; omega
      by_cases h1 : cstr f.mem.buf a = ['>']
      · cases hs : strtok none [' '] f.mem with
        | mk t1 m1 =>
          have hmono := strtok_mono _ _ _ _ hs
          cases t1 with
          | none =>
            rw [tokLoop_gt_none k f a m1 hget h1 hs]
            apply ih
            · refine ⟨by simp [hlen], hgood.after_strtok hs, by dsimp only; omega,
                fun h => by have := hq h; dsimp only; omega, hi, ?_⟩
              show match (f.args.set f.i none).getD f.i none with
                | none => True
                | some t' => _
              rw [getD_set_self _ _ _ (by rw [hlen]; exact hi)]
              trivial
            · show FuelOK L m1.save ((f.args.set f.i none).getD f.i none) k
              rw [getD_set_self _ _ _ (by rw [hlen]; exact hi)]
              show 1 ≤ k
              omega
          | some p1 =>
            have hb := strtok_tok_bounds _ _ _ _ hs
            have hg := strtok_tok_good hgood hs
            rw [tokLoop_gt_some k f a p1 m1 hget h1 hs]
            cases hs2 : strtok none [' '] m1 with
            | mk t2 m2 =>
              rw [fetchLoop_eq k _ t2 m2 hs2]
              obtain ⟨hh, hf⟩ := head_fetch L p { f with mem := m1, output_file := some p1 }
                m2 t2 k hlen hi (hgood.after_strtok hs) (by dsimp only; omega)
                (fun h => by have := hq h; dsimp only; omega) (Or.inl (by dsimp only; omega))
                hs2 (by dsimp only; omega)
              apply ih _ hh
              have hget2 : (f.args.set f.i t2).getD f.i none = t2 :=
                getD_set_self _ _ _ (by rw [hlen]; exact hi)
              show FuelOK L m2.save ((f.args.set f.i t2).getD f.i none) k
              rw [hget2]; exact hf
      · by_cases h2 : cstr f.mem.buf a = ['<']
        · cases hs : strtok none [' '] f.mem with
          | mk t1 m1 =>
            have hmono := strtok_mono _ _ _ _ hs
            cases t1 with
            | none =>
              rw [tokLoop_lt_none k f a m1 hget h2 hs]
              apply ih
              · refine ⟨by simp [hlen], hgood.after_strtok hs, by dsimp only; omega,
                  fun h => by have := hq h; dsimp only; omega, hi, ?_⟩
                show match (f.args.set f.i none).getD f.i none with
                  | none => True
                  | some t' => _
                rw [getD_set_self _ _ _ (by rw [hlen]; exact hi)]
                trivial
              · show FuelOK L m1.save ((f.args.set f.i none).getD f.i none) k
                rw [getD_set_self _ _ _ (by rw [hlen]; exact hi)]
                show 1 ≤ k
                omega
            | some p1 =>
              have hb := strtok_tok_bounds _ _ _ _ hs
              have hg := strtok_tok_good hgood hs
              rw [tokLoop_lt_some k f a p1 m1 hget h2 hs]
              cases hs2 : strtok none [' '] m1 with
              | mk t2 m2 =>
                rw [fetchLoop_eq k _ t2 m2 hs2]
                obtain ⟨hh, hf⟩ := head_fetch L p { f with mem := m1, input_file := some p1 }
                  m2 t2 k hlen hi (hgood.after_strtok hs) (by dsimp only; omega)
                  (fun h => by have := hq h; dsimp only; omega) (Or.inl (by dsimp only; omega))
                  hs2 (by dsimp only; omega)
                apply ih _ hh
                have hget2 : (f.args.set f.i t2).getD f.i none = t2 :=
                  getD_set_self _ _ _ (by rw [hlen]; exact hi)
                show FuelOK L m2.save ((f.args.set f.i t2).getD f.i none) k
                rw [hget2]; exact hf
        · by_cases h3 : cstr f.mem.buf a = ['&']
          · rw [tokLoop_amp k f a hget h3]
            exact ⟨hgood, hp, hq, getD_set_self _ _ _ (by rw [hlen]; exact hi), hi⟩
          · by_cases h4 : cstr f.mem.buf a = ['|']
            · rw [tokLoop_pipe k f a hget h4]
              exact ⟨hgood, hi⟩
            · rw [tokLoop_plain k f a hget h1 h2 h3 h4 (by omega)]
              cases hs : strtok none [' '] f.mem with
              | mk t1 m1 =>
                rw [fetchLoop_eq k { f with i := f.i + 1 } t1 m1 hs]
                obtain ⟨hh, hf⟩ := head_fetch L p { f with i := f.i + 1 } m1 t1 k hlen hi1
                  hgood hp (fun _ => by dsimp only; omega)
                  (by
                    rcases hnext with h | h
                    · left; dsimp only; omega
                    · right; exact h)
                  hs (by dsimp only; omega)
                apply ih _ hh
                have hget2 : (f.args.set (f.i + 1) t1).getD (f.i + 1) none = t1 :=
                  getD_set_self _ _ _ (by rw [hlen]; exact hi1)
                show FuelOK L m1.save ((f.args.set (f.i + 1) t1).getD (f.i + 1) none) k
                rw [hget2]; exact hf

theorem stage2Loop_safe (L : Nat) (hL : L ≤ MAX_LINE) : ∀ (fuel : Nat) (m : Mem)
    (cmd2 : Option Nat) (args2 : List (Option Nat)) (j : Nat), Good L m.buf →
    Head2 L m j cmd2 → FuelOK L m.save cmd2 fuel →
    ∃ argv, stage2Loop fuel m cmd2 args2 j = some (.exec argv .pipeRead .inherited) := by
  intro fuel
  induction fuel with
  | zero =>
    intro m cmd2 args2 j _ _ hfuel
    cases cmd2 <;> simp only [FuelOK] at hfuel <;> omega
  | succ k ih =>
    intro m cmd2 args2 j hgood hhead hfuel
    cases cmd2 with
    | none =>
      simp only [Head2] at hhead
      exact ⟨_, stage2Loop_null k m args2 j (by omega)⟩
    | some t =>
      simp only [Head2] at hhead
      simp only [FuelOK] at hfuel
      obtain ⟨h2j, htL, hnext⟩ := hhead
      have hj : j + 1 < ARGS_LEN := by simp only [ARGS_LEN, MAX_LINE] at hL ⊢; omega
      rw [stage2Loop_some k m t args2 j (by omega)]
      cases hs : strtok none [' '] m with
      | mk t1 m1 =>
        have hmono := strtok_mono _ _ _ _ hs
        apply ih m1 t1 _ (j + 1) (hgood.after_strtok hs)
        · cases t1 with
          | none => exact hj
          | some t' =>
            have hb := strtok_tok_bounds _ _ _ _ hs
            have hg := strtok_tok_good hgood hs
            have h2 : t + 2 ≤ m.save := by
              rcases hnext with h | h
              · exact h
              · rw [strtok_at_nul _ _ h] at hs; cases hs
            exact ⟨by omega, hg.1, hb.2.2.2⟩
        · cases t1 with
          | none => show 1 ≤ k; omega
          | some t' =>
            have hb := strtok_tok_bounds _ _ _ _ hs
            have hg := strtok_tok_good hgood hs
            show (L + 1 - m1.save) + 2 ≤ k
            omega

theorem stage2_safe (L : Nat) (hL : L ≤ MAX_LINE) (m : Mem) (hgood : Good L m.buf) :
    ∃ argv, stage2 m = some (.exec argv .pipeRead .inherited) := by
  simp only [stage2]
  cases hs : strtok none [' '] m with
  | mk t1 m1 =>
    apply stage2Loop_safe L hL _ m1 t1 _ 0 (hgood.after_strtok hs)
    · cases t1 with
      | none => simp [Head2, ARGS_LEN]
      | some t' =>
        have hb := strtok_tok_bounds _ _ _ _ hs
        have hg := strtok_tok_good hgood hs
        exact ⟨by omega, hg.1, hb.2.2.2⟩
    · cases t1 with
      | none => show 1 ≤ m.buf.length + 2; omega
      | some t' =>
        have hb := strtok_tok_bounds _ _ _ _ hs
        show (L + 1 - m1.save) + 2 ≤ m.buf.length + 2
        rw [hgood.1]; omega

theorem tokenize_safe (L p : Nat) (hL : L ≤ MAX_LINE) (m : Mem) (sw : Bool)
    (hgood : Good L m.buf) : ExitOK L p (tokenize m p sw) := by
  rw [tokenize_frame0]
  cases hs : strtok none [' '] (frame0 m p sw).mem with
  | mk t1 m1 =>
    rw [fetchLoop_eq _ (frame0 m p sw) t1 m1 hs]
    obtain ⟨hh, hf⟩ := head_fetch L p (frame0 m p sw) m1 t1 (m.buf.length + 2)
      (by simp [frame0]) (by simp [frame0, ARGS_LEN]) hgood (Nat.le_refl _)
      (fun h => absurd rfl h) (Or.inl (by simp [frame0])) hs
      (by show (L + 1 - p) + 1 ≤ m.buf.length + 2; rw [hgood.1]; omega)
    apply tokLoop_safe L p hL _ _ hh
    have hget : ((frame0 m p sw).args.set (frame0 m p sw).i t1).getD (frame0 m p sw).i none
        = t1 := getD_set_self _ _ _ (by simp [frame0, ARGS_LEN])
    show FuelOK L m1.save (((frame0 m p sw).args.set (frame0 m p sw).i t1).getD
      (frame0 m p sw).i none) _
    rw [hget]; exact hf

theorem strlen_pos (buf : List Char) (p : Nat) (h : peek buf p ≠ NUL) : strlen buf p ≠ 0 := by
  have hlt := peek_lt_of_ne _ _ h
  have hdrop : buf.drop p = peek buf p :: buf.drop (p + 1) := by
    rw [List.drop_eq_getElem_cons hlt]
    simp [peek, List.getD, List.getElem?_eq_getElem hlt]
  have hb : (peek buf p != NUL) = true := by simpa using h
  simp [strlen, cstr, hdrop, List.takeWhile_cons, hb]

theorem Safe.after_events {r : Result} (h : Safe r) (evs : List Event)
    (hevs : Event.fork .fault ∉ evs) : Safe (r.after evs) := by
  refine ⟨h.1, ?_⟩
  simp only [Result.after, List.mem_append, not_or]
  exact ⟨hevs, h.2⟩

theorem cmdLoop_safe (L : Nat) (hL : L ≤ MAX_LINE) : ∀ (fuel : Nat) (c : Option Nat) (m : Mem),
    Good L m.buf → CmdOK L m fuel c → Safe (cmdLoop fuel c m) := by
  intro fuel
  induction fuel with
  | zero =>
    intro c m _ hc
    cases c <;> simp only [CmdOK] at hc <;> omega
  | succ k ih =>
    intro c m hgood hc
    cases c with
    | none => rw [cmdLoop_null]; exact ⟨Or.inl rfl, by simp⟩
    | some p =>
      simp only [CmdOK] at hc
      obtain ⟨hpL, hpk, hfuel⟩ := hc
      have hn := strlen_pos _ _ hpk
      simp only [cmdLoop, if_neg hn]
      have hgood0 : Good L (if decide (peek m.buf (p + strlen m.buf p - 1) = '&') = true then
          { buf := m.buf.set (p + strlen m.buf p - 1) NUL, save := m.save } else m).buf := by
        split
        · exact hgood.set_nul _
        · exact hgood
      generalize (if decide (peek m.buf (p + strlen m.buf p - 1) = '&') = true then
          ({ buf := m.buf.set (p + strlen m.buf p - 1) NUL, save := m.save } : Mem)
          else m) = m0 at hgood0 ⊢
      generalize (!decide (peek m.buf (p + strlen m.buf p - 1) = '&')) = sw
      have hexit := tokenize_safe L p hL m0 sw hgood0
      generalize tokenize m0 p sw = T at hexit ⊢
      cases T with
      | fuel => exact absurd hexit (by simp [ExitOK])
      | overflow => exact absurd hexit (by simp [ExitOK])
      | pipeline f =>
        simp only [ExitOK] at hexit
        obtain ⟨argv, h2⟩ := stage2_safe L hL f.mem hexit.1
        dsimp only
        rw [h2]
        exact ⟨Or.inl rfl, by simp⟩
      | fallthrough f =>
        obtain ⟨hg, hpsave, hq, hnone, -⟩ := hexit
        dsimp only
        cases h0 : f.args.getD 0 none with
        | none => exact ⟨Or.inr rfl, by simp⟩
        | some a0 =>
          have hi0 : f.i ≠ 0 := by
            intro e; rw [e] at hnone; rw [hnone] at h0; cases h0
          have hps := hq hi0
          cases hs : strtok none [';'] f.mem with
          | mk c' m2 =>
            have hsafe : Safe (cmdLoop k c' m2) := by
              apply ih c' m2 (hg.after_strtok hs)
              cases c' with
              | none => show 1 ≤ k; omega
              | some p' =>
                have hb := strtok_tok_bounds _ _ _ _ hs
                have hg2 := strtok_tok_good hg hs
                exact ⟨hg2.1, hg2.2, by omega⟩
            simp only
            split
            · exact hsafe.after_events _ (by simp)
            · apply hsafe.after_events
              split <;> simp

theorem good_line (line : List Char) : Good line.length (line ++ [NUL]) := by
  refine ⟨by simp, ?_⟩
  rw [peek_append_zero]; rfl

theorem processLine_safe (line : List Char) (hlen : line.length ≤ MAX_LINE) :
    Safe (processLine line) := by
  have hgood := good_line line
  simp only [processLine, processBuf, strtok_some_eq]
  cases hs : strtok none [';'] ⟨line ++ [NUL], 0⟩ with
  | mk c m =>
    apply cmdLoop_safe line.length hlen _ c m (Good.after_strtok (m := ⟨line ++ [NUL], 0⟩) hgood hs)
    cases c with
    | none => show 1 ≤ (line ++ [NUL]).length + 1; omega
    | some p =>
      have hg := strtok_tok_good (m := ⟨line ++ [NUL], 0⟩) hgood hs
      exact ⟨hg.1, hg.2, by simp; omega⟩

/-! ## The claims -/

/-- C1 (every `;`-separated unit of plain words is launched, in order, none skipped)
fails on the code. On `ls ; whoami` the inner `strtok(command, " ")` leaves the hidden pointer of
`strtok` on the NUL that ends the first unit, `strtok(NULL, ";")` then returns NULL, and
`processLine` launches `ls`, waits, and returns: `whoami` is never launched. -/
theorem semicolon_second_unit_skipped :
    processLine "ls ; whoami".toList =
      ⟨[.fork (.exec ["ls".toList] .inherited .inherited), .waitpid],
       ['l', 's', NUL, NUL, ' ', 'w', 'h', 'o', 'a', 'm', 'i', NUL], .returned⟩ := by
  decide

/-- C2 (two `!!` in a row hand the same string to `processLine`) fails on the code.
After the lines `ls -al`, `!!`, `!!` the three calls of `processLine` receive `ls -al`, `ls -al`
and `ls`: the first recall tokenizes `hist` in place, so the second one reads the cut string. -/
theorem history_recall_changes :
    processLineArgs (interactiveShell ["ls -al".toList, "!!".toList, "!!".toList] hist0)
      = ["ls -al".toList, "ls -al".toList, "ls".toList] := by
  decide

/-- C3 (after the two waits of a pipeline unit the controller advances to the next unit)
fails on the code. On `ls | wc ; whoami` both stages are forked and waited for, and then
`processLine` returns: `whoami` is never launched. -/
theorem pipeline_returns_early :
    (processLine "ls | wc ; whoami".toList).trace =
        [.pipe, .fork (.exec ["ls".toList] .inherited .pipeWrite),
          .fork (.exec ["wc".toList] .pipeRead .inherited), .wait, .wait] ∧
      (processLine "ls | wc ; whoami".toList).outcome = .returned := by
  decide

/-- C4 as stated fails: the line `ascii` has one word and no operator and launches no
process, and on `ls<TAB>-al` the argument vector is the one token `ls<TAB>-al`, not the
whitespace split `[ls, -al]`. -/
theorem plain_line_counterexample :
    ((processLine "ascii".toList).trace = [.printAsciiArt] ∧
      (processLine "ascii".toList).trace
        ≠ [.fork (.exec (whitespaceSplit "ascii".toList) .inherited .inherited), .waitpid]) ∧
    ((processLine "ls\t-al".toList).trace
        = [.fork (.exec ["ls\t-al".toList] .inherited .inherited), .waitpid] ∧
      whitespaceSplit "ls\t-al".toList = ["ls".toList, "-al".toList] ∧
      (processLine "ls\t-al".toList).trace
        ≠ [.fork (.exec (whitespaceSplit "ls\t-al".toList) .inherited .inherited), .waitpid]) := by
  decide

/-- C4 as amended: for every line within the 80-character input bound that holds no NUL and no
operator character, has at least one word, and whose first word is not the built-in `ascii`,
`processLine` launches exactly one process, whose argument vector is the line split at spaces
(a tab is an ordinary character), with both redirections unset, waits for it, and returns. -/
theorem plain_line (line : List Char) (hchars : ∀ c ∈ line, c ≠ NUL ∧ c ∉ OPS)
    (hword : spaceSplit line ≠ [])
    (hasc : (spaceSplit line).head? ≠ some "ascii".toList)
    (hlen : line.length ≤ MAX_LINE) :
    (processLine line).trace
        = [.fork (.exec (spaceSplit line) .inherited .inherited), .waitpid] ∧
      (processLine line).outcome = .returned := by
  have hne := ne_nil_of_spaceSplit hword
  have hn : ∀ x ∈ line, x ≠ NUL := fun x hx => (hchars x hx).1
  have hcount : (spaceSplit line).length < ARGS_LEN := by
    have := spaceSplit_length line
    simp only [ARGS_LEN, MAX_LINE] at hlen ⊢
    omega
  obtain ⟨f, ht, hfin, hrem⟩ := tokenize_plain ⟨line ++ [NUL], line.length⟩ 0 true line []
    ⟨[], rfl, rfl⟩ hn (plainTok_of_chars line (fun c hc => (hchars c hc).2)) hcount
  obtain ⟨u0, us, hus⟩ := List.exists_cons_of_ne_nil hword
  have hu0 : u0 ≠ "ascii".toList := by
    intro e; apply hasc; rw [hus, e]; rfl
  rw [single_line line f u0 us none none true [] hne (fun c hc => ⟨(hchars c hc).1,
    fun e => (hchars c hc).2 (by rw [e]; simp [OPS]),
    fun e => (hchars c hc).2 (by rw [e]; simp [OPS])⟩) ht (hus ▸ hfin) hrem, if_neg hu0, hus]
  exact ⟨rfl, rfl⟩

/-- A witness for C4 as amended: `ls -al` meets the hypotheses, and `[ls, -al]` is launched
and waited for. -/
theorem plain_line_witness :
    (∀ c ∈ "ls -al".toList, c ≠ NUL ∧ c ∉ OPS) ∧ "ls -al".toList.length ≤ MAX_LINE ∧
      (processLine "ls -al".toList).trace
        = [.fork (.exec (spaceSplit "ls -al".toList) .inherited .inherited), .waitpid] ∧
      (processLine "ls -al".toList).outcome = .returned :=
  ⟨by decide, by decide,
    plain_line "ls -al".toList (by decide) (by decide) (by decide) (by decide)⟩

/-- C5 as stated fails: a unit of 41 plain words followed by `> p < q` is of the
claimed form (89 characters), and on it the store `args[i] = strtok(NULL, " ")` of line 193 goes
past `args[40]`; the tokenizer hands nothing over and the run of `processLine` ends out of
bounds. -/
theorem redirection_pairs_counterexample :
    (IsWord "a".toList ∧ IsWord "p".toList ∧ IsWord "q".toList) ∧
      spaceSplit
        "a a a a a a a a a a a a a a a a a a a a a a a a a a a a a a a a a a a a a a a a a > p < q".toList
        = "a".toList :: (List.replicate 40 "a".toList ++ [['>'], "p".toList] ++ []
            ++ [['<'], "q".toList] ++ []) ∧
      tokenize
        ⟨"a a a a a a a a a a a a a a a a a a a a a a a a a a a a a a a a a a a a a a a a a > p < q".toList
          ++ [NUL], 0⟩ 0 true = .overflow ∧
      (tokenize
        ⟨"a a a a a a a a a a a a a a a a a a a a a a a a a a a a a a a a a a a a a a a a a > p < q".toList
          ++ [NUL], 0⟩ 0 true).handed
        ≠ some ("a".toList :: (List.replicate 40 "a".toList ++ [] ++ []), .file "q".toList,
            .file "p".toList, true) ∧
      (processLine
        "a a a a a a a a a a a a a a a a a a a a a a a a a a a a a a a a a a a a a a a a a > p < q".toList).outcome
        = .outOfBounds := by
  decide

/-- C5 as amended: for every command unit with at most 40 plain words (`MAX_LINE / 2`), which
holds in particular within the 80-character input bound, whose tokens, separated by one or more
spaces, are a program name, further plain words, and exactly one `> P` and one `< Q` pair in
either order and anywhere after the program name: wherever the unit lies in the buffer, the
tokenizer hands over output path `P`, input path `Q`, the wait flag as it was, and as argument
vector exactly the plain words in their order, neither `>` nor `<` among them; and when the unit
is the first segment of a line and its program is not the built-in `ascii`, `processLine` launches
that child with both redirections, waits for it, and returns. -/
theorem redirection_pairs (w0 P Q : List Char) (xs ys zs : List (List Char))
    (hw0 : IsWord w0) (hP : IsWord P) (hQ : IsWord Q) (hxs : ∀ w ∈ xs, IsWord w)
    (hys : ∀ w ∈ ys, IsWord w) (hzs : ∀ w ∈ zs, IsWord w) (unit : List Char)
    (hunit : spaceSplit unit = w0 :: (xs ++ [['>'], P] ++ ys ++ [['<'], Q] ++ zs) ∨
      spaceSplit unit = w0 :: (xs ++ [['<'], Q] ++ ys ++ [['>'], P] ++ zs))
    (hbound : unit.length ≤ MAX_LINE ∨ (w0 :: (xs ++ ys ++ zs)).length ≤ MAX_LINE / 2) :
    (∀ (pre post : List Char) (save : Nat) (sw : Bool),
        (tokenize ⟨pre ++ unit ++ NUL :: post, save⟩ pre.length sw).handed
          = some (w0 :: (xs ++ ys ++ zs), .file Q, .file P, sw)) ∧
      (['>'] ∉ w0 :: (xs ++ ys ++ zs) ∧ ['<'] ∉ w0 :: (xs ++ ys ++ zs)) ∧
      (∀ line : List Char, firstSegment line = unit → w0 ≠ "ascii".toList →
        (processLine line).trace
            = [.fork (.exec (w0 :: (xs ++ ys ++ zs)) (.file Q) (.file P)), .waitpid] ∧
          (processLine line).outcome = .returned) := by
  have hmap : ∀ ws : List (List Char), (∀ w ∈ ws, IsWord w) →
      ∀ it ∈ ws.map Item.word, it.ok := by
    intro ws h it hit
    obtain ⟨w, hw, rfl⟩ := List.mem_map.1 hit
    exact h w hw
  have hwords : ∀ w ∈ w0 :: (xs ++ ys ++ zs), IsWord w := by
    intro w hw
    simp only [List.mem_cons, List.mem_append] at hw
    rcases hw with rfl | (h | h) | h
    · exact hw0
    · exact hxs w h
    · exact hys w h
    · exact hzs w h
  have hops : ['>'] ∉ w0 :: (xs ++ ys ++ zs) ∧ ['<'] ∉ w0 :: (xs ++ ys ++ zs) :=
    ⟨fun h => (hwords _ h).plain.1 rfl, fun h => (hwords _ h).plain.2.1 rfl⟩
  rcases hunit with hu | hu
  · have hok : ∀ it ∈ xs.map Item.word ++ [Item.gt P] ++ ys.map Item.word ++ [Item.lt Q]
        ++ zs.map Item.word, it.ok := by
      intro it hit
      simp only [List.mem_append, List.mem_singleton] at hit
      rcases hit with (((h | rfl) | h) | rfl) | h
      · exact hmap xs hxs it h
      · exact hP
      · exact hmap ys hys it h
      · exact hQ
      · exact hmap zs hzs it h
    have key := unit_items w0 (xs.map Item.word ++ [Item.gt P] ++ ys.map Item.word
      ++ [Item.lt Q] ++ zs.map Item.word) unit hw0 hok
    simp only [itemToks_append, itemWords_append, itemIn_append, itemOut_append, itemToks_words,
      itemWords_words, itemIn_words, itemOut_words, itemToks, itemWords, itemIn, itemOut,
      Item.toks, List.append_nil, List.nil_append, streamOf, List.append_assoc,
      List.cons_append, List.singleton_append] at key
    have key2 := key (by simpa only [List.append_assoc, List.cons_append, List.singleton_append,
        List.nil_append] using hu) (by simpa only [List.append_assoc] using hbound)
    exact ⟨by simpa only [List.append_assoc] using key2.1, hops,
      by simpa only [List.append_assoc] using key2.2⟩
  · have hok : ∀ it ∈ xs.map Item.word ++ [Item.lt Q] ++ ys.map Item.word ++ [Item.gt P]
        ++ zs.map Item.word, it.ok := by
      intro it hit
      simp only [List.mem_append, List.mem_singleton] at hit
      rcases hit with (((h | rfl) | h) | rfl) | h
      · exact hmap xs hxs it h
      · exact hQ
      · exact hmap ys hys it h
      · exact hP
      · exact hmap zs hzs it h
    have key := unit_items w0 (xs.map Item.word ++ [Item.lt Q] ++ ys.map Item.word
      ++ [Item.gt P] ++ zs.map Item.word) unit hw0 hok
    simp only [itemToks_append, itemWords_append, itemIn_append, itemOut_append, itemToks_words,
      itemWords_words, itemIn_words, itemOut_words, itemToks, itemWords, itemIn, itemOut,
      Item.toks, List.append_nil, List.nil_append, streamOf, List.append_assoc,
      List.cons_append, List.singleton_append] at key
    have key2 := key (by simpa only [List.append_assoc, List.cons_append, List.singleton_append,
        List.nil_append] using hu) (by simpa only [List.append_assoc] using hbound)
    exact ⟨by simpa only [List.append_assoc] using key2.1, hops,
      by simpa only [List.append_assoc] using key2.2⟩

/-- A witness for C5 as amended: the unit `sort  -r > out.txt -u <  in.txt -n `, with
double spaces and a space at its end, tokenized in the middle of a buffer and run as the first
segment of `;sort  -r > out.txt -u <  in.txt -n ;date`, gives the argument vector
`[sort, -r, -u, -n]`, input `in.txt` and output `out.txt`. -/
theorem redirection_pairs_witness :
    (spaceSplit "sort  -r > out.txt -u <  in.txt -n ".toList
        = "sort".toList :: (["-r".toList] ++ [['>'], "out.txt".toList] ++ ["-u".toList]
            ++ [['<'], "in.txt".toList] ++ ["-n".toList]) ∧
      firstSegment ";sort  -r > out.txt -u <  in.txt -n ;date".toList
        = "sort  -r > out.txt -u <  in.txt -n ".toList) ∧
      (tokenize ⟨"ls;".toList ++ "sort  -r > out.txt -u <  in.txt -n ".toList
          ++ NUL :: "date".toList, 7⟩ "ls;".toList.length false).handed
        = some ("sort".toList :: (["-r".toList] ++ ["-u".toList] ++ ["-n".toList]),
            .file "in.txt".toList, .file "out.txt".toList, false) ∧
      (processLine ";sort  -r > out.txt -u <  in.txt -n ;date".toList).trace
        = [.fork (.exec ("sort".toList :: (["-r".toList] ++ ["-u".toList] ++ ["-n".toList]))
            (.file "in.txt".toList) (.file "out.txt".toList)), .waitpid] ∧
      (processLine ";sort  -r > out.txt -u <  in.txt -n ;date".toList).outcome = .returned :=
  ⟨⟨by decide, by decide⟩,
    (redirection_pairs "sort".toList "out.txt".toList "in.txt".toList ["-r".toList]
      ["-u".toList] ["-n".toList] (by decide) (by decide) (by decide) (by decide) (by decide)
      (by decide) "sort  -r > out.txt -u <  in.txt -n ".toList (Or.inl (by decide))
      (Or.inl (by decide))).1 "ls;".toList "date".toList 7 false,
    (redirection_pairs "sort".toList "out.txt".toList "in.txt".toList ["-r".toList]
      ["-u".toList] ["-n".toList] (by decide) (by decide) (by decide) (by decide) (by decide)
      (by decide) "sort  -r > out.txt -u <  in.txt -n ".toList (Or.inl (by decide))
      (Or.inl (by decide))).2.2 ";sort  -r > out.txt -u <  in.txt -n ;date".toList (by decide)
      (by decide)⟩

/-- C6 as stated fails when a unit is the built-in `ascii`: on `ascii & whoami ;` and on
`ls & ascii ;` the art is printed and only one process is launched. -/
theorem background_counterexample :
    ((processLine "ascii & whoami ;".toList).trace
        = [.printAsciiArt, .fork (.exec ["whoami".toList] .inherited .inherited), .waitpid] ∧
      (processLine "ascii & whoami ;".toList).trace
        ≠ [.fork (.exec ["ascii".toList] .inherited .inherited),
           .fork (.exec ["whoami".toList] .inherited .inherited), .waitpid]) ∧
    ((processLine "ls & ascii ;".toList).trace
        = [.fork (.exec ["ls".toList] .inherited .inherited), .printAsciiArt] ∧
      (processLine "ls & ascii ;".toList).trace
        ≠ [.fork (.exec ["ls".toList] .inherited .inherited),
           .fork (.exec ["ascii".toList] .inherited .inherited), .waitpid]) := by
  decide

/-- C6 as amended: for every line `W1 & W2 ;` within the 80-character input bound, with
`W1` and `W2` non-empty sequences of plain words neither of which starts with the built-in
`ascii`, `processLine` launches `W1` without waiting, then `W2` with a wait, and returns. -/
theorem background_then_command (u v : List Char) (us vs : List (List Char))
    (hu : IsWord u) (hus : ∀ w ∈ us, IsWord w) (hv : IsWord v) (hvs : ∀ w ∈ vs, IsWord w)
    (hau : u ≠ "ascii".toList) (hav : v ≠ "ascii".toList) (line : List Char)
    (hline : line = unwords ((u :: us) ++ ['&'] :: (v :: vs)) ++ [' ', ';'])
    (hlen : line.length ≤ MAX_LINE) :
    (processLine line).trace
        = [.fork (.exec (u :: us) .inherited .inherited),
           .fork (.exec (v :: vs) .inherited .inherited), .waitpid] ∧
      (processLine line).outcome = .returned := by
  subst hline
  have hW1 : ∀ w ∈ u :: us, IsWord w := by
    intro w hw
    rcases List.mem_cons.1 hw with rfl | hw
    · exact hu
    · exact hus w hw
  have hW2 : ∀ w ∈ v :: vs, IsWord w := by
    intro w hw
    rcases List.mem_cons.1 hw with rfl | hw
    · exact hv
    · exact hvs w hw
  have htoken : ∀ t ∈ (u :: us) ++ ['&'] :: (v :: vs), IsToken t := by
    intro t ht
    rcases List.mem_append.1 ht with h | h
    · exact (hW1 t h).token
    · rcases List.mem_cons.1 h with rfl | h
      · exact amp_token
      · exact (hW2 t h).token
  have hsplit := spaceSplit_unwords _ [' '] htoken (by simp)
  have hchars : ∀ c ∈ unwords ((u :: us) ++ ['&'] :: (v :: vs)) ++ [' '],
      c ≠ NUL ∧ c ≠ ';' := by
    intro c hc
    rcases List.mem_append.1 hc with h | h
    · rcases unwords_chars _ c h with rfl | ⟨t, ht, hct⟩
      · decide
      · exact ⟨((htoken t ht).2 c hct).1, ((htoken t ht).2 c hct).2.2⟩
    · simp at h; subst h; decide
  have hcount := unwords_length _ (fun t ht => (htoken t ht).1)
  simp only [List.length_append, List.length_cons, List.length_nil, MAX_LINE] at hlen hcount
  have hseg : unwords ((u :: us) ++ ['&'] :: (v :: vs)) ++ [' ', ';']
      = (unwords ((u :: us) ++ ['&'] :: (v :: vs)) ++ [' ']) ++ [';'] := by simp
  rw [hseg]
  exact amp_line _ _ u v us vs rfl hchars hsplit (fun w hw => (hW1 w hw).plain)
    (fun w hw => (hW2 w hw).plain) hau hav
    (by simp only [ARGS_LEN, MAX_LINE, List.length_cons]; omega)
    (by simp only [ARGS_LEN, MAX_LINE, List.length_cons]; omega)

/-- A witness for C6 as amended: the test line `ls & whoami ;`. -/
theorem background_then_command_witness :
    "ls & whoami ;".toList.length ≤ MAX_LINE ∧
      (processLine "ls & whoami ;".toList).trace
        = [.fork (.exec ["ls".toList] .inherited .inherited),
           .fork (.exec ["whoami".toList] .inherited .inherited), .waitpid] ∧
      (processLine "ls & whoami ;".toList).outcome = .returned :=
  ⟨by decide,
    background_then_command "ls".toList "whoami".toList [] [] (by decide) (by decide)
      (by decide) (by decide) (by decide) (by decide) "ls & whoami ;".toList (by decide)
      (by decide)⟩

/-- C7 as stated fails at `ls | wc &`: the final `&` of `B` is stripped before the unit is
tokenized, so stage 2 runs `[wc]`, not `[wc, &]`. -/
theorem pipeline_counterexample :
    IsWord "ls".toList ∧ IsToken "wc".toList ∧ IsToken "&".toList ∧
      "ls | wc &".toList = unwords ["ls".toList, "|".toList, "wc".toList, "&".toList] ∧
      (processLine "ls | wc &".toList).trace =
        [.pipe, .fork (.exec ["ls".toList] .inherited .pipeWrite),
          .fork (.exec ["wc".toList] .pipeRead .inherited), .wait, .wait] ∧
      (processLine "ls | wc &".toList).trace ≠
        [.pipe, .fork (.exec ["ls".toList] .inherited .pipeWrite),
          .fork (.exec ["wc".toList, "&".toList] .pipeRead .inherited), .wait, .wait] := by
  decide

/-- C7 as amended: for every unit `A | B` within the 80-character input bound whose last
character is not `&`, with `A` a non-empty sequence of plain words and `B` a non-empty sequence of
tokens, `processLine` forks exactly two children, stage 1 with argument vector `A` and its output
on the pipe, stage 2 with argument vector `B` (operator tokens kept as arguments) and its input
from the pipe, waits twice, and returns. -/
theorem pipeline_two_children (a b : List Char) (as bs : List (List Char))
    (ha : IsWord a) (has : ∀ w ∈ as, IsWord w) (hb : IsToken b) (hbs : ∀ t ∈ bs, IsToken t)
    (unit : List Char) (hunit : unit = unwords ((a :: as) ++ ['|'] :: (b :: bs)))
    (hlast : unit.getLast? ≠ some '&') (hlen : unit.length ≤ MAX_LINE) :
    (processLine unit).trace
        = [.pipe, .fork (.exec (a :: as) .inherited .pipeWrite),
           .fork (.exec (b :: bs) .pipeRead .inherited), .wait, .wait] ∧
      (processLine unit).outcome = .returned := by
  have hA : ∀ w ∈ a :: as, IsWord w := by
    intro w hw
    rcases List.mem_cons.1 hw with rfl | hw
    · exact ha
    · exact has w hw
  have hB : ∀ t ∈ b :: bs, IsToken t := by
    intro t ht
    rcases List.mem_cons.1 ht with rfl | ht
    · exact hb
    · exact hbs t ht
  have htoken : ∀ t ∈ (a :: as) ++ ['|'] :: (b :: bs), IsToken t := by
    intro t ht
    rcases List.mem_append.1 ht with h | h
    · exact (hA t h).token
    · rcases List.mem_cons.1 h with rfl | h
      · decide
      · exact hB t h
  have hsplit : spaceSplit unit = (a :: as) ++ ['|'] :: (b :: bs) := by
    have := spaceSplit_unwords _ [] htoken (by simp)
    rw [hunit]; simpa using this
  have hchars : ∀ c ∈ unit, c ≠ NUL ∧ c ≠ ';' := by
    intro c hc
    rw [hunit] at hc
    rcases unwords_chars _ c hc with rfl | ⟨t, ht, hct⟩
    · decide
    · exact ⟨((htoken t ht).2 c hct).1, ((htoken t ht).2 c hct).2.2⟩
  have hcount := unwords_length _ (fun t ht => (htoken t ht).1)
  rw [← hunit] at hcount
  simp only [List.length_append, List.length_cons, MAX_LINE] at hlen hcount
  have hne : unit ≠ [] := by
    intro e; rw [e, spaceSplit_nil] at hsplit; cases hsplit
  obtain ⟨l, ch, hl⟩ : ∃ l ch, unit = l ++ [ch] := by
    rcases List.eq_nil_or_concat unit with h | ⟨l, ch, h⟩
    · exact absurd h hne
    · exact ⟨l, ch, by simpa using h⟩
  have hch : ch ≠ '&' := by
    intro e; apply hlast; rw [hl, e]; simp
  have hn : ∀ x ∈ unit, x ≠ NUL := fun x hx => (hchars x hx).1
  have hlay : Lay (unit ++ [NUL]) 0 unit [] := ⟨[], rfl, rfl⟩
  obtain ⟨f, r', ht, hargv, hrem, hs, -⟩ := tokenize_pipe ⟨unit ++ [NUL], unit.length⟩ 0 true
    unit [] (a :: as) (b :: bs) hlay hn hsplit (fun w hw => (hA w hw).plain)
    (by simp only [ARGS_LEN, MAX_LINE, List.length_cons]; omega)
  have h2 := stage2_spec f.mem r' [] hrem
    (by rw [hs]; simp only [ARGS_LEN, MAX_LINE, List.length_cons]; omega)
  rw [hs] at h2
  have hstrlen : strlen (unit ++ [NUL]) 0 = unit.length := by rw [strlen, hlay.cstr_eq hn]
  have hpeek : peek (unit ++ [NUL]) (0 + strlen (unit ++ [NUL]) 0 - 1) = ch := by
    rw [hstrlen]
    have := (hl ▸ hlay : Lay (unit ++ [NUL]) 0 (l ++ [ch]) []).peek_last
    simpa [hl] using this
  rw [first_command unit hne hchars, cmdLoop_pipe (unit.length + 1) 0 _ f _
    (by rw [hstrlen]; exact fun e => hne (List.length_eq_zero.1 e))
    (by rw [hpeek]; simpa using hch) ht h2, hargv]
  exact ⟨rfl, rfl⟩

/-- A witness for C7 as amended: on `ls -l | grep > x` stage 2 receives `[grep, >, x]`. -/
theorem pipeline_two_children_witness :
    "ls -l | grep > x".toList.getLast? ≠ some '&' ∧
      (processLine "ls -l | grep > x".toList).trace
        = [.pipe, .fork (.exec ["ls".toList, "-l".toList] .inherited .pipeWrite),
           .fork (.exec ["grep".toList, ">".toList, "x".toList] .pipeRead .inherited),
           .wait, .wait] ∧
      (processLine "ls -l | grep > x".toList).outcome = .returned :=
  ⟨by decide,
    pipeline_two_children "ls".toList "grep".toList ["-l".toList] [">".toList, "x".toList]
      (by decide) (by decide) (by decide) (by decide) "ls -l | grep > x".toList (by decide)
      (by decide) (by decide)⟩

/-- C8 as stated fails: `ls& ` ends in a space, so the `&` stays in the argument `ls&` and
the unit is waited for; `ascii &` launches nothing; `ls | wc &` is waited for twice; on `a&b &`
the argument `a&b` still contains `&`; on `ls ; whoami &` the segment ` whoami &` is never
reached; and on 41 plain words followed by `&` the store of line 193 goes past `args[40]`. -/
theorem trailing_amp_counterexample :
    ((processLine "ls& ".toList).trace
        = [.fork (.exec ["ls&".toList] .inherited .inherited), .waitpid] ∧
      Event.waitpid ∈ (processLine "ls& ".toList).trace ∧ '&' ∈ "ls&".toList) ∧
      (processLine "ascii &".toList).trace = [.printAsciiArt] ∧
      (processLine "ls | wc &".toList).trace =
        [.pipe, .fork (.exec ["ls".toList] .inherited .pipeWrite),
          .fork (.exec ["wc".toList] .pipeRead .inherited), .wait, .wait] ∧
      (processLine "a&b &".toList).trace
        = [.fork (.exec ["a&b".toList] .inherited .inherited)] ∧
      (processLine "ls ; whoami &".toList).trace
        = [.fork (.exec ["ls".toList] .inherited .inherited), .waitpid] ∧
      (processLine
        "a a a a a a a a a a a a a a a a a a a a a a a a a a a a a a a a a a a a a a a a a &".toList).outcome
        = .outOfBounds := by
  decide

/-- C8 as amended: let the first non-empty `;`-delimited segment of a line be `body`, `&`,
`tail`, where the tokens of `body`, separated by one or more spaces, are a program name other than
`ascii`, further plain words and redirection pairs, `tail` is zero or more spaces, and, when
`tail` is not empty, `body` ends in a space, so that the `&` is a standalone token; the segment is
within the 80-character input bound or has at most 40 plain words. Then `processLine` launches
the unit without waiting (the `&` is stripped as last character by lines 115-119 when `tail` is
empty, and ends the loop as a token at lines 147-152 otherwise), and no element of the argument
vector contains `&`. With at most one space after the `&`, `processLine` then returns; with two
or more, the spaces left over are read as a further, blank unit and the run ends in the NULL
access of line 196 (see C9). -/
theorem trailing_amp_background (w0 : List Char) (is : List Item) (body tail seg : List Char)
    (hw0 : IsWord w0) (his : ∀ it ∈ is, it.ok) (hasc : w0 ≠ "ascii".toList)
    (hbody : spaceSplit body = w0 :: itemToks is) (htail : ∀ x ∈ tail, x = ' ')
    (hstand : tail ≠ [] → body.getLast? = some ' ') (hseg : seg = body ++ '&' :: tail)
    (hbound : seg.length ≤ MAX_LINE ∨ (w0 :: itemWords is).length ≤ MAX_LINE / 2)
    (line : List Char) (hline : firstSegment line = seg) :
    (processLine line).trace = [.fork (.exec (w0 :: itemWords is) (streamOf (itemIn is none))
        (streamOf (itemOut is none)))] ∧
      (∀ a ∈ w0 :: itemWords is, '&' ∉ a) ∧
      (tail.length ≤ 1 → (processLine line).outcome = .returned) ∧
      (2 ≤ tail.length → (processLine line).outcome = .nullDeref) := by
  have hcount := items_count w0 is body hbody (by
    rcases hbound with h | h
    · left
      rw [hseg] at h
      simp only [List.length_append, List.length_cons] at h
      omega
    · right; exact h)
  have hcb := items_chars w0 is body hw0 his hbody
  have hn : ∀ x ∈ seg, x ≠ NUL := by
    intro x hx
    rw [hseg] at hx
    rcases List.mem_append.1 hx with h | h
    · exact (hcb x h).1
    · rcases List.mem_cons.1 h with rfl | h
      · decide
      · rw [htail x h]; decide
  obtain ⟨c, m, X, hp, hlay⟩ := first_segment line seg hline (by rw [hseg]; simp) hn
  have := amp_unit line.length c m X w0 is body tail seg hw0 his hasc hbody htail hstand hseg
    hcount hlay
  rw [hp]
  refine ⟨by rw [this.1]; rfl, ?_, ?_, ?_⟩
  · intro a ha hmem
    have hword : IsWord a := itemWords_ok _ (items_ok w0 is hw0 his) a (by simpa [itemWords] using ha)
    exact (hword.2 '&' hmem).2.2 (by simp [OPS])
  · intro h; rw [this.2, if_pos h]
  · intro h; rw [this.2, if_neg (by omega)]

/-- A witness for C8 as amended: the segment `sleep  5 > log & ` of
`;sleep  5 > log & ;date` (a standalone `&`, then a space), the line `sleep 5 > log&` (the `&` as
last character, glued to a word), and `ls &  ` (two spaces after the `&`). -/
theorem trailing_amp_background_witness :
    (firstSegment ";sleep  5 > log & ;date".toList = "sleep  5 > log & ".toList ∧
      "sleep  5 > log & ".toList = "sleep  5 > log ".toList ++ '&' :: " ".toList) ∧
      ((processLine ";sleep  5 > log & ;date".toList).trace
          = [.fork (.exec ["sleep".toList, "5".toList] .inherited (.file "log".toList))] ∧
        (processLine ";sleep  5 > log & ;date".toList).outcome = .returned) ∧
      ((processLine "sleep 5 > log&".toList).trace
          = [.fork (.exec ["sleep".toList, "5".toList] .inherited (.file "log".toList))] ∧
        (processLine "sleep 5 > log&".toList).outcome = .returned) ∧
      ((processLine "ls &  ".toList).trace = [.fork (.exec ["ls".toList] .inherited .inherited)] ∧
        (processLine "ls &  ".toList).outcome = .nullDeref) :=
  ⟨⟨by decide, by decide⟩,
    ⟨(trailing_amp_background "sleep".toList [.word "5".toList, .gt "log".toList]
        "sleep  5 > log ".toList " ".toList "sleep  5 > log & ".toList (by decide) (by decide)
        (by decide) (by decide) (by decide) (by decide) (by decide) (Or.inl (by decide))
        ";sleep  5 > log & ;date".toList (by decide)).1,
      (trailing_amp_background "sleep".toList [.word "5".toList, .gt "log".toList]
        "sleep  5 > log ".toList " ".toList "sleep  5 > log & ".toList (by decide) (by decide)
        (by decide) (by decide) (by decide) (by decide) (by decide) (Or.inl (by decide))
        ";sleep  5 > log & ;date".toList (by decide)).2.2.1 (by decide)⟩,
    ⟨(trailing_amp_background "sleep".toList [.word "5".toList, .gt "log".toList]
        "sleep 5 > log".toList [] "sleep 5 > log&".toList (by decide) (by decide)
        (by decide) (by decide) (by decide) (by decide) (by decide) (Or.inl (by decide))
        "sleep 5 > log&".toList (by decide)).1,
      (trailing_amp_background "sleep".toList [.word "5".toList, .gt "log".toList]
        "sleep 5 > log".toList [] "sleep 5 > log&".toList (by decide) (by decide)
        (by decide) (by decide) (by decide) (by decide) (by decide) (Or.inl (by decide))
        "sleep 5 > log&".toList (by decide)).2.2.1 (by decide)⟩,
    ⟨(trailing_amp_background "ls".toList [] "ls ".toList "  ".toList "ls &  ".toList
        (by decide) (by decide) (by decide) (by decide) (by decide) (by decide) (by decide)
        (Or.inl (by decide)) "ls &  ".toList (by decide)).1,
      (trailing_amp_background "ls".toList [] "ls ".toList "  ".toList "ls &  ".toList
        (by decide) (by decide) (by decide) (by decide) (by decide) (by decide) (by decide)
        (Or.inl (by decide)) "ls &  ".toList (by decide)).2.2.2 (by decide)⟩⟩

/-- C9 (a line of spaces launches nothing and returns normally, with no access to a missing
`args[0]`) fails on the code. On a line of one space the tokenizer leaves the argument vector empty,
`args[0]` is NULL, and `strcmp(args[0], "ascii")` reads it. -/
theorem blank_line_null_deref :
    (processLine " ".toList).outcome = .nullDeref ∧ (processLine " ".toList).trace = [] ∧
      (tokenize ⟨" ".toList ++ [NUL], 1⟩ 0 true).handed = some ([], .inherited, .inherited, true) := by
  decide

/-- C10: for every line of at most 80 characters no store into `args` or `args2` is out of
bounds (the run ends neither out of bounds nor out of fuel, and no child faults), the index `i`
with which the tokenizer leaves its loop is at most 40 on every buffer of that length, and the
bound is reached by a line of 40 one-character words. -/
theorem args_in_bounds (line : List Char) (hlen : line.length ≤ MAX_LINE) :
    (processLine line).outcome ≠ .outOfBounds ∧ (processLine line).outcome ≠ .outOfFuel ∧
      Event.fork .fault ∉ (processLine line).trace ∧
      (∀ (m : Mem) (command : Nat) (sw : Bool), m.buf.length = line.length + 1 →
        peek m.buf line.length = NUL →
        ∃ i, (tokenize m command sw).index = some i ∧ i ≤ MAX_LINE / 2) ∧
      (tokenize ⟨unwords (List.replicate 40 ['a']) ++ [NUL], 0⟩ 0 true).index = some 40 := by
  have hsafe := processLine_safe line hlen
  refine ⟨?_, ?_, hsafe.2, ?_, by decide⟩
  · rcases hsafe.1 with h | h <;> rw [h] <;> decide
  · rcases hsafe.1 with h | h <;> rw [h] <;> decide
  · intro m command sw h1 h2
    have hexit := tokenize_safe line.length command hlen m sw ⟨h1, h2⟩
    generalize tokenize m command sw = T at hexit
    cases T with
    | fuel => exact absurd hexit (by simp [ExitOK])
    | overflow => exact absurd hexit (by simp [ExitOK])
    | pipeline f =>
      exact ⟨f.i, rfl, by have := hexit.2; simp only [ARGS_LEN, MAX_LINE] at this ⊢; omega⟩
    | fallthrough f =>
      exact ⟨f.i, rfl, by
        have := hexit.2.2.2.2; simp only [ARGS_LEN, MAX_LINE] at this ⊢; omega⟩

/-- A witness for C10: the line `ls -al | wc ; whoami &`. -/
theorem args_in_bounds_witness :
    "ls -al | wc ; whoami &".toList.length ≤ MAX_LINE ∧
      (processLine "ls -al | wc ; whoami &".toList).outcome ≠ .outOfBounds ∧
      (processLine "ls -al | wc ; whoami &".toList).outcome ≠ .outOfFuel ∧
      Event.fork .fault ∉ (processLine "ls -al | wc ; whoami &".toList).trace :=
  ⟨by decide, (args_in_bounds "ls -al | wc ; whoami &".toList (by decide)).1,
    (args_in_bounds "ls -al | wc ; whoami &".toList (by decide)).2.1,
    (args_in_bounds "ls -al | wc ; whoami &".toList (by decide)).2.2.1⟩

end Shell
